import Mathlib

/-!
# Numerical-Optimization: Newton and steepest-descent on the block Rosenbrock objective

A shallow embedding of `src/homework1_Newton_method.cpp` and
`src/homework1_steepest_gradient.cpp`.

Conventions of the embedding.

* The program is embedded twice.  In the first embedding `double` is an arbitrary linearly
  ordered field `K` (exact arithmetic); concrete evaluations are carried out in `ℚ`,
  derivative statements in `ℝ`.  In the second embedding (namespace `F64`) `double` is `Dbl`,
  IEEE-754 binary64 with round-to-nearest, ties-to-even: every operation of the source rounds
  once, in source order (no fused multiply-add), and `std::sqrt` is correctly rounded.
* `std::vector<double>` is `List K`; `v[i]` is `v.getD i 0` and `v[i] = e` is `v.set i e`.
  Inside the bounds these are the C++ reads and writes.  Outside the bounds the C++
  behaviour is undefined; the embedding reads `0` and drops the write.
* A function that can throw returns `Except Err _`; an output parameter is modelled as
  an argument (its incoming contents) and a result (its contents on return).
* The `while (true)` loop of the line search and the `do … while` loops of the drivers take
  a fuel argument and return `none` when it runs out.
* In the exact embedding `std::sqrt` is a parameter `sqrt : K → K` of the drivers; it is
  `Real.sqrt` where a concrete run is evaluated.  Console output and timing are left out.
-/

set_option linter.unusedSectionVars false
set_option exponentiation.threshold 4096

namespace NumOpt

/-- The exceptions of the program, named as in the specification:
`InvalidDimension` is `std::invalid_argument("x的维度必须为偶数")`,
`DimensionMismatch` is `std::invalid_argument("矩阵维度不匹配")`,
`SingularMatrix` is `std::runtime_error("可能奇异，无法求解")`. -/
inductive Err where
  | InvalidDimension
  | DimensionMismatch
  | SingularMatrix
  deriving DecidableEq, Repr

section Defs

variable {K : Type} [LinearOrderedField K]

/-- The values taken by `i` in `for (int i = 0; i < n; i += 2)`. -/
def evens (n : Nat) : List Nat :=
  (List.range ((n + 1) / 2)).map (fun k => 2 * k)

/-- The values taken by `i` in `for (i = lo; i < hi; ++i)`. -/
def upto (lo hi : Nat) : List Nat :=
  List.range' lo (hi - lo)

/-- The contents of a vector after `v.resize(n, fill)`. -/
def resize (v : List K) (n : Nat) (fill : K) : List K :=
  v.take n ++ List.replicate (n - v.length) fill

/-- The entry `m[i][j]` of a vector of vectors. -/
def ent (m : List (List K)) (i j : Nat) : K :=
  (m.getD i []).getD j 0

/-- The assignment `m[i][j] = v`. -/
def setEnt (m : List (List K)) (i j : Nat) (v : K) : List (List K) :=
  m.set i ((m.getD i []).set j v)

namespace Newton

/-- The function `rosenbrock` of `homework1_Newton_method.cpp` (lines 8-21). -/
def rosenbrock (x : List K) : Except Err K :=
  let n := x.length
  if n % 2 ≠ 0 then
    Except.error Err.InvalidDimension
  else
    Except.ok
      ((evens n).foldl
        (fun sum i =>
          let term1 := x.getD (i + 1) 0 - x.getD i 0 * x.getD i 0
          let term2 := 1 - x.getD i 0
          sum + (100 * term1 * term1 + term2 * term2))
        0)

/-- The function `gradient` of `homework1_Newton_method.cpp` (lines 23-35); `grad` is the
incoming contents of the output vector. -/
def gradient (x grad : List K) : Except Err (List K) :=
  let n := x.length
  if n % 2 ≠ 0 then
    Except.error Err.InvalidDimension
  else
    Except.ok
      ((evens n).foldl
        (fun grad i =>
          let term1 := x.getD i 0 * x.getD i 0 - x.getD (i + 1) 0
          let grad := grad.set i (200 * term1 * 2 * x.getD i 0 + 2 * (x.getD i 0 - 1))
          grad.set (i + 1) (-200 * term1))
        (resize grad n 0))

/-- The function `hessian` of `homework1_Newton_method.cpp` (lines 37-50); the output matrix
is reassigned in full, so its incoming contents play no part. -/
def hessian (x : List K) : List (List K) :=
  let n := x.length
  (evens n).foldl
    (fun hess i =>
      let hess := setEnt hess i i (1200 * x.getD i 0 * x.getD i 0 - 400 * x.getD (i + 1) 0 + 2)
      let hess := setEnt hess i (i + 1) (-400 * x.getD i 0)
      let hess := setEnt hess (i + 1) i (-400 * x.getD i 0)
      setEnt hess (i + 1) (i + 1) 200)
    (List.replicate n (List.replicate n 0))

end Newton

namespace Steepest

/-- The function `rosenbrock` of `homework1_steepest_gradient.cpp` (lines 9-18). -/
def rosenbrock (x : List K) : K :=
  let n := x.length
  (evens n).foldl
    (fun sum i =>
      let term1 := x.getD i 0 * x.getD i 0 - x.getD (i + 1) 0
      let term2 := x.getD i 0 - 1
      sum + (100 * term1 * term1 + term2 * term2))
    0

/-- The function `gradient` of `homework1_steepest_gradient.cpp` (lines 20-28); `grad` is
the incoming contents of the output vector. -/
def gradient (x grad : List K) : List K :=
  let n := x.length
  (evens n).foldl
    (fun grad i =>
      let term1 := x.getD i 0 * x.getD i 0 - x.getD (i + 1) 0
      let grad := grad.set i (200 * term1 * 2 * x.getD i 0 + 2 * (x.getD i 0 - 1))
      grad.set (i + 1) (-200 * term1))
    (resize grad n 0)

end Steepest

/-- The scalar `grad_dot_dir` of `armijo_line_search`, accumulated over `i < grad.size()`. -/
def gradDotDir (grad direction : List K) : K :=
  (upto 0 grad.length).foldl (fun s i => s + grad.getD i 0 * direction.getD i 0) 0

/-- The vector `x_new` of `armijo_line_search`: `x_new[i] = x[i] + alpha * direction[i]`. -/
def trialPoint (x direction : List K) (alpha : K) : List K :=
  (upto 0 x.length).foldl
    (fun x_new i => x_new.set i (x.getD i 0 + alpha * direction.getD i 0))
    (List.replicate x.length 0)

namespace Newton

/-- The augmented matrix `[A | b]` built at lines 60-66 of `gaussian_elimination`. -/
def augment (A : List (List K)) (b : List K) (n : Nat) : List (List K) :=
  (upto 0 n).foldl
    (fun aug i =>
      let aug := (upto 0 n).foldl (fun aug j => setEnt aug i j (ent A i j)) aug
      setEnt aug i n (b.getD i 0))
    (List.replicate n (List.replicate (n + 1) 0))

/-- The pivot search of lines 69-74: the first row `j ≥ i` of largest `|aug[j][i]|`. -/
def findPivot (aug : List (List K)) (n i : Nat) : Nat :=
  (upto i n).foldl (fun pivot j => if |ent aug j i| > |ent aug pivot i| then j else pivot) i

/-- The row exchange `std::swap(aug[i], aug[pivot])` of line 80. -/
def swapRows (aug : List (List K)) (i pivot : Nat) : List (List K) :=
  (aug.set i (aug.getD pivot [])).set pivot (aug.getD i [])

/-- The body of the loop over `j` at lines 83-86: row `j` minus `factor` times row `i`, on
the columns `i..n`. -/
def eliminateRow (aug : List (List K)) (n i j : Nat) : List (List K) :=
  let factor := ent aug j i / ent aug i i
  (upto i (n + 1)).foldl (fun aug k => setEnt aug j k (ent aug j k - factor * ent aug i k)) aug

/-- The loop over the rows `j = i+1 .. n-1` at lines 82-87. -/
def eliminateBelow (aug : List (List K)) (n i : Nat) : List (List K) :=
  (upto (i + 1) n).foldl (fun aug j => eliminateRow aug n i j) aug

/-- One pass of the loop over the columns `i` at lines 68-88: pivot search, singularity
test, row exchange, elimination below the pivot. -/
def eliminationStep (aug : List (List K)) (n i : Nat) : Except Err (List (List K)) :=
  let pivot := findPivot aug n i
  if |ent aug pivot i| < 1e-10 then
    Except.error Err.SingularMatrix
  else
    Except.ok (eliminateBelow (swapRows aug i pivot) n i)

/-- The loop over the columns `i = 0 .. n-1` at lines 68-88. -/
def forwardElimination (aug : List (List K)) (n : Nat) : Except Err (List (List K)) :=
  (upto 0 n).foldlM (fun aug i => eliminationStep aug n i) aug

/-- The back substitution of lines 90-97, for `i = n-1` down to `0`; `x` is the incoming
contents of the output vector. -/
def backSubstitute (aug : List (List K)) (n : Nat) (x : List K) : List K :=
  (upto 0 n).reverse.foldl
    (fun x i =>
      let x := x.set i (ent aug i n)
      let x := (upto (i + 1) n).foldl
        (fun x j => x.set i (x.getD i 0 - ent aug i j * x.getD j 0)) x
      x.set i (x.getD i 0 / ent aug i i))
    (resize x n 0)

/-- The function `gaussian_elimination` of `homework1_Newton_method.cpp` (lines 52-98); `x`
is the incoming contents of the output vector. -/
def gaussian_elimination (A : List (List K)) (b x : List K) : Except Err (List K) :=
  let n := A.length
  if n = 0 ∨ (A.getD 0 []).length ≠ n ∨ b.length ≠ n then
    Except.error Err.DimensionMismatch
  else
    match forwardElimination (augment A b n) n with
    | Except.error e => Except.error e
    | Except.ok aug => Except.ok (backSubstitute aug n x)

/-- The `while (true)` loop of `armijo_line_search` (Newton file, lines 120-136). -/
def armijoLoop (x direction : List K) (c rho f_x grad_dot_dir : K) :
    Nat → K → Option (Except Err K)
  | 0, _ => none
  | fuel + 1, alpha =>
    match rosenbrock (trialPoint x direction alpha) with
    | Except.error e => some (Except.error e)
    | Except.ok f_x_new =>
      if f_x_new ≤ f_x + c * alpha * grad_dot_dir then
        some (Except.ok alpha)
      else
        let alpha := alpha * rho
        if alpha < 1e-10 then some (Except.ok alpha)
        else armijoLoop x direction c rho f_x grad_dot_dir fuel alpha

/-- The function `armijo_line_search` of `homework1_Newton_method.cpp` (lines 100-137). -/
def armijo_line_search (fuel : Nat) (x grad direction : List K) (c alpha_init rho : K) :
    Option (Except Err K) :=
  let alpha := alpha_init
  match rosenbrock x with
  | Except.error e => some (Except.error e)
  | Except.ok f_x =>
    let grad_dot_dir := gradDotDir grad direction
    if grad_dot_dir ≥ 0 then
      some (Except.ok 1e-6)
    else
      armijoLoop x direction c rho f_x grad_dot_dir fuel alpha

end Newton

namespace Steepest

/-- The `while (true)` loop of `armijo_line_search` (steepest-descent file, lines 45-60). -/
def armijoLoop (x direction : List K) (c rho f_x grad_dot_dir : K) : Nat → K → Option K
  | 0, _ => none
  | fuel + 1, alpha =>
    let f_x_new := rosenbrock (trialPoint x direction alpha)
    if f_x_new ≤ f_x + c * alpha * grad_dot_dir then
      some alpha
    else
      let alpha := alpha * rho
      if alpha < 1e-10 then some alpha
      else armijoLoop x direction c rho f_x grad_dot_dir fuel alpha

/-- The function `armijo_line_search` of `homework1_steepest_gradient.cpp` (lines 30-61). -/
def armijo_line_search (fuel : Nat) (x grad direction : List K) (c alpha_init rho : K) :
    Option K :=
  let alpha := alpha_init
  let f_x := rosenbrock x
  let grad_dot_dir := gradDotDir grad direction
  armijoLoop x direction c rho f_x grad_dot_dir fuel alpha

end Steepest

/-- The terminal states of the optimizer driver in the specification.  The code prints the
same report on both; the embedding records which test ended the loop. -/
inductive Terminal where
  | Converged
  | MaxIterExceeded
  deriving DecidableEq, Repr

/-- The variables of a driver that live across the passes of its `do … while` loop. -/
structure DriverState (K : Type) where
  x : List K
  grad : List K
  direction : List K
  iter : Nat

/-- What a driver leaves behind: its variables, the last `norm_grad`, and the terminal
state. -/
structure DriverResult (K : Type) where
  state : DriverState K
  norm_grad : K
  terminal : Terminal

/-- The outcome of one pass through the body of the `do … while` loop of `newton_method`. -/
inductive Pass (K : Type) where
  | stop (s : DriverState K) (norm_grad : K)
  | next (s : DriverState K) (norm_grad : K)

/-- The sum accumulated by `for (double g : grad) norm_grad += g * g`. -/
def sumSquares (grad : List K) : K :=
  grad.foldl (fun norm_grad g => norm_grad + g * g) 0

/-- The loop `for (i = 0; i < n; ++i) v[i] = -grad[i]`, on the vector `v`. -/
def assignNeg (v grad : List K) (n : Nat) : List K :=
  (upto 0 n).foldl (fun v i => v.set i (-grad.getD i 0)) v

/-- The loop `for (i = 0; i < n; ++i) x[i] += alpha * direction[i]`. -/
def updatePoint (x direction : List K) (alpha : K) (n : Nat) : List K :=
  (upto 0 n).foldl (fun x i => x.set i (x.getD i 0 + alpha * direction.getD i 0)) x

namespace Newton

/-- One pass through the body of the `do … while` loop of `newton_method` (lines 152-193);
`sqrt` stands for `std::sqrt`, `lsFuel` is the fuel of the line search, and the line search
is called with its default config `c = 0.01`, `alpha_init = 1.0`, `rho = 0.5`.  The console
output is left out. -/
def pass (sqrt : K → K) (lsFuel : Nat) (tol : K) (n : Nat) (s : DriverState K) :
    Option (Except Err (Pass K)) :=
  match gradient s.x s.grad with
  | Except.error e => some (Except.error e)
  | Except.ok grad =>
    let hess := hessian s.x
    let norm_grad := sqrt (sumSquares grad)
    if norm_grad < tol then
      some (Except.ok (Pass.stop { s with grad := grad } norm_grad))
    else
      let b := assignNeg (List.replicate n 0) grad n
      let direction :=
        match gaussian_elimination hess b s.direction with
        | Except.ok direction => direction
        | Except.error _ => assignNeg s.direction grad n
      match armijo_line_search lsFuel s.x grad direction 0.01 1.0 0.5 with
      | none => none
      | some (Except.error e) => some (Except.error e)
      | some (Except.ok alpha) =>
        let x := updatePoint s.x direction alpha n
        some (Except.ok (Pass.next
          { x := x, grad := grad, direction := direction, iter := s.iter + 1 } norm_grad))

/-- The `do … while (iter < max_iter)` loop of `newton_method` (lines 151-195); `fuel` bounds
the number of passes. -/
def loop (sqrt : K → K) (lsFuel : Nat) (tol : K) (max_iter : Int) (n : Nat) :
    Nat → DriverState K → Option (Except Err (DriverResult K))
  | 0, _ => none
  | fuel + 1, s =>
    match pass sqrt lsFuel tol n s with
    | none => none
    | some (Except.error e) => some (Except.error e)
    | some (Except.ok (Pass.stop s' norm_grad)) =>
      some (Except.ok { state := s', norm_grad := norm_grad, terminal := Terminal.Converged })
    | some (Except.ok (Pass.next s' norm_grad)) =>
      if (s'.iter : Int) < max_iter then loop sqrt lsFuel tol max_iter n fuel s'
      else
        some (Except.ok
          { state := s', norm_grad := norm_grad, terminal := Terminal.MaxIterExceeded })

/-- The function `newton_method` of `homework1_Newton_method.cpp` (lines 139-204). -/
def newton_method (sqrt : K → K) (lsFuel fuel : Nat) (x : List K) (tol : K) (max_iter : Int) :
    Option (Except Err (DriverResult K)) :=
  let n := x.length
  loop sqrt lsFuel tol max_iter n fuel
    { x := x, grad := List.replicate n 0, direction := List.replicate n 0, iter := 0 }

end Newton

namespace Steepest

/-- One pass through the body of the `do … while` loop of `steepest_gradient_descent`
(lines 75-98), with the value of `norm_grad` it computed. -/
def pass (sqrt : K → K) (lsFuel : Nat) (n : Nat) (s : DriverState K) :
    Option (DriverState K × K) :=
  let grad := gradient s.x s.grad
  let norm_grad := sqrt (sumSquares grad)
  let direction := assignNeg s.direction grad n
  match armijo_line_search lsFuel s.x grad direction 0.01 1.0 0.5 with
  | none => none
  | some alpha =>
    let x := updatePoint s.x direction alpha n
    some ({ x := x, grad := grad, direction := direction, iter := s.iter + 1 }, norm_grad)

/-- The `do … while (norm_grad > tol && iter < max_iter)` loop of
`steepest_gradient_descent` (lines 74-100); `fuel` bounds the number of passes.  The loop
has one exit; it is reported as `Converged` when `norm_grad > tol` failed and as
`MaxIterExceeded` otherwise. -/
def loop (sqrt : K → K) (lsFuel : Nat) (tol : K) (max_iter : Int) (n : Nat) :
    Nat → DriverState K → Option (DriverResult K)
  | 0, _ => none
  | fuel + 1, s =>
    match pass sqrt lsFuel n s with
    | none => none
    | some (s', norm_grad) =>
      if norm_grad > tol ∧ (s'.iter : Int) < max_iter then loop sqrt lsFuel tol max_iter n fuel s'
      else
        some
          { state := s', norm_grad := norm_grad,
            terminal := if norm_grad > tol then Terminal.MaxIterExceeded else Terminal.Converged }

/-- The function `steepest_gradient_descent` of `homework1_steepest_gradient.cpp`
(lines 63-108). -/
def steepest_gradient_descent (sqrt : K → K) (lsFuel fuel : Nat) (x : List K) (tol : K)
    (max_iter : Int) : Option (DriverResult K) :=
  let n := x.length
  loop sqrt lsFuel tol max_iter n fuel
    { x := x, grad := List.replicate n 0, direction := List.replicate n 0, iter := 0 }

end Steepest

/-- The Armijo condition `f(x + α·d) ≤ f(x) + c·α·(g·d)` with the values the code computes. -/
def Armijo (x direction : List K) (c f_x grad_dot_dir alpha : K) : Prop :=
  Steepest.rosenbrock (trialPoint x direction alpha) ≤ f_x + c * alpha * grad_dot_dir

/-- The exit test of the backtracking loop at trial number `k`: the Armijo condition holds at
`alpha_init·rho^k`, or `k ≥ 1` and `alpha_init·rho^k < 1e-10`. -/
def Stops (x direction : List K) (c rho f_x grad_dot_dir alpha_init : K) (k : Nat) : Prop :=
  Armijo x direction c f_x grad_dot_dir (alpha_init * rho ^ k) ∨
    (1 ≤ k ∧ alpha_init * rho ^ k < 1e-10)

/-- The objective as the specification words it:
`Σ_k [100·(x_{2k}² − x_{2k+1})² + (x_{2k} − 1)²]`, over the pairs of the point. -/
def rosenbrockSpec (x : List K) : K :=
  ∑ k in Finset.range (x.length / 2),
    (100 * (x.getD (2 * k) 0 ^ 2 - x.getD (2 * k + 1) 0) ^ 2 + (x.getD (2 * k) 0 - 1) ^ 2)

/-- The partial derivatives as the specification words them: with
`t = x_{2k}² − x_{2k+1}`, coordinate `2k` gets `400·t·x_{2k} + 2·(x_{2k} − 1)` and
coordinate `2k+1` gets `−200·t`. -/
def gradSpec (x : List K) (i : Nat) : K :=
  if i % 2 = 0 then
    400 * (x.getD i 0 ^ 2 - x.getD (i + 1) 0) * x.getD i 0 + 2 * (x.getD i 0 - 1)
  else
    -200 * (x.getD (i - 1) 0 ^ 2 - x.getD i 0)

/-- The second partial derivatives as the specification words them: inside the pair
`(2k, 2k+1)` the entries `1200·x_{2k}² − 400·x_{2k+1} + 2`, `−400·x_{2k}` (twice) and `200`;
zero between different pairs. -/
def hessSpec (x : List K) (i j : Nat) : K :=
  if i / 2 = j / 2 then
    if i % 2 = 0 then
      if j % 2 = 0 then 1200 * x.getD i 0 ^ 2 - 400 * x.getD (i + 1) 0 + 2
      else -400 * x.getD i 0
    else
      if j % 2 = 0 then -400 * x.getD j 0
      else 200
  else 0

/-- A vector of vectors with `r` rows, each of length `c`. -/
def IsMat (m : List (List K)) (r c : Nat) : Prop :=
  m.length = r ∧ ∀ i, i < r → (m.getD i []).length = c

/-- The vector `point + alpha·direction` as the specification words it, elementwise. -/
def axpySpec (x d : List K) (alpha : K) : List K :=
  List.zipWith (fun xi di => xi + alpha * di) x d

/-- The vector `−g` as the specification words it, elementwise. -/
def negSpec (g : List K) : List K :=
  g.map (fun a => -a)

/-- The directional derivative `gradient · direction` as the specification words it. -/
def dotSpec (g d : List K) : K :=
  ∑ i in Finset.range g.length, g.getD i 0 * d.getD i 0

/-- The Armijo condition as the specification words it:
`f(point + alpha·direction) ≤ f(point) + c·alpha·directional_derivative`. -/
def ArmijoSpec (x g d : List K) (c alpha : K) : Prop :=
  rosenbrockSpec (axpySpec x d alpha) ≤ rosenbrockSpec x + c * alpha * dotSpec g d

/-- Row `r` of `[U | c]`, read as an equation in the unknowns `y 0 .. y (n-1)`, holds. -/
def RowSat (m : List (List K)) (n : Nat) (y : Nat → K) (r : Nat) : Prop :=
  ∑ c in Finset.range n, ent m r c * y c = ent m r n

/-- All `n` equations of the augmented matrix hold at `y`. -/
def Sat (m : List (List K)) (n : Nat) (y : Nat → K) : Prop :=
  ∀ r, r < n → RowSat m n y r

/-- The state of the elimination before column `i` is processed: same solutions as the
initial system, zeros below the diagonal in the columns before `i`, non-zero pivots there. -/
def ElimInv (aug0 aug : List (List K)) (n i : Nat) : Prop :=
  IsMat aug n (n + 1) ∧
  (∀ y : Nat → K, Sat aug n y ↔ Sat aug0 n y) ∧
  (∀ c r, c < i → c < r → r < n → ent aug r c = 0) ∧
  (∀ c, c < i → ent aug c c ≠ 0)

/-- A driver state whose vectors have the sizes the drivers give them. -/
def WellSized (n : Nat) (s : DriverState K) : Prop :=
  s.x.length = n ∧ n % 2 = 0 ∧ s.direction.length = n

namespace Newton

/-- The report printed by `newton_method` at lines 197-203: the iteration count, the final
`x`, `rosenbrock(x)` evaluated at that `x`, and the variable `norm_grad`. -/
def final_report (r : DriverResult K) : Except Err (Nat × List K × K × K) :=
  match rosenbrock r.state.x with
  | Except.error e => Except.error e
  | Except.ok f_x => Except.ok (r.state.iter, r.state.x, f_x, r.norm_grad)

end Newton

/-! ## Double-precision arithmetic

The definitions above read `double` as an exact ordered field.  The definitions below read it
as IEEE-754 binary64 with round-to-nearest, ties-to-even: every `+`, `-`, `*`, `/` and
`std::sqrt` of the source rounds once, in the order the source writes them, and a decimal
literal denotes the double nearest to it. -/

/-- An IEEE-754 binary64 value.  `fin neg m e` is the finite number `(-1)^neg · m · 2^e`;
the operations below produce it with `m < 2^53`, `-1074 ≤ e ≤ 971` and, unless `e = -1074`,
`2^52 ≤ m` (zero is `m = 0`, `e = -1074`, of either sign).  `inf neg` is `±∞`, `nan` is
not-a-number. -/
inductive Dbl where
  | fin (neg : Bool) (m : Nat) (e : Int)
  | inf (neg : Bool)
  | nan
  deriving DecidableEq

deriving instance DecidableEq for Except
deriving instance DecidableEq for DriverState
deriving instance DecidableEq for DriverResult

namespace Dbl

/-- The number of binary digits of `n`, counted by halving `n` at most `fuel` times. -/
def bitsAux : Nat → Nat → Nat
  | 0, _ => 0
  | fuel + 1, n => if n = 0 then 0 else bitsAux fuel (n / 2) + 1

/-- The position of the leading bit of `n`, for `0 < n < 2^(2^j)`, by binary descent: the
upper `2^(j-1)` of the `2^j` positions are examined first. -/
def bitsDesc : Nat → Nat → Nat
  | 0, _ => 0
  | j + 1, n => if 2 ^ 2 ^ j ≤ n then 2 ^ j + bitsDesc j (n / 2 ^ 2 ^ j) else bitsDesc j n

/-- The number of binary digits of `n`: `0` for `0`, otherwise the `b` with
`2^(b-1) ≤ n < 2^b`; found by binary descent below `2^4096`, by halving above. -/
def bits (n : Nat) : Nat :=
  if n = 0 then 0 else if n < 2 ^ 2 ^ 12 then bitsDesc 12 n + 1 else bitsAux n n

/-- The integer nearest to `M / 2^sh`, the even one of the two when `M / 2^sh` lies halfway
(`1 ≤ sh`). -/
def roundShift (M sh : Nat) : Nat :=
  let q : Nat := M / 2 ^ sh
  let r : Nat := M % 2 ^ sh
  let half : Nat := 2 ^ (sh - 1)
  if half < r ∨ (r = half ∧ q % 2 = 1) then q + 1 else q

/-- The double `(-1)^neg · q · 2^e` for `q ≤ 2^53`: a significand that rounding carried to
`2^53` moves to the next exponent, and an exponent above `971` overflows to infinity. -/
def pack (neg : Bool) (q : Nat) (e : Int) : Dbl :=
  if q = 2 ^ 53 then (if 971 < e + 1 then inf neg else fin neg (2 ^ 52) (e + 1))
  else if 971 < e then inf neg else fin neg q e

/-- The double nearest to `(-1)^neg · M · 2^E`, ties to even: the result keeps 53 significant
bits, or the bits above `2^-1074` when the number is subnormal. -/
def round (neg : Bool) (M : Nat) (E : Int) : Dbl :=
  if M = 0 then fin neg 0 (-1074) else
  let e' : Int := max (E + (bits M : Int) - 53) (-1074)
  if e' ≤ E then pack neg (M * 2 ^ (E - e').toNat) e'
  else pack neg (roundShift M (e' - E).toNat) e'

/-- The double nearest to `(-1)^neg · (n / d) · 2^E`, for `d > 0`: the quotient is taken to
at least 55 bits and a non-zero remainder is recorded in one more, lowest bit. -/
def roundQuot (neg : Bool) (n d : Nat) (E : Int) : Dbl :=
  let k : Nat := 55 + bits d - bits n
  let N : Nat := n * 2 ^ k
  let q : Nat := N / d
  let r : Nat := N % d
  round neg (2 * q + (if r = 0 then 0 else 1)) (E - (k : Int) - 1)

/-- Newton iteration for the integer square root, from a start `x` above the root. -/
def isqrtAux : Nat → Nat → Nat → Nat
  | 0, _, x => x
  | fuel + 1, n, x =>
    let y := (x + n / x) / 2
    if y < x then isqrtAux fuel n y else x

/-- The integer square root of `n`, rounded down. -/
def isqrt (n : Nat) : Nat :=
  if n = 0 then 0 else isqrtAux (bits n) n (2 ^ ((bits n + 1) / 2))

/-- Unary minus: the sign bit is flipped. -/
def neg : Dbl → Dbl
  | fin s m e => fin (!s) m e
  | inf s => inf (!s)
  | nan => nan

/-- The function `std::abs`: the sign bit is cleared. -/
def abs : Dbl → Dbl
  | fin _ m e => fin false m e
  | inf _ => inf false
  | nan => nan

/-- The integer `(-1)^s · m · 2^(e - e0)`, for `e0 ≤ e`. -/
def scaled (s : Bool) (m : Nat) (e e0 : Int) : Int :=
  if s then -((m * 2 ^ (e - e0).toNat : Nat) : Int) else ((m * 2 ^ (e - e0).toNat : Nat) : Int)

/-- Addition: the exact sum, rounded.  An exact zero sum is `-0` only when both terms are
negative (two negative zeros). -/
def add : Dbl → Dbl → Dbl
  | nan, _ => nan
  | _, nan => nan
  | inf s, inf t => if s = t then inf s else nan
  | inf s, fin _ _ _ => inf s
  | fin _ _ _, inf t => inf t
  | fin s m e, fin t k f =>
    let e0 := min e f
    let v := scaled s m e e0 + scaled t k f e0
    if v = 0 then fin (s && t) 0 (-1074) else round (decide (v < 0)) v.natAbs e0

/-- Subtraction: `a - b` is `a + (-b)`. -/
def sub (a b : Dbl) : Dbl := add a (neg b)

/-- Multiplication: the exact product, rounded; `0 · ∞` is `nan`. -/
def mul : Dbl → Dbl → Dbl
  | nan, _ => nan
  | _, nan => nan
  | inf s, inf t => inf (xor s t)
  | inf s, fin t k _ => if k = 0 then nan else inf (xor s t)
  | fin s m _, inf t => if m = 0 then nan else inf (xor s t)
  | fin s m e, fin t k f => round (xor s t) (m * k) (e + f)

/-- Division: the exact quotient, rounded; `0 / 0` and `∞ / ∞` are `nan`, a non-zero number
over zero is an infinity. -/
def div : Dbl → Dbl → Dbl
  | nan, _ => nan
  | _, nan => nan
  | inf _, inf _ => nan
  | inf s, fin t _ _ => inf (xor s t)
  | fin s _ _, inf t => fin (xor s t) 0 (-1074)
  | fin s m e, fin t k f =>
    if k = 0 then (if m = 0 then nan else inf (xor s t))
    else roundQuot (xor s t) m k (e - f)

/-- The function `std::sqrt`: the exact square root, rounded; `nan` below zero, and
`sqrt(-0) = -0`. -/
def sqrt : Dbl → Dbl
  | nan => nan
  | inf s => if s then nan else inf false
  | fin s m e =>
    if m = 0 then fin s 0 (-1074)
    else if s then nan
    else
      let sh : Nat := if (e - 110) % 2 = 0 then 110 else 111
      let N : Nat := m * 2 ^ sh
      let r : Nat := isqrt N
      round false (2 * r + (if r * r = N then 0 else 1)) ((e - (sh : Int)) / 2 - 1)

/-- The comparison `a < b`: false when either side is `nan`; the two zeros are equal. -/
def lt : Dbl → Dbl → Bool
  | nan, _ => false
  | _, nan => false
  | inf s, inf t => s && !t
  | inf s, fin _ _ _ => s
  | fin _ _ _, inf t => !t
  | fin s m e, fin t k f => decide (scaled s m e (min e f) < scaled t k f (min e f))

/-- The comparison `a <= b`: false when either side is `nan`; the two zeros are equal. -/
def le : Dbl → Dbl → Bool
  | nan, _ => false
  | _, nan => false
  | inf s, inf t => s || !t
  | inf s, fin _ _ _ => s
  | fin _ _ _, inf t => !t
  | fin s m e, fin t k f => decide (scaled s m e (min e f) ≤ scaled t k f (min e f))

/-- The rational value of a finite double (`0` for an infinity or `nan`). -/
def toRat : Dbl → ℚ
  | fin s m e => (if s then -1 else 1) * (m : ℚ) * (2 : ℚ) ^ e
  | inf _ => 0
  | nan => 0

/-- The form in which the operations produce a double: 53 bits, exponent in range, leading
bit set unless subnormal. -/
def Canon : Dbl → Prop
  | fin _ m e => m < 2 ^ 53 ∧ -1074 ≤ e ∧ e ≤ 971 ∧ (2 ^ 52 ≤ m ∨ e = -1074)
  | inf _ => True
  | nan => True

/-- The double `2^e`, for `-1022 ≤ e ≤ 1023`. -/
def twoPow (e : Int) : Dbl := fin false (2 ^ 52) (e - 52)

instance instAdd : Add Dbl := ⟨add⟩
instance instSub : Sub Dbl := ⟨sub⟩
instance instMul : Mul Dbl := ⟨mul⟩
instance instDiv : Div Dbl := ⟨div⟩
instance instNeg : Neg Dbl := ⟨neg⟩
instance instLT : LT Dbl := ⟨fun a b => lt a b = true⟩
instance instLE : LE Dbl := ⟨fun a b => le a b = true⟩
instance instDecidableLT (a b : Dbl) : Decidable (a < b) :=
  inferInstanceAs (Decidable (lt a b = true))
instance instDecidableLE (a b : Dbl) : Decidable (a ≤ b) :=
  inferInstanceAs (Decidable (le a b = true))

/-- An integer literal (or an `int` converted to `double`): the nearest double. -/
instance instOfNat (n : Nat) : OfNat Dbl n := ⟨round false n 0⟩

/-- A decimal literal `m · 10^(±e)`: the nearest double. -/
instance instOfScientific : OfScientific Dbl :=
  ⟨fun m s e => if s then roundQuot false m (10 ^ e) 0 else round false (m * 10 ^ e) 0⟩

end Dbl

/-! ## The program in double-precision arithmetic

The functions of the two source files once more, with `double` read as `Dbl`.  The control
flow is that of the definitions above; each arithmetic operation and comparison is the
binary64 one, applied in the order in which the source writes it. -/

namespace F64

/-- The contents of a vector after `v.resize(n, fill)`. -/
def resize (v : List Dbl) (n : Nat) (fill : Dbl) : List Dbl :=
  v.take n ++ List.replicate (n - v.length) fill

/-- The entry `m[i][j]` of a vector of vectors. -/
def ent (m : List (List Dbl)) (i j : Nat) : Dbl :=
  (m.getD i []).getD j 0

/-- The assignment `m[i][j] = v`. -/
def setEnt (m : List (List Dbl)) (i j : Nat) (v : Dbl) : List (List Dbl) :=
  m.set i ((m.getD i []).set j v)

namespace Newton

/-- The function `rosenbrock` of `homework1_Newton_method.cpp` (lines 8-21), in doubles. -/
def rosenbrock (x : List Dbl) : Except Err Dbl :=
  let n := x.length
  if n % 2 ≠ 0 then
    Except.error Err.InvalidDimension
  else
    Except.ok
      ((evens n).foldl
        (fun sum i =>
          let term1 := x.getD (i + 1) 0 - x.getD i 0 * x.getD i 0
          let term2 := 1.0 - x.getD i 0
          sum + (100.0 * term1 * term1 + term2 * term2))
        0.0)

/-- The function `gradient` of `homework1_Newton_method.cpp` (lines 23-35), in doubles;
`grad` is the incoming contents of the output vector. -/
def gradient (x grad : List Dbl) : Except Err (List Dbl) :=
  let n := x.length
  if n % 2 ≠ 0 then
    Except.error Err.InvalidDimension
  else
    Except.ok
      ((evens n).foldl
        (fun grad i =>
          let term1 := x.getD i 0 * x.getD i 0 - x.getD (i + 1) 0
          let grad := grad.set i (200.0 * term1 * 2 * x.getD i 0 + 2.0 * (x.getD i 0 - 1.0))
          grad.set (i + 1) (-200.0 * term1))
        (resize grad n 0.0))

/-- The function `hessian` of `homework1_Newton_method.cpp` (lines 37-50), in doubles. -/
def hessian (x : List Dbl) : List (List Dbl) :=
  let n := x.length
  (evens n).foldl
    (fun hess i =>
      let hess :=
        setEnt hess i i (1200.0 * x.getD i 0 * x.getD i 0 - 400.0 * x.getD (i + 1) 0 + 2.0)
      let hess := setEnt hess i (i + 1) (-400.0 * x.getD i 0)
      let hess := setEnt hess (i + 1) i (-400.0 * x.getD i 0)
      setEnt hess (i + 1) (i + 1) 200.0)
    (List.replicate n (List.replicate n 0.0))

end Newton

namespace Steepest

/-- The function `rosenbrock` of `homework1_steepest_gradient.cpp` (lines 9-18), in
doubles. -/
def rosenbrock (x : List Dbl) : Dbl :=
  let n := x.length
  (evens n).foldl
    (fun sum i =>
      let term1 := x.getD i 0 * x.getD i 0 - x.getD (i + 1) 0
      let term2 := x.getD i 0 - 1.0
      sum + (100.0 * term1 * term1 + term2 * term2))
    0.0

/-- The function `gradient` of `homework1_steepest_gradient.cpp` (lines 20-28), in doubles;
`grad` is the incoming contents of the output vector. -/
def gradient (x grad : List Dbl) : List Dbl :=
  let n := x.length
  (evens n).foldl
    (fun grad i =>
      let term1 := x.getD i 0 * x.getD i 0 - x.getD (i + 1) 0
      let grad := grad.set i (200.0 * term1 * 2 * x.getD i 0 + 2.0 * (x.getD i 0 - 1.0))
      grad.set (i + 1) (-200.0 * term1))
    (resize grad n 0.0)

end Steepest

/-- The scalar `grad_dot_dir` of `armijo_line_search`, accumulated in double over
`i < grad.size()`, starting from `0.0`. -/
def gradDotDir (grad direction : List Dbl) : Dbl :=
  (upto 0 grad.length).foldl (fun s i => s + grad.getD i 0 * direction.getD i 0) 0.0

/-- The vector `x_new` of `armijo_line_search`: `x_new[i] = x[i] + alpha * direction[i]`. -/
def trialPoint (x direction : List Dbl) (alpha : Dbl) : List Dbl :=
  (upto 0 x.length).foldl
    (fun x_new i => x_new.set i (x.getD i 0 + alpha * direction.getD i 0))
    (List.replicate x.length 0)

namespace Newton

/-- The augmented matrix `[A | b]` built at lines 60-66 of `gaussian_elimination`. -/
def augment (A : List (List Dbl)) (b : List Dbl) (n : Nat) : List (List Dbl) :=
  (upto 0 n).foldl
    (fun aug i =>
      let aug := (upto 0 n).foldl (fun aug j => setEnt aug i j (ent A i j)) aug
      setEnt aug i n (b.getD i 0))
    (List.replicate n (List.replicate (n + 1) 0))

/-- The pivot search of lines 69-74: the first row `j ≥ i` of largest `std::abs(aug[j][i])`. -/
def findPivot (aug : List (List Dbl)) (n i : Nat) : Nat :=
  (upto i n).foldl
    (fun pivot j => if Dbl.abs (ent aug j i) > Dbl.abs (ent aug pivot i) then j else pivot) i

/-- The row exchange `std::swap(aug[i], aug[pivot])` of line 80. -/
def swapRows (aug : List (List Dbl)) (i pivot : Nat) : List (List Dbl) :=
  (aug.set i (aug.getD pivot [])).set pivot (aug.getD i [])

/-- The body of the loop over `j` at lines 83-86: row `j` minus `factor` times row `i`, on
the columns `i..n`, each product and each difference rounded. -/
def eliminateRow (aug : List (List Dbl)) (n i j : Nat) : List (List Dbl) :=
  let factor := ent aug j i / ent aug i i
  (upto i (n + 1)).foldl (fun aug k => setEnt aug j k (ent aug j k - factor * ent aug i k)) aug

/-- The loop over the rows `j = i+1 .. n-1` at lines 82-87. -/
def eliminateBelow (aug : List (List Dbl)) (n i : Nat) : List (List Dbl) :=
  (upto (i + 1) n).foldl (fun aug j => eliminateRow aug n i j) aug

/-- One pass of the loop over the columns `i` at lines 68-88: pivot search, singularity
test on the computed pivot, row exchange, elimination below the pivot. -/
def eliminationStep (aug : List (List Dbl)) (n i : Nat) : Except Err (List (List Dbl)) :=
  let pivot := findPivot aug n i
  if Dbl.abs (ent aug pivot i) < 1e-10 then
    Except.error Err.SingularMatrix
  else
    Except.ok (eliminateBelow (swapRows aug i pivot) n i)

/-- The loop over the columns `i = 0 .. n-1` at lines 68-88. -/
def forwardElimination (aug : List (List Dbl)) (n : Nat) : Except Err (List (List Dbl)) :=
  (upto 0 n).foldlM (fun aug i => eliminationStep aug n i) aug

/-- The back substitution of lines 90-97, for `i = n-1` down to `0`; `x` is the incoming
contents of the output vector. -/
def backSubstitute (aug : List (List Dbl)) (n : Nat) (x : List Dbl) : List Dbl :=
  (upto 0 n).reverse.foldl
    (fun x i =>
      let x := x.set i (ent aug i n)
      let x := (upto (i + 1) n).foldl
        (fun x j => x.set i (x.getD i 0 - ent aug i j * x.getD j 0)) x
      x.set i (x.getD i 0 / ent aug i i))
    (resize x n 0)

/-- The function `gaussian_elimination` of `homework1_Newton_method.cpp` (lines 52-98), in
doubles; `x` is the incoming contents of the output vector. -/
def gaussian_elimination (A : List (List Dbl)) (b x : List Dbl) : Except Err (List Dbl) :=
  let n := A.length
  if n = 0 ∨ (A.getD 0 []).length ≠ n ∨ b.length ≠ n then
    Except.error Err.DimensionMismatch
  else
    match forwardElimination (augment A b n) n with
    | Except.error e => Except.error e
    | Except.ok aug => Except.ok (backSubstitute aug n x)

/-- The `while (true)` loop of `armijo_line_search` (Newton file, lines 120-136), in
doubles. -/
def armijoLoop (x direction : List Dbl) (c rho f_x grad_dot_dir : Dbl) :
    Nat → Dbl → Option (Except Err Dbl)
  | 0, _ => none
  | fuel + 1, alpha =>
    match rosenbrock (trialPoint x direction alpha) with
    | Except.error e => some (Except.error e)
    | Except.ok f_x_new =>
      if f_x_new ≤ f_x + c * alpha * grad_dot_dir then
        some (Except.ok alpha)
      else
        let alpha := alpha * rho
        if alpha < 1e-10 then some (Except.ok alpha)
        else armijoLoop x direction c rho f_x grad_dot_dir fuel alpha

/-- The function `armijo_line_search` of `homework1_Newton_method.cpp` (lines 100-137), in
doubles. -/
def armijo_line_search (fuel : Nat) (x grad direction : List Dbl) (c alpha_init rho : Dbl) :
    Option (Except Err Dbl) :=
  let alpha := alpha_init
  match rosenbrock x with
  | Except.error e => some (Except.error e)
  | Except.ok f_x =>
    let grad_dot_dir := gradDotDir grad direction
    if grad_dot_dir ≥ 0 then
      some (Except.ok 1e-6)
    else
      armijoLoop x direction c rho f_x grad_dot_dir fuel alpha

end Newton

namespace Steepest

/-- The `while (true)` loop of `armijo_line_search` (steepest-descent file, lines 45-60), in
doubles. -/
def armijoLoop (x direction : List Dbl) (c rho f_x grad_dot_dir : Dbl) : Nat → Dbl → Option Dbl
  | 0, _ => none
  | fuel + 1, alpha =>
    let f_x_new := rosenbrock (trialPoint x direction alpha)
    if f_x_new ≤ f_x + c * alpha * grad_dot_dir then
      some alpha
    else
      let alpha := alpha * rho
      if alpha < 1e-10 then some alpha
      else armijoLoop x direction c rho f_x grad_dot_dir fuel alpha

/-- The function `armijo_line_search` of `homework1_steepest_gradient.cpp` (lines 30-61), in
doubles. -/
def armijo_line_search (fuel : Nat) (x grad direction : List Dbl) (c alpha_init rho : Dbl) :
    Option Dbl :=
  let alpha := alpha_init
  let f_x := rosenbrock x
  let grad_dot_dir := gradDotDir grad direction
  armijoLoop x direction c rho f_x grad_dot_dir fuel alpha

end Steepest

/-- The sum accumulated by `for (double g : grad) norm_grad += g * g`, from `0.0`. -/
def sumSquares (grad : List Dbl) : Dbl :=
  grad.foldl (fun norm_grad g => norm_grad + g * g) 0.0

/-- The loop `for (i = 0; i < n; ++i) v[i] = -grad[i]`, on the vector `v`. -/
def assignNeg (v grad : List Dbl) (n : Nat) : List Dbl :=
  (upto 0 n).foldl (fun v i => v.set i (-grad.getD i 0)) v

/-- The loop `for (i = 0; i < n; ++i) x[i] += alpha * direction[i]`. -/
def updatePoint (x direction : List Dbl) (alpha : Dbl) (n : Nat) : List Dbl :=
  (upto 0 n).foldl (fun x i => x.set i (x.getD i 0 + alpha * direction.getD i 0)) x

namespace Newton

/-- One pass through the body of the `do … while` loop of `newton_method` (lines 152-193),
in doubles, with `std::sqrt` the correctly rounded square root. -/
def pass (lsFuel : Nat) (tol : Dbl) (n : Nat) (s : DriverState Dbl) :
    Option (Except Err (Pass Dbl)) :=
  match gradient s.x s.grad with
  | Except.error e => some (Except.error e)
  | Except.ok grad =>
    let hess := hessian s.x
    let norm_grad := Dbl.sqrt (sumSquares grad)
    if norm_grad < tol then
      some (Except.ok (Pass.stop { s with grad := grad } norm_grad))
    else
      let b := assignNeg (List.replicate n 0) grad n
      let direction :=
        match gaussian_elimination hess b s.direction with
        | Except.ok direction => direction
        | Except.error _ => assignNeg s.direction grad n
      match armijo_line_search lsFuel s.x grad direction 0.01 1.0 0.5 with
      | none => none
      | some (Except.error e) => some (Except.error e)
      | some (Except.ok alpha) =>
        let x := updatePoint s.x direction alpha n
        some (Except.ok (Pass.next
          { x := x, grad := grad, direction := direction, iter := s.iter + 1 } norm_grad))

/-- The `do … while (iter < max_iter)` loop of `newton_method` (lines 151-195), in doubles;
`fuel` bounds the number of passes. -/
def loop (lsFuel : Nat) (tol : Dbl) (max_iter : Int) (n : Nat) :
    Nat → DriverState Dbl → Option (Except Err (DriverResult Dbl))
  | 0, _ => none
  | fuel + 1, s =>
    match pass lsFuel tol n s with
    | none => none
    | some (Except.error e) => some (Except.error e)
    | some (Except.ok (Pass.stop s' norm_grad)) =>
      some (Except.ok { state := s', norm_grad := norm_grad, terminal := Terminal.Converged })
    | some (Except.ok (Pass.next s' norm_grad)) =>
      if (s'.iter : Int) < max_iter then loop lsFuel tol max_iter n fuel s'
      else
        some (Except.ok
          { state := s', norm_grad := norm_grad, terminal := Terminal.MaxIterExceeded })

/-- The function `newton_method` of `homework1_Newton_method.cpp` (lines 139-204), in
doubles. -/
def newton_method (lsFuel fuel : Nat) (x : List Dbl) (tol : Dbl) (max_iter : Int) :
    Option (Except Err (DriverResult Dbl)) :=
  let n := x.length
  loop lsFuel tol max_iter n fuel
    { x := x, grad := List.replicate n 0, direction := List.replicate n 0, iter := 0 }

end Newton

namespace Steepest

/-- One pass through the body of the `do … while` loop of `steepest_gradient_descent`
(lines 75-98), in doubles, with the value of `norm_grad` it computed. -/
def pass (lsFuel : Nat) (n : Nat) (s : DriverState Dbl) :
    Option (DriverState Dbl × Dbl) :=
  let grad := gradient s.x s.grad
  let norm_grad := Dbl.sqrt (sumSquares grad)
  let direction := assignNeg s.direction grad n
  match armijo_line_search lsFuel s.x grad direction 0.01 1.0 0.5 with
  | none => none
  | some alpha =>
    let x := updatePoint s.x direction alpha n
    some ({ x := x, grad := grad, direction := direction, iter := s.iter + 1 }, norm_grad)

end Steepest

/-- The Armijo test of both line searches with the values the code computes in double:
`f_x_new <= f_x + c * alpha * grad_dot_dir` at the trial point of `alpha`. -/
def Armijo (x direction : List Dbl) (c f_x grad_dot_dir alpha : Dbl) : Prop :=
  Steepest.rosenbrock (trialPoint x direction alpha) ≤ f_x + c * alpha * grad_dot_dir

/-- The value of `alpha` at trial number `k`: `alpha_init` multiplied `k` times by `rho`, each
product rounded. -/
def alphaSeq (alpha_init rho : Dbl) : Nat → Dbl
  | 0 => alpha_init
  | k + 1 => alphaSeq alpha_init rho k * rho

/-- The exit test of the backtracking loop at trial number `k`, as the code computes it: the
Armijo test holds at `alphaSeq k`, or `k ≥ 1` and `alphaSeq k < 1e-10`. -/
def Stops (x direction : List Dbl) (c rho f_x grad_dot_dir alpha_init : Dbl) (k : Nat) : Prop :=
  Armijo x direction c f_x grad_dot_dir (alphaSeq alpha_init rho k) ∨
    (1 ≤ k ∧ alphaSeq alpha_init rho k < 1e-10)

end F64

namespace Dbl

/-- A double with the sign bit clear that is not `nan`: `+0`, a positive number or `+∞`. -/
def NonNeg : Dbl → Prop
  | fin s _ _ => s = false
  | inf s => s = false
  | nan => False

end Dbl

namespace F64

/-- A vector of vectors of doubles with `r` rows, each of length `c`. -/
def IsMat (m : List (List Dbl)) (r c : Nat) : Prop :=
  m.length = r ∧ ∀ i, i < r → (m.getD i []).length = c

end F64

namespace Dbl

/-- A double whose exponent, if it is finite, is at least `-1074`: a multiple of the
smallest positive double. -/
def ExpOk : Dbl → Prop
  | fin _ _ e => -1074 ≤ e
  | inf _ => True
  | nan => True

end Dbl

end Defs

section Lemmas

variable {K : Type} [LinearOrderedField K]

theorem foldl_evens {σ : Type} (f : σ → Nat → σ) (s : σ) (n : Nat) :
    (evens n).foldl f s = (List.range ((n + 1) / 2)).foldl (fun s k => f s (2 * k)) s := by
  simp [evens, List.foldl_map]

theorem foldl_add_range (f : Nat → K) (a : K) (m : Nat) :
    (List.range m).foldl (fun s k => s + f k) a = a + ∑ k in Finset.range m, f k := by
  induction m with
  | zero => simp
  | succ m ih =>
    rw [List.range_succ, List.foldl_append, ih, Finset.sum_range_succ]
    simp [add_assoc]

theorem half_succ_of_even {n : Nat} (h : n % 2 = 0) : (n + 1) / 2 = n / 2 := by
  omega

theorem steepest_rosenbrock_eq_spec (x : List K) (h : x.length % 2 = 0) :
    Steepest.rosenbrock x = rosenbrockSpec x := by
  unfold Steepest.rosenbrock rosenbrockSpec
  simp only [foldl_evens, half_succ_of_even h]
  rw [foldl_add_range, zero_add]
  refine Finset.sum_congr rfl (fun k _ => ?_)
  ring

theorem newton_rosenbrock_eq_spec (x : List K) (h : x.length % 2 = 0) :
    Newton.rosenbrock x = Except.ok (rosenbrockSpec x) := by
  unfold Newton.rosenbrock rosenbrockSpec
  simp only [h, ne_eq, not_true_eq_false, if_false, foldl_evens, half_succ_of_even h]
  rw [foldl_add_range, zero_add]
  congr 1
  refine Finset.sum_congr rfl (fun k _ => ?_)
  ring

theorem newton_rosenbrock_eq_steepest (x : List K) (h : x.length % 2 = 0) :
    Newton.rosenbrock x = Except.ok (Steepest.rosenbrock x) := by
  rw [newton_rosenbrock_eq_spec x h, steepest_rosenbrock_eq_spec x h]

theorem getD_set {α : Type} (l : List α) (i j : Nat) (v d : α) :
    (l.set i v).getD j d = if i = j ∧ i < l.length then v else l.getD j d := by
  simp only [List.getD_eq_getElem?_getD, List.getElem?_set]
  by_cases h : i = j
  · subst h
    by_cases h2 : i < l.length
    · simp [h2]
    · simp [h2, List.getElem?_eq_none (not_lt.mp h2)]
  · simp [h]

theorem getD_set_self {α : Type} (l : List α) {i : Nat} (hi : i < l.length) (v d : α) :
    (l.set i v).getD i d = v := by
  rw [getD_set, if_pos ⟨rfl, hi⟩]

theorem getD_set_ne {α : Type} (l : List α) {i j : Nat} (h : i ≠ j) (v d : α) :
    (l.set i v).getD j d = l.getD j d := by
  rw [getD_set, if_neg (fun hh => h hh.1)]

theorem foldl_range_inv {σ : Type} (P : Nat → σ → Prop) (f : σ → Nat → σ) (s : σ) (m : Nat)
    (h0 : P 0 s) (hstep : ∀ k, k < m → ∀ t, P k t → P (k + 1) (f t k)) :
    P m ((List.range m).foldl f s) := by
  induction m with
  | zero => simpa using h0
  | succ m ih =>
    rw [List.range_succ, List.foldl_append]
    simp only [List.foldl_cons, List.foldl_nil]
    exact hstep m (Nat.lt_succ_self m) _ (ih (fun k hk t ht => hstep k (Nat.lt_succ_of_lt hk) t ht))

theorem length_resize (v : List K) (n : Nat) (fill : K) : (resize v n fill).length = n := by
  simp [resize]
  omega

/-- The loop of `gradient`, common to both files. -/
theorem gradient_loop_spec (x g0 : List K) (h : x.length % 2 = 0) :
    let g := (List.range (x.length / 2)).foldl
      (fun grad k =>
        (grad.set (2 * k) (200 * (x.getD (2 * k) 0 * x.getD (2 * k) 0 - x.getD (2 * k + 1) 0) * 2 *
            x.getD (2 * k) 0 + 2 * (x.getD (2 * k) 0 - 1))).set (2 * k + 1)
          (-200 * (x.getD (2 * k) 0 * x.getD (2 * k) 0 - x.getD (2 * k + 1) 0)))
      (resize g0 x.length 0)
    g.length = x.length ∧ ∀ j, j < x.length → g.getD j 0 = gradSpec x j := by
  intro g
  have key := foldl_range_inv
    (fun k (g : List K) => g.length = x.length ∧ ∀ j, j < 2 * k → g.getD j 0 = gradSpec x j)
    (fun grad k =>
        (grad.set (2 * k) (200 * (x.getD (2 * k) 0 * x.getD (2 * k) 0 - x.getD (2 * k + 1) 0) * 2 *
            x.getD (2 * k) 0 + 2 * (x.getD (2 * k) 0 - 1))).set (2 * k + 1)
          (-200 * (x.getD (2 * k) 0 * x.getD (2 * k) 0 - x.getD (2 * k + 1) 0)))
    (resize g0 x.length 0) (x.length / 2)
    ⟨length_resize _ _ _, fun j hj => absurd hj (by omega)⟩
    (by
      intro k hk t ⟨hlen, hent⟩
      refine ⟨by simp [hlen], fun j hj => ?_⟩
      rw [getD_set, getD_set]
      simp only [List.length_set, hlen]
      by_cases h1 : 2 * k + 1 = j
      · have : 2 * k + 1 < x.length := by omega
        subst h1
        simp only [this, and_self, if_true, gradSpec]
        have : (2 * k + 1) % 2 ≠ 0 := by omega
        simp only [this, if_false, Nat.add_sub_cancel]
        ring
      · by_cases h2 : 2 * k = j
        · have : 2 * k < x.length := by omega
          subst h2
          simp only [h1, false_and, if_false, this, and_self, if_true, gradSpec]
          have : (2 * k) % 2 = 0 := by omega
          simp only [this, if_true]
          ring
        · simp only [h1, h2, false_and, if_false]
          exact hent j (by omega))
  exact ⟨key.1, fun j hj => key.2 j (by omega)⟩

theorem ent_setEnt (m : List (List K)) (i j i' j' : Nat) (v : K) :
    ent (setEnt m i j v) i' j' =
      if i = i' ∧ j = j' ∧ i < m.length ∧ j < (m.getD i []).length then v else ent m i' j' := by
  unfold ent setEnt
  rw [getD_set]
  by_cases h1 : i = i' ∧ i < m.length
  · obtain ⟨rfl, h1⟩ := h1
    simp only [h1, and_self, if_true, getD_set, true_and, and_true]
  · have : ¬ (i = i' ∧ j = j' ∧ i < m.length ∧ j < (m.getD i []).length) := by tauto
    simp only [h1, this, if_false]

theorem isMat_setEnt {m : List (List K)} {r c : Nat} (h : IsMat m r c) (i j : Nat) (v : K) :
    IsMat (setEnt m i j v) r c := by
  refine ⟨by simp [setEnt, h.1], fun i' hi' => ?_⟩
  unfold setEnt
  rw [getD_set]
  by_cases h1 : i = i' ∧ i < m.length
  · rw [if_pos h1, List.length_set]
    exact h.2 i (by omega)
  · rw [if_neg h1]
    exact h.2 i' hi'

theorem ent_setEnt_of_isMat {m : List (List K)} {r c : Nat} (h : IsMat m r c)
    (i j i' j' : Nat) (v : K) :
    ent (setEnt m i j v) i' j' = if i = i' ∧ j = j' ∧ i < r ∧ j < c then v else ent m i' j' := by
  rw [ent_setEnt]
  by_cases hi : i < r
  · rw [h.1, h.2 i hi]
  · have h1 : ¬ (i = i' ∧ j = j' ∧ i < m.length ∧ j < (m.getD i []).length) := by
      rw [h.1]; tauto
    have h2 : ¬ (i = i' ∧ j = j' ∧ i < r ∧ j < c) := by tauto
    simp only [h1, h2, if_false]

theorem getD_replicate {α : Type} (n i : Nat) (a d : α) :
    (List.replicate n a).getD i d = if i < n then a else d := by
  simp only [List.getD_eq_getElem?_getD, List.getElem?_replicate]
  split <;> rfl

theorem isMat_replicate (r c : Nat) (a : K) : IsMat (List.replicate r (List.replicate c a)) r c := by
  refine ⟨by simp, fun i hi => ?_⟩
  rw [getD_replicate]
  simp [hi]

theorem ent_replicate (r c i j : Nat) (a : K) :
    ent (List.replicate r (List.replicate c a)) i j = if i < r ∧ j < c then a else 0 := by
  unfold ent
  rw [getD_replicate]
  by_cases hi : i < r
  · simp only [hi, if_true, true_and, getD_replicate]
  · simp [hi]

theorem ent_setEnt_same {m : List (List K)} {r c : Nat} (h : IsMat m r c)
    {i j : Nat} (hi : i < r) (hj : j < c) (v : K) : ent (setEnt m i j v) i j = v := by
  rw [ent_setEnt_of_isMat h, if_pos ⟨rfl, rfl, hi, hj⟩]

theorem ent_setEnt_ne {m : List (List K)} {r c : Nat} (h : IsMat m r c)
    {i j i' j' : Nat} (hne : i ≠ i' ∨ j ≠ j') (v : K) :
    ent (setEnt m i j v) i' j' = ent m i' j' := by
  rw [ent_setEnt_of_isMat h, if_neg (by tauto)]

theorem hessSpec_00 (x : List K) (k : Nat) :
    hessSpec x (2 * k) (2 * k) = 1200 * x.getD (2 * k) 0 ^ 2 - 400 * x.getD (2 * k + 1) 0 + 2 := by
  have a : (2 * k) % 2 = 0 := by omega
  simp only [hessSpec, a, if_true]

theorem hessSpec_01 (x : List K) (k : Nat) :
    hessSpec x (2 * k) (2 * k + 1) = -400 * x.getD (2 * k) 0 := by
  have a : (2 * k) % 2 = 0 := by omega
  have b : ¬ (2 * k + 1) % 2 = 0 := by omega
  have c : 2 * k / 2 = (2 * k + 1) / 2 := by omega
  simp only [hessSpec, a, b, c, if_true, if_false]

theorem hessSpec_10 (x : List K) (k : Nat) :
    hessSpec x (2 * k + 1) (2 * k) = -400 * x.getD (2 * k) 0 := by
  have a : (2 * k) % 2 = 0 := by omega
  have b : ¬ (2 * k + 1) % 2 = 0 := by omega
  have c : (2 * k + 1) / 2 = 2 * k / 2 := by omega
  simp only [hessSpec, a, b, c, if_true, if_false]

theorem hessSpec_11 (x : List K) (k : Nat) :
    hessSpec x (2 * k + 1) (2 * k + 1) = 200 := by
  have b : ¬ (2 * k + 1) % 2 = 0 := by omega
  simp only [hessSpec, b, if_true, if_false]

theorem hessSpec_off (x : List K) {i j : Nat} (h : i / 2 ≠ j / 2) : hessSpec x i j = 0 := by
  simp only [hessSpec, h, if_false]

theorem hessian_spec (x : List K) (h : x.length % 2 = 0) :
    IsMat (Newton.hessian x) x.length x.length ∧
    ∀ i j, i < x.length → j < x.length → ent (Newton.hessian x) i j = hessSpec x i j := by
  unfold Newton.hessian
  simp only [foldl_evens, half_succ_of_even h]
  have key := foldl_range_inv
    (fun k (H : List (List K)) => IsMat H x.length x.length ∧
      ∀ i j, i < x.length → j < x.length →
        ent H i j = if i < 2 * k then hessSpec x i j else 0)
    (fun hess k =>
      setEnt (setEnt (setEnt (setEnt hess (2 * k) (2 * k)
        (1200 * x.getD (2 * k) 0 * x.getD (2 * k) 0 - 400 * x.getD (2 * k + 1) 0 + 2))
        (2 * k) (2 * k + 1) (-400 * x.getD (2 * k) 0))
        (2 * k + 1) (2 * k) (-400 * x.getD (2 * k) 0))
        (2 * k + 1) (2 * k + 1) 200)
    (List.replicate x.length (List.replicate x.length 0)) (x.length / 2)
    ⟨isMat_replicate _ _ _, fun i j hi hj => by simp [ent_replicate]⟩
    (by
      intro k hk t ⟨hmat, hent⟩
      have m1 := isMat_setEnt hmat (2 * k) (2 * k)
        (1200 * x.getD (2 * k) 0 * x.getD (2 * k) 0 - 400 * x.getD (2 * k + 1) 0 + 2)
      have m2 := isMat_setEnt m1 (2 * k) (2 * k + 1) (-400 * x.getD (2 * k) 0)
      have m3 := isMat_setEnt m2 (2 * k + 1) (2 * k) (-400 * x.getD (2 * k) 0)
      refine ⟨isMat_setEnt m3 _ _ _, fun i j hi hj => ?_⟩
      have hk1 : 2 * k + 1 < x.length := by omega
      have hk0 : 2 * k < x.length := by omega
      by_cases hi1 : 2 * k + 1 = i
      · subst hi1
        rw [if_pos (by omega)]
        by_cases hj1 : 2 * k + 1 = j
        · subst hj1
          rw [ent_setEnt_same m3 hk1 hk1, hessSpec_11]
        · rw [ent_setEnt_ne m3 (Or.inr hj1)]
          by_cases hj0 : 2 * k = j
          · subst hj0
            rw [ent_setEnt_same m2 hk1 hk0, hessSpec_10]
          · rw [ent_setEnt_ne m2 (Or.inr hj0), ent_setEnt_ne m1 (Or.inl (by omega)),
              ent_setEnt_ne hmat (Or.inl (by omega)), hent _ _ hi hj, if_neg (by omega),
              hessSpec_off x (by omega)]
      · rw [ent_setEnt_ne m3 (Or.inl hi1), ent_setEnt_ne m2 (Or.inl hi1)]
        by_cases hi0 : 2 * k = i
        · subst hi0
          rw [if_pos (by omega)]
          by_cases hj1 : 2 * k + 1 = j
          · subst hj1
            rw [ent_setEnt_same m1 hk0 hk1, hessSpec_01]
          · rw [ent_setEnt_ne m1 (Or.inr hj1)]
            by_cases hj0 : 2 * k = j
            · subst hj0
              rw [ent_setEnt_same hmat hk0 hk0, hessSpec_00]
              ring
            · rw [ent_setEnt_ne hmat (Or.inr hj0), hent _ _ hi hj, if_neg (by omega),
                hessSpec_off x (by omega)]
        · rw [ent_setEnt_ne m1 (Or.inl hi0), ent_setEnt_ne hmat (Or.inl hi0), hent _ _ hi hj]
          by_cases hlt : i < 2 * k
          · rw [if_pos hlt, if_pos (by omega)]
          · rw [if_neg hlt, if_neg (by omega)])
  refine ⟨key.1, fun i j hi hj => ?_⟩
  rw [key.2 i j hi hj, if_pos (by omega)]

theorem hasDerivAt_block_fst (a b : ℝ) :
    HasDerivAt (fun t : ℝ => 100 * (t ^ 2 - b) ^ 2 + (t - 1) ^ 2)
      (400 * (a ^ 2 - b) * a + 2 * (a - 1)) a := by
  have h1 : HasDerivAt (fun t : ℝ => t ^ 2 - b) (2 * a) a := by
    simpa using (hasDerivAt_pow 2 a).sub_const b
  have h2 := ((h1.pow 2).const_mul 100).add (((hasDerivAt_id a).sub_const 1).pow 2)
  convert h2 using 1
  simp
  ring

theorem hasDerivAt_block_snd (a b : ℝ) :
    HasDerivAt (fun t : ℝ => 100 * (a ^ 2 - t) ^ 2 + (a - 1) ^ 2)
      (-200 * (a ^ 2 - b)) b := by
  have h1 : HasDerivAt (fun t : ℝ => a ^ 2 - t) (-1) b := by
    simpa using (hasDerivAt_id b).const_sub (a ^ 2)
  have h2 := ((h1.pow 2).const_mul 100).add_const ((a - 1) ^ 2)
  convert h2 using 1
  simp
  ring

theorem hasDerivAt_rosenbrockSpec (x : List ℝ) (h : x.length % 2 = 0) (i : Nat)
    (hi : i < x.length) :
    HasDerivAt (fun t => rosenbrockSpec (x.set i t)) (gradSpec x i) (x.getD i 0) := by
  unfold rosenbrockSpec
  simp only [List.length_set]
  have hsum : gradSpec x i =
      ∑ k in Finset.range (x.length / 2), (if k = i / 2 then gradSpec x i else 0) := by
    rw [Finset.sum_ite_eq']
    rw [if_pos (Finset.mem_range.mpr (by omega))]
  rw [hsum]
  refine HasDerivAt.sum (fun k _ => ?_)
  by_cases hk : k = i / 2
  · rw [if_pos hk]
    by_cases hpar : i % 2 = 0
    · have e : 2 * k = i := by omega
      subst e
      simp only [getD_set_self x hi, getD_set_ne x (show 2 * k ≠ 2 * k + 1 by omega)]
      simp only [gradSpec, hpar, if_true]
      exact hasDerivAt_block_fst _ _
    · have e : 2 * k + 1 = i := by omega
      subst e
      simp only [getD_set_self x hi, getD_set_ne x (show 2 * k + 1 ≠ 2 * k by omega)]
      simp only [gradSpec, hpar, if_false, Nat.add_sub_cancel]
      exact hasDerivAt_block_snd _ _
  · rw [if_neg hk]
    simp only [getD_set_ne x (show i ≠ 2 * k by omega), getD_set_ne x (show i ≠ 2 * k + 1 by omega)]
    exact hasDerivAt_const _ _

theorem partial_deriv_rosenbrock (x : List ℝ) (h : x.length % 2 = 0) (i : Nat)
    (hi : i < x.length) :
    deriv (fun u => Steepest.rosenbrock (x.set i u)) (x.getD i 0) = gradSpec x i := by
  have e : (fun u => Steepest.rosenbrock (x.set i u)) = fun u => rosenbrockSpec (x.set i u) :=
    funext fun u => steepest_rosenbrock_eq_spec _ (by simpa using h)
  rw [e]
  exact (hasDerivAt_rosenbrockSpec x h i hi).deriv

theorem hasDerivAt_gradSpec (x : List ℝ) (i j : Nat) (hj : j < x.length) :
    HasDerivAt (fun t => gradSpec (x.set j t) i) (hessSpec x i j) (x.getD j 0) := by
  unfold gradSpec hessSpec
  by_cases hpar : i % 2 = 0
  · simp only [hpar, if_true]
    by_cases hji : j = i
    · subst hji
      simp only [getD_set_self x hj, getD_set_ne x (show j ≠ j + 1 by omega), hpar, if_true]
      have h1 : HasDerivAt (fun t : ℝ => t ^ 2 - x.getD (j + 1) 0) (2 * x.getD j 0) (x.getD j 0) := by
        simpa using (hasDerivAt_pow 2 (x.getD j 0)).sub_const (x.getD (j + 1) 0)
      have h2 := (((h1.const_mul 400).mul (hasDerivAt_id (x.getD j 0))).add
        (((hasDerivAt_id (x.getD j 0)).sub_const 1).const_mul 2))
      convert h2 using 1
      simp
      ring
    · by_cases hji1 : j = i + 1
      · subst hji1
        have e : i / 2 = (i + 1) / 2 := by omega
        have e2 : ¬ (i + 1) % 2 = 0 := by omega
        simp only [getD_set_self x hj, getD_set_ne x (show i + 1 ≠ i by omega), e, e2, if_true,
          if_false]
        have h1 : HasDerivAt (fun t : ℝ => x.getD i 0 ^ 2 - t) (-1) (x.getD (i + 1) 0) := by
          simpa using (hasDerivAt_id (x.getD (i + 1) 0)).const_sub (x.getD i 0 ^ 2)
        have h2 := ((h1.const_mul 400).mul_const (x.getD i 0)).add_const (2 * (x.getD i 0 - 1))
        convert h2 using 1
        ring
      · have e : ¬ i / 2 = j / 2 := by omega
        simp only [getD_set_ne x hji, getD_set_ne x hji1, e, if_false]
        exact hasDerivAt_const _ _
  · simp only [hpar, if_false]
    by_cases hji : j = i
    · subst hji
      simp only [getD_set_self x hj, getD_set_ne x (show j ≠ j - 1 by omega), hpar, if_true,
        if_false]
      have h1 : HasDerivAt (fun t : ℝ => x.getD (j - 1) 0 ^ 2 - t) (-1) (x.getD j 0) := by
        simpa using (hasDerivAt_id (x.getD j 0)).const_sub (x.getD (j - 1) 0 ^ 2)
      have h2 := h1.const_mul (-200)
      convert h2 using 1
      ring
    · by_cases hji1 : j = i - 1
      · subst hji1
        have e : i / 2 = (i - 1) / 2 := by omega
        have e2 : (i - 1) % 2 = 0 := by omega
        simp only [getD_set_self x hj, getD_set_ne x (show i - 1 ≠ i by omega), e, e2, if_true]
        have h1 : HasDerivAt (fun t : ℝ => t ^ 2 - x.getD i 0) (2 * x.getD (i - 1) 0)
            (x.getD (i - 1) 0) := by
          simpa using (hasDerivAt_pow 2 (x.getD (i - 1) 0)).sub_const (x.getD i 0)
        have h2 := h1.const_mul (-200)
        convert h2 using 1
        ring
      · have e : ¬ i / 2 = j / 2 := by omega
        simp only [getD_set_ne x hji, getD_set_ne x hji1, e, if_false]
        exact hasDerivAt_const _ _

theorem steepest_gradient_spec (x g0 : List K) (h : x.length % 2 = 0) :
    (Steepest.gradient x g0).length = x.length ∧
    ∀ j, j < x.length → (Steepest.gradient x g0).getD j 0 = gradSpec x j := by
  unfold Steepest.gradient
  simp only [foldl_evens, half_succ_of_even h]
  exact gradient_loop_spec x g0 h

theorem newton_gradient_eq (x g0 : List K) (h : x.length % 2 = 0) :
    Newton.gradient x g0 = Except.ok (Steepest.gradient x g0) := by
  unfold Newton.gradient Steepest.gradient
  simp only [h, ne_eq, not_true_eq_false, if_false]

theorem hessSpec_symm (x : List K) (i j : Nat) : hessSpec x i j = hessSpec x j i := by
  by_cases hb : i / 2 = j / 2
  · by_cases hi : i % 2 = 0
    · by_cases hj : j % 2 = 0
      · have e : i = j := by omega
        rw [e]
      · obtain ⟨k, rfl⟩ : ∃ k, i = 2 * k := ⟨i / 2, by omega⟩
        obtain rfl : j = 2 * k + 1 := by omega
        rw [hessSpec_01, hessSpec_10]
    · by_cases hj : j % 2 = 0
      · obtain ⟨k, rfl⟩ : ∃ k, j = 2 * k := ⟨j / 2, by omega⟩
        obtain rfl : i = 2 * k + 1 := by omega
        rw [hessSpec_01, hessSpec_10]
      · have e : i = j := by omega
        rw [e]
  · rw [hessSpec_off x hb, hessSpec_off x (Ne.symm hb)]

theorem gradDotDir_eq_sum (g d : List K) :
    gradDotDir g d = ∑ i in Finset.range g.length, g.getD i 0 * d.getD i 0 := by
  unfold gradDotDir upto
  rw [Nat.sub_zero, List.range'_eq_map_range, List.foldl_map]
  simp only [zero_add]
  rw [foldl_add_range, zero_add]

theorem trialPoint_spec (x d : List K) (alpha : K) :
    (trialPoint x d alpha).length = x.length ∧
    ∀ i, i < x.length → (trialPoint x d alpha).getD i 0 = x.getD i 0 + alpha * d.getD i 0 := by
  unfold trialPoint upto
  rw [Nat.sub_zero, List.range'_eq_map_range, List.foldl_map]
  simp only [zero_add]
  have key := foldl_range_inv
    (fun k (y : List K) => y.length = x.length ∧
      ∀ i, i < k → y.getD i 0 = x.getD i 0 + alpha * d.getD i 0)
    (fun x_new i => x_new.set i (x.getD i 0 + alpha * d.getD i 0))
    (List.replicate x.length 0) x.length
    ⟨by simp, fun i hi => absurd hi (by omega)⟩
    (by
      intro k hk t ⟨hlen, hent⟩
      refine ⟨by simp [hlen], fun i hi => ?_⟩
      by_cases e : k = i
      · subst e
        rw [getD_set_self _ (by omega)]
      · rw [getD_set_ne _ e]
        exact hent i (by omega))
  exact key

theorem newton_armijoLoop_eq (x d : List K) (h : x.length % 2 = 0) (c rho f_x gdd : K) :
    ∀ (fuel : Nat) (alpha : K),
      Newton.armijoLoop x d c rho f_x gdd fuel alpha =
        (Steepest.armijoLoop x d c rho f_x gdd fuel alpha).map Except.ok := by
  intro fuel
  induction fuel with
  | zero => intro alpha; rfl
  | succ fuel ih =>
    intro alpha
    have hlen : (trialPoint x d alpha).length % 2 = 0 := by
      rw [(trialPoint_spec x d alpha).1]; exact h
    simp only [Newton.armijoLoop, Steepest.armijoLoop,
      newton_rosenbrock_eq_steepest (trialPoint x d alpha) hlen]
    split_ifs
    · rfl
    · rfl
    · exact ih _

theorem armijoLoop_run (x d : List K) (c rho f_x gdd a0 : K) (k : Nat)
    (hk : Stops x d c rho f_x gdd a0 k)
    (hmin : ∀ j, j < k → ¬ Stops x d c rho f_x gdd a0 j) :
    ∀ (n j : Nat), j + n = k → (j = 0 ∨ ¬ a0 * rho ^ j < 1e-10) → ∀ fuel, n < fuel →
      Steepest.armijoLoop x d c rho f_x gdd fuel (a0 * rho ^ j) = some (a0 * rho ^ k) := by
  intro n
  induction n with
  | zero =>
    intro j hj htop fuel hfuel
    obtain ⟨fuel, rfl⟩ : ∃ f, fuel = f + 1 := ⟨fuel - 1, by omega⟩
    have e : j = k := by omega
    subst e
    have harm : Armijo x d c f_x gdd (a0 * rho ^ j) := by
      rcases hk with hk | ⟨h1, h2⟩
      · exact hk
      · rcases htop with h0 | h0
        · omega
        · exact absurd h2 h0
    unfold Armijo at harm
    simp only [Steepest.armijoLoop]
    rw [if_pos harm]
  | succ n ih =>
    intro j hj htop fuel hfuel
    obtain ⟨fuel, rfl⟩ : ∃ f, fuel = f + 1 := ⟨fuel - 1, by omega⟩
    have hns : ¬ Stops x d c rho f_x gdd a0 j := hmin j (by omega)
    have harm : ¬ Armijo x d c f_x gdd (a0 * rho ^ j) := fun hh => hns (Or.inl hh)
    unfold Armijo at harm
    simp only [Steepest.armijoLoop]
    rw [if_neg harm]
    have epow : a0 * rho ^ j * rho = a0 * rho ^ (j + 1) := by ring
    rw [epow]
    by_cases hsmall : a0 * rho ^ (j + 1) < 1e-10
    · rw [if_pos hsmall]
      have : k = j + 1 := by
        by_contra hne
        exact hmin (j + 1) (by omega) (Or.inr ⟨by omega, hsmall⟩)
      rw [this]
    · rw [if_neg hsmall]
      exact ih (j + 1) (by omega) (Or.inr hsmall) fuel (by omega)

theorem exists_stops [Archimedean K] (x d : List K) (c rho f_x gdd a0 : K)
    (ha : 0 < a0) (hr0 : 0 < rho) (hr1 : rho < 1) :
    ∃ k, Stops x d c rho f_x gdd a0 k := by
  have hpos : (0 : K) < 1e-10 / a0 := div_pos (by norm_num) ha
  obtain ⟨n, hn⟩ := exists_pow_lt_of_lt_one hpos hr1
  refine ⟨n + 1, Or.inr ⟨by omega, ?_⟩⟩
  have h1 : rho ^ (n + 1) < 1e-10 / a0 := by
    have : rho ^ (n + 1) ≤ rho ^ n := by
      rw [pow_succ]
      exact mul_le_of_le_one_right (pow_nonneg hr0.le n) hr1.le
    exact lt_of_le_of_lt this hn
  calc a0 * rho ^ (n + 1) < a0 * (1e-10 / a0) := mul_lt_mul_of_pos_left h1 ha
    _ = 1e-10 := by field_simp

/-- The backtracking loop started at `alpha_init` returns `alpha_init·rho^k` for the least
trial number `k` at which the exit test holds, as soon as the fuel exceeds `k`. -/
theorem armijoLoop_least [Archimedean K] (x d : List K) (c rho f_x gdd a0 : K)
    (ha : 0 < a0) (hr0 : 0 < rho) (hr1 : rho < 1) :
    ∃ k, Stops x d c rho f_x gdd a0 k ∧ (∀ j, j < k → ¬ Stops x d c rho f_x gdd a0 j) ∧
      ∀ fuel, k < fuel →
        Steepest.armijoLoop x d c rho f_x gdd fuel a0 = some (a0 * rho ^ k) := by
  classical
  have hex := exists_stops x d c rho f_x gdd a0 ha hr0 hr1
  refine ⟨Nat.find hex, Nat.find_spec hex, fun j hj => Nat.find_min hex hj, fun fuel hfuel => ?_⟩
  have := armijoLoop_run x d c rho f_x gdd a0 (Nat.find hex) (Nat.find_spec hex)
    (fun j hj => Nat.find_min hex hj) (Nat.find hex) 0 (by omega) (Or.inl rfl) fuel hfuel
  simpa using this

theorem ext_getD {l₁ l₂ : List K} (hlen : l₁.length = l₂.length)
    (h : ∀ i, i < l₁.length → l₁.getD i 0 = l₂.getD i 0) : l₁ = l₂ := by
  refine List.ext_getElem hlen (fun i h1 h2 => ?_)
  have := h i h1
  rwa [List.getD_eq_getElem _ _ h1, List.getD_eq_getElem _ _ h2] at this

theorem getD_axpySpec (x d : List K) (alpha : K) (hd : d.length = x.length) (i : Nat)
    (hi : i < x.length) :
    (axpySpec x d alpha).getD i 0 = x.getD i 0 + alpha * d.getD i 0 := by
  have hl2 : (axpySpec x d alpha).length = x.length := by simp [axpySpec, hd]
  have hid : i < d.length := by rw [hd]; exact hi
  rw [List.getD_eq_getElem _ _ (by rw [hl2]; exact hi), List.getD_eq_getElem _ _ hi,
    List.getD_eq_getElem _ _ hid]
  simp only [axpySpec, List.getElem_zipWith]

theorem trialPoint_eq_axpySpec (x d : List K) (alpha : K) (hd : d.length = x.length) :
    trialPoint x d alpha = axpySpec x d alpha := by
  obtain ⟨hlen, hent⟩ := trialPoint_spec x d alpha
  have hl2 : (axpySpec x d alpha).length = x.length := by simp [axpySpec, hd]
  refine ext_getD (by rw [hlen, hl2]) (fun i hi => ?_)
  rw [hlen] at hi
  rw [hent i hi, getD_axpySpec x d alpha hd i hi]

theorem armijo_iff_spec (x g d : List K) (c alpha : K) (hx : x.length % 2 = 0)
    (hd : d.length = x.length) :
    Armijo x d c (Steepest.rosenbrock x) (gradDotDir g d) alpha ↔ ArmijoSpec x g d c alpha := by
  have hlen : (axpySpec x d alpha).length % 2 = 0 := by
    rw [← trialPoint_eq_axpySpec x d alpha hd, (trialPoint_spec x d alpha).1]; exact hx
  unfold Armijo ArmijoSpec
  rw [trialPoint_eq_axpySpec x d alpha hd, steepest_rosenbrock_eq_spec _ hlen,
    steepest_rosenbrock_eq_spec _ hx, gradDotDir_eq_sum]
  rfl

theorem steepest_search_least [Archimedean K] (x g d : List K) (c alpha_init rho : K)
    (ha : 0 < alpha_init) (hr0 : 0 < rho) (hr1 : rho < 1) :
    ∃ k, Stops x d c rho (Steepest.rosenbrock x) (gradDotDir g d) alpha_init k ∧
      (∀ j, j < k → ¬ Stops x d c rho (Steepest.rosenbrock x) (gradDotDir g d) alpha_init j) ∧
      ∀ fuel, k < fuel →
        Steepest.armijo_line_search fuel x g d c alpha_init rho = some (alpha_init * rho ^ k) := by
  obtain ⟨k, h1, h2, h3⟩ :=
    armijoLoop_least x d c rho (Steepest.rosenbrock x) (gradDotDir g d) alpha_init ha hr0 hr1
  exact ⟨k, h1, h2, fun fuel hf => by simpa [Steepest.armijo_line_search] using h3 fuel hf⟩

theorem newton_search_descent (x g d : List K) (c alpha_init rho : K) (fuel : Nat)
    (hx : x.length % 2 = 0) (hgd : gradDotDir g d < 0) :
    Newton.armijo_line_search fuel x g d c alpha_init rho =
      (Steepest.armijo_line_search fuel x g d c alpha_init rho).map Except.ok := by
  unfold Newton.armijo_line_search Steepest.armijo_line_search
  simp only [newton_rosenbrock_eq_steepest x hx, ge_iff_le, not_le.mpr hgd, if_false]
  exact newton_armijoLoop_eq x d hx _ _ _ _ _ _

theorem newton_search_guard (x g d : List K) (c alpha_init rho : K) (fuel : Nat)
    (hx : x.length % 2 = 0) (hgd : 0 ≤ gradDotDir g d) :
    Newton.armijo_line_search fuel x g d c alpha_init rho = some (Except.ok 1e-6) := by
  unfold Newton.armijo_line_search
  simp only [newton_rosenbrock_eq_steepest x hx, ge_iff_le, hgd, if_true]

theorem foldl_upto_inv {σ : Type} (P : Nat → σ → Prop) (f : σ → Nat → σ) (s : σ) (lo hi : Nat)
    (hle : lo ≤ hi) (h0 : P lo s)
    (hstep : ∀ k, lo ≤ k → k < hi → ∀ t, P k t → P (k + 1) (f t k)) :
    P hi ((upto lo hi).foldl f s) := by
  unfold upto
  rw [List.range'_eq_map_range, List.foldl_map]
  have key := foldl_range_inv (fun k t => P (lo + k) t) (fun t k => f t (lo + k)) s (hi - lo)
    (by simpa using h0)
    (fun k hk t ht => by
      have := hstep (lo + k) (by omega) (by omega) t ht
      rwa [Nat.add_assoc] at this)
  have e : lo + (hi - lo) = hi := by omega
  simp only [e] at key
  exact key

theorem augment_spec (A : List (List K)) (b : List K) (n : Nat) :
    IsMat (Newton.augment A b n) n (n + 1) ∧
    ∀ i, i < n → (∀ j, j < n → ent (Newton.augment A b n) i j = ent A i j) ∧
      ent (Newton.augment A b n) i n = b.getD i 0 := by
  unfold Newton.augment
  have key := foldl_upto_inv
    (fun k (m : List (List K)) => IsMat m n (n + 1) ∧
      ∀ i, i < k → (∀ j, j < n → ent m i j = ent A i j) ∧ ent m i n = b.getD i 0)
    (fun aug i =>
      setEnt ((upto 0 n).foldl (fun aug j => setEnt aug i j (ent A i j)) aug) i n (b.getD i 0))
    (List.replicate n (List.replicate (n + 1) 0)) 0 n (Nat.zero_le n)
    ⟨isMat_replicate _ _ _, fun i hi => absurd hi (by omega)⟩
    (by
      intro k _ hk t ⟨hmat, hent⟩
      have inner := foldl_upto_inv
        (fun l (m : List (List K)) => IsMat m n (n + 1) ∧
          (∀ i, i < k → (∀ j, j < n → ent m i j = ent A i j) ∧ ent m i n = b.getD i 0) ∧
          ∀ j, j < l → ent m k j = ent A k j)
        (fun aug j => setEnt aug k j (ent A k j)) t 0 n (Nat.zero_le n)
        ⟨hmat, hent, fun j hj => absurd hj (by omega)⟩
        (by
          intro l _ hl u ⟨umat, uent, urow⟩
          refine ⟨isMat_setEnt umat _ _ _, fun i hi => ?_, fun j hj => ?_⟩
          · refine ⟨fun j hj => ?_, ?_⟩
            · rw [ent_setEnt_ne umat (Or.inl (by omega))]
              exact (uent i hi).1 j hj
            · rw [ent_setEnt_ne umat (Or.inl (by omega))]
              exact (uent i hi).2
          · by_cases e : l = j
            · subst e
              rw [ent_setEnt_same umat hk (by omega)]
            · rw [ent_setEnt_ne umat (Or.inr e)]
              exact urow j (by omega))
      obtain ⟨imat, ient, irow⟩ := inner
      refine ⟨isMat_setEnt imat _ _ _, fun i hi => ?_⟩
      by_cases e : k = i
      · subst e
        refine ⟨fun j hj => ?_, ?_⟩
        · rw [ent_setEnt_ne imat (Or.inr (by omega))]
          exact irow j hj
        · rw [ent_setEnt_same imat hk (by omega)]
      · refine ⟨fun j hj => ?_, ?_⟩
        · rw [ent_setEnt_ne imat (Or.inl e)]
          exact (ient i (by omega)).1 j hj
        · rw [ent_setEnt_ne imat (Or.inl e)]
          exact (ient i (by omega)).2)
  exact key

theorem findPivot_range (aug : List (List K)) (n i : Nat) (hi : i < n) :
    i ≤ Newton.findPivot aug n i ∧ Newton.findPivot aug n i < n := by
  unfold Newton.findPivot
  have key := foldl_upto_inv (fun k (p : Nat) => i ≤ p ∧ p < n)
    (fun pivot j => if |ent aug j i| > |ent aug pivot i| then j else pivot) i i n (by omega)
    ⟨le_refl i, hi⟩
    (by
      intro k hk1 hk2 p hp
      show i ≤ (if |ent aug k i| > |ent aug p i| then k else p) ∧
        (if |ent aug k i| > |ent aug p i| then k else p) < n
      split_ifs
      · exact ⟨hk1, hk2⟩
      · exact hp)
  exact key

/-- Row `r` of the matrix after the exchange of rows `i` and `p`. -/
theorem swapRows_spec {aug : List (List K)} {n c : Nat} (h : IsMat aug n c) {i p : Nat}
    (hi : i < n) (hp : p < n) :
    IsMat (Newton.swapRows aug i p) n c ∧
    ∀ r j, ent (Newton.swapRows aug i p) r j =
      if r = p then ent aug i j else if r = i then ent aug p j else ent aug r j := by
  unfold Newton.swapRows
  refine ⟨⟨by simp [h.1], fun r hr => ?_⟩, fun r j => ?_⟩
  · rw [getD_set, getD_set]
    simp only [List.length_set, h.1]
    split_ifs
    · exact h.2 i hi
    · exact h.2 p hp
    · exact h.2 r hr
  · unfold ent
    rw [getD_set, getD_set]
    simp only [List.length_set, h.1]
    by_cases e1 : r = p
    · subst e1
      simp only [hp, and_self, if_true]
    · by_cases e2 : r = i
      · subst e2
        have : ¬ (p = r ∧ p < n) := fun hh => e1 hh.1.symm
        simp only [this, if_false, hi, and_self, if_true, e1]
      · have a : ¬ (p = r ∧ p < n) := fun hh => e1 hh.1.symm
        have b : ¬ (i = r ∧ i < n) := fun hh => e2 hh.1.symm
        simp only [a, b, if_false, e1, e2]
theorem eliminateRow_spec {aug : List (List K)} {n : Nat} (h : IsMat aug n (n + 1))
    {i j : Nat} (hi : i < n) (hj : j < n) :
    IsMat (Newton.eliminateRow aug n i j) n (n + 1) ∧
    ∀ r c, ent (Newton.eliminateRow aug n i j) r c =
      if r = j ∧ i ≤ c ∧ c ≤ n then ent aug j c - ent aug j i / ent aug i i * ent aug i c
      else ent aug r c := by
  unfold Newton.eliminateRow
  have key := foldl_upto_inv
    (fun k (m : List (List K)) => IsMat m n (n + 1) ∧
      ∀ r c, ent m r c =
        if r = j ∧ i ≤ c ∧ c < k then ent aug j c - ent aug j i / ent aug i i * ent aug i c
        else ent aug r c)
    (fun m k => setEnt m j k (ent m j k - ent aug j i / ent aug i i * ent m i k))
    aug i (n + 1) (by omega)
    ⟨h, fun r c => by rw [if_neg (by omega)]⟩
    (by
      intro k hk1 hk2 m ⟨mmat, ment⟩
      refine ⟨isMat_setEnt mmat _ _ _, fun r c => ?_⟩
      by_cases e : j = r ∧ k = c
      · obtain ⟨rfl, rfl⟩ := e
        rw [ent_setEnt_same mmat hj hk2, ment j k, ment i k, if_neg (by omega), if_neg (by omega),
          if_pos ⟨rfl, hk1, Nat.lt_succ_self k⟩]
      · rw [ent_setEnt_ne mmat (by omega), ment r c]
        by_cases e2 : r = j ∧ i ≤ c ∧ c < k
        · rw [if_pos e2, if_pos ⟨e2.1, e2.2.1, by omega⟩]
        · rw [if_neg e2, if_neg (by omega)])
  refine ⟨key.1, fun r c => ?_⟩
  rw [key.2 r c]
  by_cases e2 : r = j ∧ i ≤ c ∧ c ≤ n
  · rw [if_pos e2, if_pos ⟨e2.1, e2.2.1, by omega⟩]
  · rw [if_neg e2, if_neg (by omega)]

theorem eliminateBelow_spec {aug : List (List K)} {n : Nat} (h : IsMat aug n (n + 1))
    {i : Nat} (hi : i < n) :
    IsMat (Newton.eliminateBelow aug n i) n (n + 1) ∧
    ∀ r c, ent (Newton.eliminateBelow aug n i) r c =
      if i < r ∧ r < n ∧ i ≤ c ∧ c ≤ n then ent aug r c - ent aug r i / ent aug i i * ent aug i c
      else ent aug r c := by
  unfold Newton.eliminateBelow
  have key := foldl_upto_inv
    (fun k (m : List (List K)) => IsMat m n (n + 1) ∧
      ∀ r c, ent m r c =
        if i < r ∧ r < k ∧ i ≤ c ∧ c ≤ n then ent aug r c - ent aug r i / ent aug i i * ent aug i c
        else ent aug r c)
    (fun m j => Newton.eliminateRow m n i j) aug (i + 1) n (by omega)
    ⟨h, fun r c => by rw [if_neg (by omega)]⟩
    (by
      intro k hk1 hk2 m ⟨mmat, ment⟩
      obtain ⟨emat, eent⟩ := eliminateRow_spec mmat hi hk2
      refine ⟨emat, fun r c => ?_⟩
      rw [eent r c]
      by_cases e : r = k ∧ i ≤ c ∧ c ≤ n
      · obtain ⟨rfl, h1, h2⟩ := e
        rw [if_pos ⟨rfl, h1, h2⟩, ment r c, ment r i, ment i i, ment i c, if_neg (by omega),
          if_neg (by omega), if_neg (by omega), if_neg (by omega), if_pos (by omega)]
      · rw [if_neg e, ment r c]
        by_cases e2 : i < r ∧ r < k ∧ i ≤ c ∧ c ≤ n
        · rw [if_pos e2, if_pos (by omega)]
        · rw [if_neg e2, if_neg (by omega)])
  exact key

theorem sat_swapRows {aug : List (List K)} {n : Nat} (h : IsMat aug n (n + 1)) {i p : Nat}
    (hi : i < n) (hp : p < n) (y : Nat → K) :
    Sat (Newton.swapRows aug i p) n y ↔ Sat aug n y := by
  obtain ⟨_, sent⟩ := swapRows_spec h hi hp
  have hrow : ∀ r, RowSat (Newton.swapRows aug i p) n y r ↔
      RowSat aug n y (if r = p then i else if r = i then p else r) := by
    intro r
    unfold RowSat
    simp only [sent]
    split_ifs <;> rfl
  constructor
  · intro hs r hr
    by_cases e1 : r = i
    · have := (hrow p).1 (hs p hp)
      rw [if_pos rfl] at this
      rw [e1]; exact this
    · by_cases e2 : r = p
      · have := (hrow i).1 (hs i hi)
        by_cases e3 : i = p
        · rw [if_pos e3] at this
          rw [e2, ← e3]; exact this
        · rw [if_neg e3, if_pos rfl] at this
          rw [e2]; exact this
      · have := (hrow r).1 (hs r hr)
        rwa [if_neg e2, if_neg e1] at this
  · intro hs r hr
    rw [hrow r]
    split_ifs
    · exact hs i hi
    · exact hs p hp
    · exact hs r hr

theorem abs_lt_tol_of_eq_zero {a : K} (h : a = 0) : |a| < 1e-10 := by
  rw [h, abs_zero]
  norm_num

theorem eliminationStep_inv {aug0 aug aug' : List (List K)} {n i : Nat} (hi : i < n)
    (hinv : ElimInv aug0 aug n i) (hstep : Newton.eliminationStep aug n i = Except.ok aug') :
    ElimInv aug0 aug' n (i + 1) := by
  obtain ⟨hmat, hsat, hzero, hdiag⟩ := hinv
  unfold Newton.eliminationStep at hstep
  obtain ⟨hp1, hp2⟩ := findPivot_range aug n i hi
  generalize Newton.findPivot aug n i = p at hstep hp1 hp2
  by_cases hsing : |ent aug p i| < 1e-10
  · simp only [hsing, if_true] at hstep
    exact absurd hstep (by simp)
  simp only [hsing, if_false, Except.ok.injEq] at hstep
  have hpiv : ent aug p i ≠ 0 := fun hh => hsing (abs_lt_tol_of_eq_zero hh)
  obtain ⟨smat, sent⟩ := swapRows_spec hmat hi hp2
  obtain ⟨emat, eent⟩ := eliminateBelow_spec smat hi
  rw [hstep] at emat eent
  -- the exchanged matrix
  have sii : ent (Newton.swapRows aug i p) i i ≠ 0 := by
    rw [sent]
    by_cases e : i = p
    · rw [if_pos e, e]; rw [e] at hpiv; exact hpiv
    · rw [if_neg e, if_pos rfl]; exact hpiv
  have szero : ∀ c r, c < i → c < r → r < n → ent (Newton.swapRows aug i p) r c = 0 := by
    intro c r hc hcr hr
    rw [sent]
    split_ifs
    · exact hzero c i hc hc hi
    · exact hzero c p hc (by omega) hp2
    · exact hzero c r hc hcr hr
  have sdiag : ∀ c, c < i → ent (Newton.swapRows aug i p) c c ≠ 0 := by
    intro c hc
    rw [sent, if_neg (by omega), if_neg (by omega)]
    exact hdiag c hc
  -- every entry of a row below the pivot is the row combination
  have efull : ∀ r c, i < r → r < n → c ≤ n → ent aug' r c =
      ent (Newton.swapRows aug i p) r c -
        ent (Newton.swapRows aug i p) r i / ent (Newton.swapRows aug i p) i i * ent (Newton.swapRows aug i p) i c := by
    intro r c hir hr hc
    rw [eent]
    by_cases hci : i ≤ c
    · rw [if_pos ⟨hir, hr, hci, hc⟩]
    · rw [if_neg (by omega), szero c r (by omega) (by omega) hr, szero c i (by omega) (by omega) hi]
      ring
  have esame : ∀ r c, r ≤ i → ent aug' r c = ent (Newton.swapRows aug i p) r c := by
    intro r c hr
    rw [eent, if_neg (by omega)]
  have hrowsame : ∀ y r, r ≤ i → (RowSat aug' n y r ↔ RowSat (Newton.swapRows aug i p) n y r) := by
    intro y r hr
    unfold RowSat
    simp only [esame _ _ hr]
  have hrowcomb : ∀ y r, i < r → r < n → RowSat (Newton.swapRows aug i p) n y i →
      (RowSat aug' n y r ↔ RowSat (Newton.swapRows aug i p) n y r) := by
    intro y r hir hr hrowi
    unfold RowSat at hrowi ⊢
    rw [efull r n hir hr (le_refl n)]
    have hsum : ∑ c in Finset.range n, ent aug' r c * y c =
        ∑ c in Finset.range n, ent (Newton.swapRows aug i p) r c * y c -
          ent (Newton.swapRows aug i p) r i / ent (Newton.swapRows aug i p) i i *
            ∑ c in Finset.range n, ent (Newton.swapRows aug i p) i c * y c := by
      rw [Finset.mul_sum, ← Finset.sum_sub_distrib]
      refine Finset.sum_congr rfl (fun c hc => ?_)
      rw [efull r c hir hr (le_of_lt (Finset.mem_range.mp hc))]
      ring
    rw [hsum, hrowi]
    constructor
    · intro hh; linarith
    · intro hh; linarith
  refine ⟨emat, fun y => ?_, fun c r hc hcr hr => ?_, fun c hc => ?_⟩
  · rw [← hsat y, ← sat_swapRows hmat hi hp2 y]
    constructor
    · intro hs r hr
      by_cases hri : r ≤ i
      · exact (hrowsame y r hri).1 (hs r hr)
      · exact (hrowcomb y r (by omega) hr ((hrowsame y i (le_refl i)).1 (hs i hi))).1 (hs r hr)
    · intro hs r hr
      by_cases hri : r ≤ i
      · exact (hrowsame y r hri).2 (hs r hr)
      · exact (hrowcomb y r (by omega) hr (hs i hi)).2 (hs r hr)
  · by_cases hci : c < i
    · rw [eent, if_neg (by omega)]
      exact szero c r hci hcr hr
    · have e : c = i := by omega
      subst e
      rw [eent, if_pos ⟨hcr, hr, le_refl c, by omega⟩]
      field_simp
  · rw [esame c c (by omega)]
    by_cases hci : c < i
    · exact sdiag c hci
    · have e : c = i := by omega
      rw [e]; exact sii
theorem upto_zero (n : Nat) : upto 0 n = List.range n := by
  unfold upto
  rw [Nat.sub_zero, List.range_eq_range']

theorem foldlM_range_inv {σ : Type} (P : Nat → σ → Prop) (f : σ → Nat → Except Err σ) :
    ∀ (n : Nat) (s s' : σ), (List.range n).foldlM f s = Except.ok s' → P 0 s →
      (∀ k t t', k < n → P k t → f t k = Except.ok t' → P (k + 1) t') → P n s' := by
  intro n
  induction n with
  | zero =>
    intro s s' h h0 _
    simp only [List.range_zero, List.foldlM_nil, pure, Except.pure, Except.ok.injEq] at h
    rw [← h]; exact h0
  | succ n ih =>
    intro s s' h h0 hstep
    rw [List.range_succ, List.foldlM_append] at h
    cases hmid : (List.range n).foldlM f s with
    | error e =>
      rw [hmid] at h
      simp [bind, Except.bind] at h
    | ok t =>
      rw [hmid] at h
      simp only [bind, Except.bind, List.foldlM_cons, List.foldlM_nil, pure, Except.pure] at h
      have hP := ih s t hmid h0 (fun k u u' hk => hstep k u u' (by omega))
      cases hlast : f t n with
      | error e => rw [hlast] at h; simp at h
      | ok t' =>
        rw [hlast] at h
        simp only [Except.ok.injEq] at h
        rw [← h]
        exact hstep n t t' (Nat.lt_succ_self n) hP hlast

theorem foldlM_range_error {σ : Type} (f : σ → Nat → Except Err σ) (e : Err) :
    ∀ (n : Nat) (s : σ), (List.range n).foldlM f s = Except.error e →
      ∃ k t, k < n ∧ f t k = Except.error e := by
  intro n
  induction n with
  | zero =>
    intro s h
    simp [pure, Except.pure] at h
  | succ n ih =>
    intro s h
    rw [List.range_succ, List.foldlM_append] at h
    cases hmid : (List.range n).foldlM f s with
    | error e' =>
      rw [hmid] at h
      simp only [bind, Except.bind, Except.error.injEq] at h
      subst h
      obtain ⟨k, t, hk, hf⟩ := ih s hmid
      exact ⟨k, t, by omega, hf⟩
    | ok t =>
      rw [hmid] at h
      simp only [bind, Except.bind, List.foldlM_cons, List.foldlM_nil, pure, Except.pure] at h
      cases hlast : f t n with
      | error e' =>
        rw [hlast] at h
        simp only [Except.error.injEq] at h
        subst h
        exact ⟨n, t, Nat.lt_succ_self n, hlast⟩
      | ok t' => rw [hlast] at h; simp at h

theorem eliminationStep_error (aug : List (List K)) (n i : Nat) (e : Err)
    (h : Newton.eliminationStep aug n i = Except.error e) : e = Err.SingularMatrix := by
  unfold Newton.eliminationStep at h
  by_cases hs : |ent aug (Newton.findPivot aug n i) i| < 1e-10
  · simp only [hs, if_true, Except.error.injEq] at h
    exact h.symm
  · simp [hs] at h

theorem forwardElimination_error (aug : List (List K)) (n : Nat) (e : Err)
    (h : Newton.forwardElimination aug n = Except.error e) : e = Err.SingularMatrix := by
  unfold Newton.forwardElimination at h
  rw [upto_zero] at h
  obtain ⟨k, t, _, hf⟩ := foldlM_range_error _ e n aug h
  exact eliminationStep_error t n k e hf

theorem forwardElimination_inv {aug0 U : List (List K)} {n : Nat} (hmat : IsMat aug0 n (n + 1))
    (h : Newton.forwardElimination aug0 n = Except.ok U) : ElimInv aug0 U n n := by
  unfold Newton.forwardElimination at h
  rw [upto_zero] at h
  refine foldlM_range_inv (fun k m => ElimInv aug0 m n k) _ n aug0 U h
    ⟨hmat, fun y => Iff.rfl, fun c r hc => absurd hc (by omega), fun c hc => absurd hc (by omega)⟩
    (fun k t t' hk hP hf => eliminationStep_inv hk hP hf)

theorem foldl_range_reverse_inv {σ : Type} (P : Nat → σ → Prop) (f : σ → Nat → σ) :
    ∀ (m : Nat) (s : σ), P m s → (∀ k, k < m → ∀ t, P (k + 1) t → P k (f t k)) →
      P 0 ((List.range m).reverse.foldl f s) := by
  intro m
  induction m with
  | zero => intro s h0 _; simpa using h0
  | succ m ih =>
    intro s h0 hstep
    rw [List.range_succ, List.reverse_append, List.reverse_singleton, List.singleton_append,
      List.foldl_cons]
    exact ih (f s m) (hstep m (Nat.lt_succ_self m) s h0) (fun k hk t ht => hstep k (by omega) t ht)

theorem backSubstitute_spec (U : List (List K)) (n : Nat) (x0 : List K)
    (hdiag : ∀ c, c < n → ent U c c ≠ 0) :
    (Newton.backSubstitute U n x0).length = n ∧
    ∀ r, r < n → ent U r r * (Newton.backSubstitute U n x0).getD r 0 +
      ∑ j in Finset.Ico (r + 1) n, ent U r j * (Newton.backSubstitute U n x0).getD j 0 = ent U r n := by
  unfold Newton.backSubstitute
  rw [upto_zero]
  have key := foldl_range_reverse_inv
    (fun k (x : List K) => x.length = n ∧
      ∀ r, k ≤ r → r < n → ent U r r * x.getD r 0 +
        ∑ j in Finset.Ico (r + 1) n, ent U r j * x.getD j 0 = ent U r n)
    (fun x i =>
      ((upto (i + 1) n).foldl (fun x j => x.set i (x.getD i 0 - ent U i j * x.getD j 0))
        (x.set i (ent U i n))).set i
        (((upto (i + 1) n).foldl (fun x j => x.set i (x.getD i 0 - ent U i j * x.getD j 0))
          (x.set i (ent U i n))).getD i 0 / ent U i i))
    n (resize x0 n 0) ⟨length_resize _ _ _, fun r h1 h2 => absurd h1 (by omega)⟩
    (by
      intro k hk t ⟨tlen, tsol⟩
      have inner := foldl_upto_inv
        (fun j (y : List K) => y.length = n ∧ (∀ l, l ≠ k → y.getD l 0 = t.getD l 0) ∧
          y.getD k 0 = ent U k n - ∑ l in Finset.Ico (k + 1) j, ent U k l * t.getD l 0)
        (fun x j => x.set k (x.getD k 0 - ent U k j * x.getD j 0))
        (t.set k (ent U k n)) (k + 1) n (by omega)
        ⟨by rw [List.length_set]; exact tlen, fun l hl => getD_set_ne _ (Ne.symm hl) _ _, by
          rw [getD_set_self _ (by omega)]; simp⟩
        (by
          intro j hj1 hj2 y ⟨ylen, yoth, yk⟩
          refine ⟨by rw [List.length_set]; exact ylen, fun l hl => ?_, ?_⟩
          · rw [getD_set_ne _ (Ne.symm hl)]
            exact yoth l hl
          · rw [getD_set_self _ (by omega), yk, yoth j (by omega),
              Finset.sum_Ico_succ_top (by omega)]
            ring)
      beta_reduce
      generalize (upto (k + 1) n).foldl (fun x j => x.set k (x.getD k 0 - ent U k j * x.getD j 0))
        (t.set k (ent U k n)) = Y at inner ⊢
      obtain ⟨ylen, yoth, yk⟩ := inner
      refine ⟨by rw [List.length_set]; exact ylen, fun r hr1 hr2 => ?_⟩
      have hs : ∀ r', k ≤ r' → ∑ j in Finset.Ico (r' + 1) n, ent U r' j *
          (Y.set k (Y.getD k 0 / ent U k k)).getD j 0 =
          ∑ j in Finset.Ico (r' + 1) n, ent U r' j * t.getD j 0 := by
        intro r' hr'
        refine Finset.sum_congr rfl (fun j hj => ?_)
        have hjr : k ≠ j := by
          have := (Finset.mem_Ico.mp hj).1
          omega
        rw [getD_set_ne _ hjr, yoth j (Ne.symm hjr)]
      rw [hs r hr1]
      by_cases e : r = k
      · subst e
        rw [getD_set_self _ (by omega), yk]
        have := hdiag r hr2
        field_simp
      · rw [getD_set_ne _ (Ne.symm e), yoth r e]
        exact tsol r (by omega) hr2)
  exact ⟨key.1, fun r hr => key.2 r (Nat.zero_le r) hr⟩
theorem sat_backSubstitute {aug0 U : List (List K)} {n : Nat} (hinv : ElimInv aug0 U n n)
    (x0 : List K) : Sat U n (fun j => (Newton.backSubstitute U n x0).getD j 0) := by
  obtain ⟨_, _, hzero, hdiag⟩ := hinv
  obtain ⟨_, hsol⟩ := backSubstitute_spec U n x0 hdiag
  intro r hr
  unfold RowSat
  rw [Finset.range_eq_Ico, ← Finset.sum_Ico_consecutive _ (Nat.zero_le r) (le_of_lt hr),
    Finset.sum_eq_sum_Ico_succ_bot hr]
  have hz : ∑ c in Finset.Ico 0 r, ent U r c * (Newton.backSubstitute U n x0).getD c 0 = 0 := by
    refine Finset.sum_eq_zero (fun c hc => ?_)
    rw [hzero c r (by have := (Finset.mem_Ico.mp hc).2; omega) (Finset.mem_Ico.mp hc).2 hr,
      zero_mul]
  rw [hz, zero_add]
  exact hsol r hr

theorem sat_augment_iff (A : List (List K)) (b : List K) (n : Nat) (y : Nat → K) :
    Sat (Newton.augment A b n) n y ↔
      ∀ i, i < n → ∑ j in Finset.range n, ent A i j * y j = b.getD i 0 := by
  obtain ⟨_, hent⟩ := augment_spec A b n
  have hrow : ∀ i, i < n → (RowSat (Newton.augment A b n) n y i ↔
      ∑ j in Finset.range n, ent A i j * y j = b.getD i 0) := by
    intro i hi
    unfold RowSat
    rw [(hent i hi).2, Finset.sum_congr rfl
      (fun j hj => by rw [(hent i hi).1 j (Finset.mem_range.mp hj)])]
  exact ⟨fun h i hi => (hrow i hi).1 (h i hi), fun h i hi => (hrow i hi).2 (h i hi)⟩

theorem gaussian_elimination_eq {A : List (List K)} {n : Nat} (hn : 1 ≤ n) (hA : IsMat A n n)
    (b x0 : List K) (hb : b.length = n) :
    Newton.gaussian_elimination A b x0 =
      match Newton.forwardElimination (Newton.augment A b n) n with
      | Except.error e => Except.error e
      | Except.ok aug => Except.ok (Newton.backSubstitute aug n x0) := by
  unfold Newton.gaussian_elimination
  have h1 : ¬ (n = 0 ∨ (A.getD 0 []).length ≠ n ∨ b.length ≠ n) := by
    rw [hA.2 0 (by omega), hb]
    omega
  simp only [hA.1]
  rw [if_neg h1]

theorem upper_triangular_kernel (U : List (List K)) (n : Nat)
    (hzero : ∀ c r, c < n → c < r → r < n → ent U r c = 0)
    (hdiag : ∀ c, c < n → ent U c c ≠ 0) (v : Nat → K)
    (hv : ∀ r, r < n → ∑ c in Finset.range n, ent U r c * v c = 0) :
    ∀ r, r < n → v r = 0 := by
  have key : ∀ k r, n ≤ r + k → r < n → v r = 0 := by
    intro k
    induction k with
    | zero => intro r h1 h2; omega
    | succ k ih =>
      intro r h1 h2
      have hsum := hv r h2
      rw [Finset.sum_eq_single r] at hsum
      · exact (mul_eq_zero.mp hsum).resolve_left (hdiag r h2)
      · intro c hc hcr
        have hcn := Finset.mem_range.mp hc
        by_cases hlt : c < r
        · rw [hzero c r hcn hlt h2, zero_mul]
        · rw [ih c (by omega) hcn, mul_zero]
      · intro hr
        exact absurd (Finset.mem_range.mpr h2) hr
  exact fun r hr => key n r (by omega) hr

/-- A run of `gaussian_elimination` that returns `x` solves every equation of the system. -/
theorem gaussian_elimination_ok {A : List (List K)} {n : Nat} (hn : 1 ≤ n) (hA : IsMat A n n)
    {b x0 x : List K} (hb : b.length = n) (h : Newton.gaussian_elimination A b x0 = Except.ok x) :
    ∃ U, ElimInv (Newton.augment A b n) U n n ∧ x = Newton.backSubstitute U n x0 := by
  rw [gaussian_elimination_eq hn hA b x0 hb] at h
  cases hf : Newton.forwardElimination (Newton.augment A b n) n with
  | error e => rw [hf] at h; simp at h
  | ok U =>
    rw [hf] at h
    simp only [Except.ok.injEq] at h
    exact ⟨U, forwardElimination_inv (augment_spec A b n).1 hf, h.symm⟩


theorem gaussian_elimination_mismatch_iff (A : List (List K)) (b x0 : List K) :
    Newton.gaussian_elimination A b x0 = Except.error Err.DimensionMismatch ↔
      (A.length = 0 ∨ (A.getD 0 []).length ≠ A.length ∨ b.length ≠ A.length) := by
  unfold Newton.gaussian_elimination
  by_cases h : A.length = 0 ∨ (A.getD 0 []).length ≠ A.length ∨ b.length ≠ A.length
  · simp only [h, if_true]
  · simp only [h, if_false, iff_false]
    cases hf : Newton.forwardElimination (Newton.augment A b A.length) A.length with
    | error e =>
      rw [forwardElimination_error _ _ _ hf]
      simp
    | ok U => simp

theorem gaussian_elimination_of_det_eq_zero (A : List (List K)) (b x0 : List K) (n : Nat)
    (hn : 1 ≤ n) (hA : IsMat A n n) (hb : b.length = n)
    (hdet : Matrix.det (Matrix.of (fun i j : Fin n => ent A i j)) = 0) :
    Newton.gaussian_elimination A b x0 = Except.error Err.SingularMatrix := by
  cases hres : Newton.gaussian_elimination A b x0 with
  | error e =>
    rw [gaussian_elimination_eq hn hA b x0 hb] at hres
    cases hf : Newton.forwardElimination (Newton.augment A b n) n with
    | error e' =>
      rw [hf] at hres
      simp only [Except.error.injEq] at hres
      rw [← hres, forwardElimination_error _ _ _ hf]
    | ok U => rw [hf] at hres; simp at hres
  | ok x =>
    exfalso
    obtain ⟨U, hinv, rfl⟩ := gaussian_elimination_ok hn hA hb hres
    obtain ⟨v, hv0, hv⟩ := Matrix.exists_mulVec_eq_zero_iff.mpr hdet
    -- the kernel vector, extended by zero
    let w : Nat → K := fun j => if hj : j < n then v ⟨j, hj⟩ else 0
    have hAw : ∀ i, i < n → ∑ j in Finset.range n, ent A i j * w j = 0 := by
      intro i hi
      have := congrFun hv ⟨i, hi⟩
      simp only [Matrix.mulVec, Matrix.dotProduct, Matrix.of_apply, Pi.zero_apply] at this
      rw [Finset.sum_range]
      rw [← this]
      refine Finset.sum_congr rfl (fun j _ => ?_)
      simp only [w, j.2, dif_pos]
    let y : Nat → K := fun j => (Newton.backSubstitute U n x0).getD j 0
    have hy : Sat U n y := sat_backSubstitute hinv x0
    have hy0 := (sat_augment_iff A b n y).1 ((hinv.2.1 y).1 hy)
    have hyw0 : Sat (Newton.augment A b n) n (fun j => y j + w j) := by
      rw [sat_augment_iff]
      intro i hi
      have e : ∑ j in Finset.range n, ent A i j * (y j + w j) =
          ∑ j in Finset.range n, ent A i j * y j + ∑ j in Finset.range n, ent A i j * w j := by
        rw [← Finset.sum_add_distrib]
        exact Finset.sum_congr rfl (fun j _ => by ring)
      rw [e, hy0 i hi, hAw i hi, add_zero]
    have hyw : Sat U n (fun j => y j + w j) := (hinv.2.1 _).2 hyw0
    have hUw : ∀ r, r < n → ∑ c in Finset.range n, ent U r c * w c = 0 := by
      intro r hr
      have h1 := hy r hr
      have h2 := hyw r hr
      unfold RowSat at h1 h2
      have e : ∑ j in Finset.range n, ent U r j * (y j + w j) =
          ∑ j in Finset.range n, ent U r j * y j + ∑ j in Finset.range n, ent U r j * w j := by
        rw [← Finset.sum_add_distrib]
        exact Finset.sum_congr rfl (fun j _ => by ring)
      rw [e, h1] at h2
      linarith
    have hw := upper_triangular_kernel U n (fun c r hc hcr hr => hinv.2.2.1 c r hc hcr hr)
      hinv.2.2.2 w hUw
    apply hv0
    funext j
    have := hw j j.2
    simpa only [w, j.2, dif_pos] using this

theorem isMat_two (a b c d : K) : IsMat [[a, b], [c, d]] 2 2 := by
  refine ⟨rfl, fun i hi => ?_⟩
  interval_cases i <;> rfl

theorem eval_augment_swap :
    Newton.augment ([[1, 3], [2, 1]] : List (List ℚ)) [3, 5] 2 = [[1, 3, 3], [2, 1, 5]] := by
  simp [Newton.augment, upto, setEnt, ent, List.range']

theorem eval_step0_swap :
    Newton.eliminationStep ([[1, 3, 3], [2, 1, 5]] : List (List ℚ)) 2 0 =
      Except.ok [[2, 1, 5], [0, 5 / 2, 1 / 2]] := by
  norm_num [Newton.eliminationStep, Newton.findPivot, Newton.swapRows, Newton.eliminateBelow,
    Newton.eliminateRow, upto, setEnt, ent, List.range', abs_lt]

theorem eval_step1_swap :
    Newton.eliminationStep ([[2, 1, 5], [0, 5 / 2, 1 / 2]] : List (List ℚ)) 2 1 =
      Except.ok [[2, 1, 5], [0, 5 / 2, 1 / 2]] := by
  norm_num [Newton.eliminationStep, Newton.findPivot, Newton.swapRows, Newton.eliminateBelow,
    Newton.eliminateRow, upto, setEnt, ent, List.range', abs_lt]

theorem eval_forward_swap :
    Newton.forwardElimination ([[1, 3, 3], [2, 1, 5]] : List (List ℚ)) 2 =
      Except.ok [[2, 1, 5], [0, 5 / 2, 1 / 2]] := by
  simp only [Newton.forwardElimination, upto, List.range', List.foldlM, eval_step0_swap, bind,
    Except.bind, Nat.zero_add, eval_step1_swap, pure, Except.pure]

theorem eval_back_swap :
    Newton.backSubstitute ([[2, 1, 5], [0, 5 / 2, 1 / 2]] : List (List ℚ)) 2 [] =
      [12 / 5, 1 / 5] := by
  norm_num [Newton.backSubstitute, resize, upto, setEnt, ent, List.range', List.replicate]

theorem eval_gaussian_swap :
    Newton.gaussian_elimination ([[1, 3], [2, 1]] : List (List ℚ)) [3, 5] [] =
      Except.ok [12 / 5, 1 / 5] := by
  rw [gaussian_elimination_eq (by norm_num) (isMat_two 1 3 2 1) [3, 5] [] rfl, eval_augment_swap,
    eval_forward_swap]
  simp only [eval_back_swap]

theorem eval_augment_ragged :
    Newton.augment ([[1, 0], [0, 1, 7]] : List (List ℚ)) [1, 1] 2 = [[1, 0, 1], [0, 1, 1]] := by
  simp [Newton.augment, upto, setEnt, ent, List.range']

theorem eval_step0_ragged :
    Newton.eliminationStep ([[1, 0, 1], [0, 1, 1]] : List (List ℚ)) 2 0 =
      Except.ok [[1, 0, 1], [0, 1, 1]] := by
  norm_num [Newton.eliminationStep, Newton.findPivot, Newton.swapRows, Newton.eliminateBelow,
    Newton.eliminateRow, upto, setEnt, ent, List.range', abs_lt]

theorem eval_step1_ragged :
    Newton.eliminationStep ([[1, 0, 1], [0, 1, 1]] : List (List ℚ)) 2 1 =
      Except.ok [[1, 0, 1], [0, 1, 1]] := by
  norm_num [Newton.eliminationStep, Newton.findPivot, Newton.swapRows, Newton.eliminateBelow,
    Newton.eliminateRow, upto, setEnt, ent, List.range', abs_lt]

theorem eval_forward_ragged :
    Newton.forwardElimination ([[1, 0, 1], [0, 1, 1]] : List (List ℚ)) 2 =
      Except.ok [[1, 0, 1], [0, 1, 1]] := by
  simp only [Newton.forwardElimination, upto, List.range', List.foldlM, eval_step0_ragged, bind,
    Except.bind, Nat.zero_add, eval_step1_ragged, pure, Except.pure]

theorem eval_back_ragged :
    Newton.backSubstitute ([[1, 0, 1], [0, 1, 1]] : List (List ℚ)) 2 [] = [1, 1] := by
  norm_num [Newton.backSubstitute, resize, upto, setEnt, ent, List.range', List.replicate]

theorem eval_gaussian_ragged :
    Newton.gaussian_elimination ([[1, 0], [0, 1, 7]] : List (List ℚ)) [1, 1] [] =
      Except.ok [1, 1] := by
  unfold Newton.gaussian_elimination
  simp only [List.length_cons, List.length_nil, List.getD_cons_zero]
  norm_num
  rw [eval_augment_ragged, eval_forward_ragged]
  simp only [eval_back_ragged]

theorem assignNeg_eq (v g : List K) (n : Nat) (hv : v.length = n) (hg : g.length = n) :
    assignNeg v g n = negSpec g := by
  unfold assignNeg
  have key := foldl_upto_inv
    (fun k (w : List K) => w.length = n ∧ (∀ i, i < k → w.getD i 0 = -g.getD i 0))
    (fun v i => v.set i (-g.getD i 0)) v 0 n (Nat.zero_le n)
    ⟨hv, fun i hi => absurd hi (by omega)⟩
    (by
      intro k _ hk w ⟨wlen, went⟩
      refine ⟨by rw [List.length_set]; exact wlen, fun i hi => ?_⟩
      by_cases e : k = i
      · subst e
        rw [getD_set_self _ (by omega)]
      · rw [getD_set_ne _ e]
        exact went i (by omega))
  obtain ⟨wlen, went⟩ := key
  refine ext_getD (by rw [wlen]; simp [negSpec, hg]) (fun i hi => ?_)
  rw [wlen] at hi
  rw [went i hi]
  have hi' : i < g.length := by omega
  rw [List.getD_eq_getElem _ _ hi', List.getD_eq_getElem _ _ (by simp [negSpec, hi'])]
  simp [negSpec]

theorem updatePoint_eq (x d : List K) (alpha : K) (n : Nat) (hx : x.length = n)
    (hd : d.length = n) : updatePoint x d alpha n = axpySpec x d alpha := by
  unfold updatePoint
  have key := foldl_upto_inv
    (fun k (w : List K) => w.length = n ∧
      (∀ i, i < k → w.getD i 0 = x.getD i 0 + alpha * d.getD i 0) ∧
      (∀ i, k ≤ i → w.getD i 0 = x.getD i 0))
    (fun w i => w.set i (w.getD i 0 + alpha * d.getD i 0)) x 0 n (Nat.zero_le n)
    ⟨hx, fun i hi => absurd hi (by omega), fun i _ => rfl⟩
    (by
      intro k _ hk w ⟨wlen, wlo, whi⟩
      refine ⟨by rw [List.length_set]; exact wlen, fun i hi => ?_, fun i hi => ?_⟩
      · by_cases e : k = i
        · subst e
          rw [getD_set_self _ (by omega), whi k (le_refl k)]
        · rw [getD_set_ne _ e]
          exact wlo i (by omega)
      · rw [getD_set_ne _ (by omega)]
        exact whi i (by omega))
  obtain ⟨wlen, wlo, _⟩ := key
  have hd' : d.length = x.length := by rw [hd, hx]
  have hl2 : (axpySpec x d alpha).length = x.length := by simp [axpySpec, hd']
  refine ext_getD (by rw [wlen, hl2, hx]) (fun i hi => ?_)
  rw [wlen] at hi
  rw [wlo i hi, getD_axpySpec x d alpha hd' i (by omega)]

theorem length_negSpec (g : List K) : (negSpec g).length = g.length := by
  simp [negSpec]

theorem newton_search_total [Archimedean K] (x g d : List K) (c alpha_init rho : K)
    (hx : x.length % 2 = 0) (ha : 0 < alpha_init) (hr0 : 0 < rho) (hr1 : rho < 1) :
    ∃ alpha : K, 0 < alpha ∧ ∃ L : Nat, ∀ fuel, L ≤ fuel →
      Newton.armijo_line_search fuel x g d c alpha_init rho = some (Except.ok alpha) := by
  obtain ⟨k, _, _, h3⟩ := steepest_search_least x g d c alpha_init rho ha hr0 hr1
  by_cases hgd : gradDotDir g d < 0
  · refine ⟨alpha_init * rho ^ k, mul_pos ha (pow_pos hr0 k), k + 1, fun fuel hf => ?_⟩
    rw [newton_search_descent x g d c alpha_init rho fuel hx hgd, h3 fuel (by omega)]
    rfl
  · exact ⟨1e-6, by norm_num, 0, fun fuel _ =>
      newton_search_guard x g d c alpha_init rho fuel hx (not_lt.mp hgd)⟩

theorem eval_gradient_singular :
    Newton.gradient ([0, 1 / 200] : List K) [0, 0] = Except.ok [-2, 1] := by
  norm_num [Newton.gradient, evens, resize, List.range, List.range.loop]

theorem eval_sumSquares_singular : sumSquares ([-2, 1] : List K) = 5 := by
  norm_num [sumSquares]

theorem sqrt_five_not_small : ¬ Real.sqrt 5 < 1e-6 := by
  have h : (1 : ℝ) ≤ Real.sqrt 5 := by
    rw [Real.one_le_sqrt]
    norm_num
  intro hh
  have : (1e-6 : ℝ) < 1 := by norm_num
  linarith

theorem eval_hessian_singular :
    Newton.hessian ([0, 1 / 200] : List K) = [[0, 0], [0, 200]] := by
  norm_num [Newton.hessian, evens, setEnt, List.range, List.range.loop, List.replicate]

theorem eval_solve_singular :
    Newton.gaussian_elimination (Newton.hessian ([0, 1 / 200] : List K)) (negSpec [-2, 1])
      [0, 0] = Except.error Err.SingularMatrix := by
  rw [eval_hessian_singular]
  exact gaussian_elimination_of_det_eq_zero _ _ _ 2 (by decide) (isMat_two 0 0 0 200) rfl
    (by simp [Matrix.det_fin_two, ent])

theorem eval_gradient_origin : Steepest.gradient ([0, 0] : List K) [0, 0] = [-2, 0] := by
  norm_num [Steepest.gradient, evens, resize, List.range, List.range.loop]

theorem eval_sumSquares_origin : sumSquares ([-2, 0] : List K) = 4 := by
  norm_num [sumSquares]

theorem sqrt_four : Real.sqrt 4 = 2 := by
  rw [show (4 : ℝ) = 2 ^ 2 by norm_num]
  exact Real.sqrt_sq (by norm_num)

theorem eval_assignNeg_origin : assignNeg ([0, 0] : List K) [-2, 0] 2 = [2, 0] := by
  norm_num [assignNeg, upto, List.range']

theorem eval_search_origin :
    Steepest.armijo_line_search 10 ([0, 0] : List K) [-2, 0] [2, 0] (1 / 100) 1 (1 / 2) =
      some (1 / 8) := by
  norm_num [Steepest.armijo_line_search, Steepest.armijoLoop, Steepest.rosenbrock, trialPoint,
    gradDotDir, upto, evens, List.range, List.range.loop, List.range']

theorem eval_updatePoint_origin :
    updatePoint ([0, 0] : List K) [2, 0] (1 / 8) 2 = [1 / 4, 0] := by
  norm_num [updatePoint, upto, List.range']

theorem gradSpec_zero_iff (x : List K) (h : x.length % 2 = 0) :
    (∀ j, j < x.length → gradSpec x j = 0) ↔ ∀ i, i < x.length → x.getD i 0 = 1 := by
  constructor
  · intro hg
    have hpair : ∀ k, 2 * k + 1 < x.length →
        x.getD (2 * k) 0 = 1 ∧ x.getD (2 * k + 1) 0 = 1 := by
      intro k hk
      have h1 := hg (2 * k + 1) hk
      have h0 := hg (2 * k) (by omega)
      have a : (2 * k) % 2 = 0 := by omega
      have b : ¬ (2 * k + 1) % 2 = 0 := by omega
      simp only [gradSpec, a, b, if_true, if_false, Nat.add_sub_cancel] at h0 h1
      have ht : x.getD (2 * k) 0 ^ 2 - x.getD (2 * k + 1) 0 = 0 := by
        rcases mul_eq_zero.mp h1 with hh | hh
        · norm_num at hh
        · exact hh
      rw [ht] at h0
      have hx0 : x.getD (2 * k) 0 = 1 := by linarith
      refine ⟨hx0, ?_⟩
      rw [hx0] at ht
      linarith
    intro i hi
    by_cases hpar : i % 2 = 0
    · have e : i = 2 * (i / 2) := by omega
      rw [e]
      exact (hpair (i / 2) (by omega)).1
    · have e : i = 2 * (i / 2) + 1 := by omega
      rw [e]
      exact (hpair (i / 2) (by omega)).2
  · intro hx j hj
    unfold gradSpec
    by_cases hpar : j % 2 = 0
    · rw [if_pos hpar, hx j hj, hx (j + 1) (by omega)]
      norm_num
    · rw [if_neg hpar, hx j hj, hx (j - 1) (by omega)]
      norm_num

theorem eq_replicate_zero_iff (g : List K) (n : Nat) (hlen : g.length = n) :
    g = List.replicate n 0 ↔ ∀ j, j < n → g.getD j 0 = 0 := by
  constructor
  · intro hg j hj
    rw [hg, getD_replicate, if_pos hj]
  · intro hg
    refine ext_getD (by simp [hlen]) (fun j hj => ?_)
    rw [hg j (by omega), getD_replicate, if_pos (by omega)]

theorem rosenbrockSpec_nonneg (y : List K) : 0 ≤ rosenbrockSpec y := by
  unfold rosenbrockSpec
  exact Finset.sum_nonneg (fun k _ => by positivity)

theorem rosenbrockSpec_ones (x : List K) (hx : ∀ i, i < x.length → x.getD i 0 = 1) :
    rosenbrockSpec x = 0 := by
  unfold rosenbrockSpec
  refine Finset.sum_eq_zero (fun k hk => ?_)
  have hk' := Finset.mem_range.mp hk
  rw [hx (2 * k) (by omega), hx (2 * k + 1) (by omega)]
  norm_num

/-- A value returned by the backtracking loop passed the Armijo test or is below the floor,
and is positive when the loop started from a positive step with `rho > 0`. -/
theorem armijoLoop_some (x d : List K) (c rho f_x gdd : K) :
    ∀ (fuel : Nat) (a r : K), Steepest.armijoLoop x d c rho f_x gdd fuel a = some r →
      Armijo x d c f_x gdd r ∨ r < 1e-10 := by
  intro fuel
  induction fuel with
  | zero => intro a r h; simp [Steepest.armijoLoop] at h
  | succ fuel ih =>
    intro a r h
    simp only [Steepest.armijoLoop] at h
    by_cases h1 : Steepest.rosenbrock (trialPoint x d a) ≤ f_x + c * a * gdd
    · rw [if_pos h1] at h
      simp only [Option.some.injEq] at h
      subst h
      exact Or.inl h1
    · rw [if_neg h1] at h
      by_cases h2 : a * rho < 1e-10
      · rw [if_pos h2] at h
        simp only [Option.some.injEq] at h
        subst h
        exact Or.inr h2
      · rw [if_neg h2] at h
        exact ih _ _ h

/-- One more unit of fuel does not change a result of the backtracking loop. -/
theorem armijoLoop_succ (x d : List K) (c rho f_x gdd : K) :
    ∀ (fuel : Nat) (a r : K), Steepest.armijoLoop x d c rho f_x gdd fuel a = some r →
      Steepest.armijoLoop x d c rho f_x gdd (fuel + 1) a = some r := by
  intro fuel
  induction fuel with
  | zero => intro a r h; simp [Steepest.armijoLoop] at h
  | succ fuel ih =>
    intro a r h
    simp only [Steepest.armijoLoop] at h
    rw [Steepest.armijoLoop]
    by_cases h1 : Steepest.rosenbrock (trialPoint x d a) ≤ f_x + c * a * gdd
    · simp only [if_pos h1] at h ⊢
      exact h
    · simp only [if_neg h1] at h ⊢
      by_cases h2 : a * rho < 1e-10
      · simp only [if_pos h2] at h ⊢
        exact h
      · simp only [if_neg h2] at h ⊢
        exact ih _ _ h

theorem armijoLoop_mono (x d : List K) (c rho f_x gdd : K) (fuel : Nat) (a r : K)
    (h : Steepest.armijoLoop x d c rho f_x gdd fuel a = some r) :
    ∀ fuel', fuel ≤ fuel' → Steepest.armijoLoop x d c rho f_x gdd fuel' a = some r := by
  intro fuel' hle
  induction fuel' with
  | zero =>
    have : fuel = 0 := by omega
    rw [this] at h; exact h
  | succ n ih =>
    by_cases e : fuel = n + 1
    · rw [e] at h; exact h
    · exact armijoLoop_succ x d c rho f_x gdd n a r (ih (by omega))

/-- The backtracking loop started at `a` with `a·rho^(n+1) < 1e-10` returns within `n + 1`
passes, whatever the Armijo test answers. -/
theorem armijoLoop_bounded (x d : List K) (c rho f_x gdd : K) :
    ∀ (n : Nat) (a : K), a * rho ^ (n + 1) < 1e-10 →
      ∃ r, Steepest.armijoLoop x d c rho f_x gdd (n + 1) a = some r := by
  intro n
  induction n with
  | zero =>
    intro a ha
    rw [Steepest.armijoLoop]
    have h2 : a * rho < 1e-10 := by simpa using ha
    by_cases h1 : Steepest.rosenbrock (trialPoint x d a) ≤ f_x + c * a * gdd
    · exact ⟨a, by simp only [if_pos h1]⟩
    · exact ⟨a * rho, by simp only [if_neg h1, if_pos h2]⟩
  | succ n ih =>
    intro a ha
    rw [Steepest.armijoLoop]
    by_cases h1 : Steepest.rosenbrock (trialPoint x d a) ≤ f_x + c * a * gdd
    · exact ⟨a, by simp only [if_pos h1]⟩
    · by_cases h2 : a * rho < 1e-10
      · exact ⟨a * rho, by simp only [if_neg h1, if_pos h2]⟩
      · obtain ⟨r, hr⟩ := ih (a * rho) (by
          have e : a * rho * rho ^ (n + 1) = a * rho ^ (n + 1 + 1) := by ring
          rw [e]; exact ha)
        exact ⟨r, by simp only [if_neg h1, if_neg h2]; exact hr⟩

theorem steepest_search_bounded (x g d : List K) (c a0 rho : K) (Kb : Nat)
    (ha : 0 < a0) (hr0 : 0 < rho) (hr1 : rho < 1) (hK : a0 * rho ^ Kb < 1e-10) :
    ∃ r, ∀ fuel, Kb + 1 ≤ fuel → Steepest.armijo_line_search fuel x g d c a0 rho = some r := by
  have hK1 : a0 * rho ^ (Kb + 1) < 1e-10 := by
    have hpos : 0 < a0 * rho ^ Kb := mul_pos ha (pow_pos hr0 Kb)
    have : a0 * rho ^ (Kb + 1) = a0 * rho ^ Kb * rho := by ring
    rw [this]
    exact lt_of_le_of_lt (mul_le_of_le_one_right hpos.le hr1.le) hK
  obtain ⟨r, hr⟩ := armijoLoop_bounded x d c rho (Steepest.rosenbrock x) (gradDotDir g d) Kb a0 hK1
  exact ⟨r, fun fuel hf => armijoLoop_mono x d c rho _ _ _ a0 r hr fuel hf⟩

theorem newton_search_bounded (x g d : List K) (c a0 rho : K) (Kb : Nat)
    (hx : x.length % 2 = 0)
    (ha : 0 < a0) (hr0 : 0 < rho) (hr1 : rho < 1) (hK : a0 * rho ^ Kb < 1e-10) :
    ∃ r, ∀ fuel, Kb + 1 ≤ fuel →
      Newton.armijo_line_search fuel x g d c a0 rho = some (Except.ok r) := by
  by_cases hgd : gradDotDir g d < 0
  · obtain ⟨r, hr⟩ := steepest_search_bounded x g d c a0 rho Kb ha hr0 hr1 hK
    refine ⟨r, fun fuel hf => ?_⟩
    rw [newton_search_descent x g d c a0 rho fuel hx hgd, hr fuel hf]
    rfl
  · exact ⟨1e-6, fun fuel _ => newton_search_guard x g d c a0 rho fuel hx (not_lt.mp hgd)⟩

theorem steepest_search_some (x g d : List K) (c a0 rho r : K) (fuel : Nat)
    (h : Steepest.armijo_line_search fuel x g d c a0 rho = some r) :
    Armijo x d c (Steepest.rosenbrock x) (gradDotDir g d) r ∨ r < 1e-10 := by
  unfold Steepest.armijo_line_search at h
  exact armijoLoop_some x d c rho _ _ fuel a0 r h

theorem dotSpec_negSpec_neg (g : List K) (hg : ∃ i, i < g.length ∧ g.getD i 0 ≠ 0) :
    dotSpec g (negSpec g) < 0 := by
  obtain ⟨i, hi, hne⟩ := hg
  unfold dotSpec
  have hterm : ∀ j, j < g.length → g.getD j 0 * (negSpec g).getD j 0 = -(g.getD j 0 * g.getD j 0) := by
    intro j hj
    have : (negSpec g).getD j 0 = -g.getD j 0 := by
      rw [List.getD_eq_getElem _ _ (by rw [length_negSpec]; exact hj), List.getD_eq_getElem _ _ hj]
      simp [negSpec]
    rw [this]; ring
  rw [Finset.sum_congr rfl (fun j hj => hterm j (Finset.mem_range.mp hj)), Finset.sum_neg_distrib,
    neg_lt_zero]
  refine Finset.sum_pos' (fun j _ => mul_self_nonneg _) ⟨i, Finset.mem_range.mpr hi, ?_⟩
  exact mul_self_pos.mpr hne

theorem armijoSpec_decrease (x g d : List K) (c alpha : K) (hc : 0 < c) (hal : 0 < alpha)
    (hgd : dotSpec g d < 0) (h : ArmijoSpec x g d c alpha) :
    rosenbrockSpec (axpySpec x d alpha) < rosenbrockSpec x := by
  unfold ArmijoSpec at h
  have : c * alpha * dotSpec g d < 0 := mul_neg_of_pos_of_neg (mul_pos hc hal) hgd
  linarith

theorem eval_search_stationary :
    Steepest.armijo_line_search 1 ([1, 1] : List K) [0, 0] [0, 0] (1 / 100) 1 (1 / 2) =
      some 1 := by
  norm_num [Steepest.armijo_line_search, Steepest.armijoLoop, Steepest.rosenbrock, trialPoint,
    gradDotDir, upto, evens, List.range, List.range.loop, List.range']

theorem eval_search_origin_default :
    Steepest.armijo_line_search 10 ([0, 0] : List K) [-2, 0] [2, 0] 0.01 1.0 0.5 =
      some (1 / 8) := by
  norm_num [Steepest.armijo_line_search, Steepest.armijoLoop, Steepest.rosenbrock, trialPoint,
    gradDotDir, upto, evens, List.range, List.range.loop, List.range']

theorem newton_rosenbrock_odd (x : List K) (h : x.length % 2 ≠ 0) :
    Newton.rosenbrock x = Except.error Err.InvalidDimension := by
  unfold Newton.rosenbrock
  simp only [h, ne_eq, not_false_eq_true, if_true]

theorem newton_gradient_odd (x g0 : List K) (h : x.length % 2 ≠ 0) :
    Newton.gradient x g0 = Except.error Err.InvalidDimension := by
  unfold Newton.gradient
  simp only [h, ne_eq, not_false_eq_true, if_true]

theorem newton_method_odd (sqrt : K → K) (lsFuel fuel : Nat) (x : List K) (tol : K)
    (max_iter : Int) (h : x.length % 2 ≠ 0) :
    Newton.newton_method sqrt lsFuel (fuel + 1) x tol max_iter =
      some (Except.error Err.InvalidDimension) := by
  simp only [Newton.newton_method, Newton.loop, Newton.pass, newton_gradient_odd x _ h]

theorem eval_hessian_three :
    Newton.hessian ([1, 2, 3] : List K) = [[402, -400, 0], [-400, 200, 0], [0, 0, 10802]] := by
  norm_num [Newton.hessian, evens, setEnt, List.range, List.range.loop, List.replicate]

theorem eval_steepest_gradient_three :
    Steepest.gradient ([0, 0, 0] : List K) [0, 0, 0] = [-2, 0, -2] := by
  norm_num [Steepest.gradient, evens, resize, List.range, List.range.loop]

theorem eval_assignNeg_three : assignNeg ([0, 0, 0] : List K) [-2, 0, -2] 3 = [2, 0, 2] := by
  norm_num [assignNeg, upto, List.range']

theorem eval_search_three :
    Steepest.armijo_line_search 5 ([0, 0, 0] : List K) [-2, 0, -2] [2, 0, 2] (1 / 100) 1
      (1 / 2) = some (1 / 8) := by
  norm_num [Steepest.armijo_line_search, Steepest.armijoLoop, Steepest.rosenbrock, trialPoint,
    gradDotDir, upto, evens, List.range, List.range.loop, List.range']

theorem eval_updatePoint_three :
    updatePoint ([0, 0, 0] : List K) [2, 0, 2] (1 / 8) 3 = [1 / 4, 0, 1 / 4] := by
  norm_num [updatePoint, upto, List.range']

theorem eval_steepest_three :
    Steepest.steepest_gradient_descent Real.sqrt 5 1 ([0, 0, 0] : List ℝ) 3 1 =
      some
        { state := { x := [1 / 4, 0, 1 / 4], grad := [-2, 0, -2], direction := [2, 0, 2],
                     iter := 1 },
          norm_grad := Real.sqrt (sumSquares [-2, 0, -2]),
          terminal :=
            if Real.sqrt (sumSquares ([-2, 0, -2] : List ℝ)) > 3 then Terminal.MaxIterExceeded
            else Terminal.Converged } := by
  simp only [Steepest.steepest_gradient_descent, Steepest.loop, Steepest.pass,
    List.length_cons, List.length_nil, List.replicate, eval_steepest_gradient_three]
  norm_num [eval_assignNeg_three, eval_search_three, eval_updatePoint_three]

theorem default_floor : (1.0 : K) * 0.5 ^ 34 < 1e-10 := by
  norm_num

theorem length_updatePoint (x d : List K) (alpha : K) (n : Nat) :
    (updatePoint x d alpha n).length = x.length := by
  unfold updatePoint
  exact foldl_upto_inv (fun _ (w : List K) => w.length = x.length)
    (fun w i => w.set i (w.getD i 0 + alpha * d.getD i 0)) x 0 n (Nat.zero_le n) rfl
    (fun k _ _ w hw => by
      show (w.set _ _).length = _
      rw [List.length_set]; exact hw)

theorem length_assignNeg (v g : List K) (n : Nat) : (assignNeg v g n).length = v.length := by
  unfold assignNeg
  exact foldl_upto_inv (fun _ (w : List K) => w.length = v.length)
    (fun w i => w.set i (-g.getD i 0)) v 0 n (Nat.zero_le n) rfl
    (fun k _ _ w hw => by
      show (w.set _ _).length = _
      rw [List.length_set]; exact hw)

/-- A direction returned by `gaussian_elimination` on the Hessian has the length of the
point. -/
theorem length_newton_solve (x b d0 d : List K) (n : Nat) (hx : x.length = n)
    (hpar : n % 2 = 0) (hb : b.length = n)
    (hsolve : Newton.gaussian_elimination (Newton.hessian x) b d0 = Except.ok d) :
    d.length = n := by
  by_cases hn : n = 0
  · exfalso
    have hm := (gaussian_elimination_mismatch_iff (Newton.hessian x) b d0).2
      (Or.inl (by rw [hn] at hx; simp [Newton.hessian, evens, hx]))
    rw [hsolve] at hm
    exact absurd hm (by simp)
  · have hmat : IsMat (Newton.hessian x) n n := by
      have := (hessian_spec x (by rw [hx]; exact hpar)).1
      rwa [hx] at this
    obtain ⟨U, hinv, hd⟩ := gaussian_elimination_ok (by omega) hmat hb hsolve
    rw [hd]
    exact (backSubstitute_spec U n d0 hinv.2.2.2).1

/-- From a well-sized state a pass of the Newton loop returns, without an exception, the
same outcome for every line-search fuel from 35 on; it either stops at the same point or
moves on to a well-sized state with one more iteration. -/
theorem newton_pass_total (sqrt : K → K) (tol : K) (n : Nat) (s : DriverState K)
    (hs : WellSized n s) :
    ∃ p : Pass K,
      (∀ lsFuel, 35 ≤ lsFuel → Newton.pass sqrt lsFuel tol n s = some (Except.ok p)) ∧
      ((∃ s' ng, p = Pass.stop s' ng ∧ s'.x = s.x ∧ s'.iter = s.iter ∧ ng < tol ∧
          ng = sqrt (sumSquares (Steepest.gradient s.x s.grad))) ∨
        (∃ s' ng, p = Pass.next s' ng ∧ WellSized n s' ∧ s'.iter = s.iter + 1 ∧
          ng = sqrt (sumSquares (Steepest.gradient s.x s.grad)))) := by
  obtain ⟨hx, hpar, hdir⟩ := hs
  have hxe : s.x.length % 2 = 0 := by rw [hx]; exact hpar
  by_cases hnorm : sqrt (sumSquares (Steepest.gradient s.x s.grad)) < tol
  · refine ⟨Pass.stop { s with grad := Steepest.gradient s.x s.grad } _, fun lsFuel _ => ?_,
      Or.inl ⟨_, _, rfl, rfl, rfl, hnorm, rfl⟩⟩
    simp only [Newton.pass, newton_gradient_eq s.x s.grad hxe, hnorm, if_true]
  · have hb : (assignNeg (List.replicate n 0) (Steepest.gradient s.x s.grad) n).length = n := by
      rw [length_assignNeg]; simp
    have hdirs : ∃ dir : List K, dir.length = n ∧
        ∀ lsFuel alpha,
          Newton.armijo_line_search lsFuel s.x (Steepest.gradient s.x s.grad) dir 0.01 1.0 0.5 =
            some (Except.ok alpha) →
          Newton.pass sqrt lsFuel tol n s = some (Except.ok (Pass.next
            { x := updatePoint s.x dir alpha n, grad := Steepest.gradient s.x s.grad,
              direction := dir, iter := s.iter + 1 }
            (sqrt (sumSquares (Steepest.gradient s.x s.grad))))) := by
      cases hsolve : Newton.gaussian_elimination (Newton.hessian s.x)
          (assignNeg (List.replicate n 0) (Steepest.gradient s.x s.grad) n) s.direction with
      | error e =>
        refine ⟨assignNeg s.direction (Steepest.gradient s.x s.grad) n,
          by rw [length_assignNeg, hdir], fun lsFuel alpha hal => ?_⟩
        simp only [Newton.pass, newton_gradient_eq s.x s.grad hxe, hnorm, if_false, hsolve, hal]
      | ok d =>
        refine ⟨d, length_newton_solve s.x _ s.direction d n hx hpar hb hsolve,
          fun lsFuel alpha hal => ?_⟩
        simp only [Newton.pass, newton_gradient_eq s.x s.grad hxe, hnorm, if_false, hsolve, hal]
    obtain ⟨dir, hdl, hpass⟩ := hdirs
    obtain ⟨alpha, hal⟩ := newton_search_bounded s.x (Steepest.gradient s.x s.grad) dir
      (0.01 : K) 1.0 0.5 34 hxe (by norm_num) (by norm_num) (by norm_num) default_floor
    exact ⟨_, fun lsFuel hf => hpass lsFuel alpha (hal lsFuel hf),
      Or.inr ⟨_, _, rfl, ⟨by rw [length_updatePoint, hx], hpar, hdl⟩, rfl, rfl⟩⟩

/-- A pass of the steepest-descent loop returns the same state for every line-search fuel
from 35 on, with one more iteration. -/
theorem steepest_pass_total (sqrt : K → K) (n : Nat) (s : DriverState K) :
    ∃ s' : DriverState K,
      (∀ lsFuel, 35 ≤ lsFuel → Steepest.pass sqrt lsFuel n s =
        some (s', sqrt (sumSquares (Steepest.gradient s.x s.grad)))) ∧
      s'.iter = s.iter + 1 := by
  obtain ⟨alpha, hal⟩ := steepest_search_bounded s.x (Steepest.gradient s.x s.grad)
    (assignNeg s.direction (Steepest.gradient s.x s.grad) n)
    (0.01 : K) 1.0 0.5 34 (by norm_num) (by norm_num) (by norm_num) default_floor
  refine ⟨{ x := updatePoint s.x (assignNeg s.direction (Steepest.gradient s.x s.grad) n) alpha n,
            grad := Steepest.gradient s.x s.grad,
            direction := assignNeg s.direction (Steepest.gradient s.x s.grad) n,
            iter := s.iter + 1 }, fun lsFuel hf => ?_, rfl⟩
  simp only [Steepest.pass, hal lsFuel hf]

/-- The Newton loop from a well-sized state with `m + 1` iterations left before the counter
reaches the bound `M`: it returns a result, the same for every sufficient fuel. -/
theorem newton_loop_total (sqrt : K → K) (tol : K) (max_iter M : Int) (n : Nat)
    (_hM1 : 1 ≤ M) (hM2 : max_iter ≤ M) (hM3 : M = max_iter ∨ M = 1) :
    ∀ (m : Nat) (s : DriverState K), WellSized n s → (s.iter : Int) + (m + 1) = M →
      ∃ r : DriverResult K,
        (∀ fuel lsFuel, m + 1 ≤ fuel → 35 ≤ lsFuel →
          Newton.loop sqrt lsFuel tol max_iter n fuel s = some (Except.ok r)) ∧
        (r.state.iter : Int) ≤ M ∧
        (r.terminal = Terminal.MaxIterExceeded → (r.state.iter : Int) = M) := by
  intro m
  induction m with
  | zero =>
    intro s hs hit
    obtain ⟨p, hp, hcase⟩ := newton_pass_total sqrt tol n s hs
    rcases hcase with ⟨s', ng, rfl, _, hiter, _, _⟩ | ⟨s', ng, rfl, _, hiter, _⟩
    · refine ⟨{ state := s', norm_grad := ng, terminal := Terminal.Converged },
        fun fuel lsFuel hf hl => ?_, by simp only [hiter]; omega, fun h => by simp at h⟩
      obtain ⟨fuel, rfl⟩ : ∃ f, fuel = f + 1 := ⟨fuel - 1, by omega⟩
      simp only [Newton.loop, hp lsFuel hl]
    · have hnot : ¬ ((s'.iter : Int) < max_iter) := by rw [hiter]; push_cast; omega
      refine ⟨{ state := s', norm_grad := ng, terminal := Terminal.MaxIterExceeded },
        fun fuel lsFuel hf hl => ?_, by simp only [hiter]; push_cast; omega,
        fun _ => by simp only [hiter]; push_cast; omega⟩
      obtain ⟨fuel, rfl⟩ : ∃ f, fuel = f + 1 := ⟨fuel - 1, by omega⟩
      simp only [Newton.loop, hp lsFuel hl, hnot, if_false]
  | succ m ih =>
    intro s hs hit
    obtain ⟨p, hp, hcase⟩ := newton_pass_total sqrt tol n s hs
    rcases hcase with ⟨s', ng, rfl, _, hiter, _, _⟩ | ⟨s', ng, rfl, hs', hiter, _⟩
    · refine ⟨{ state := s', norm_grad := ng, terminal := Terminal.Converged },
        fun fuel lsFuel hf hl => ?_, by simp only [hiter]; omega, fun h => by simp at h⟩
      obtain ⟨fuel, rfl⟩ : ∃ f, fuel = f + 1 := ⟨fuel - 1, by omega⟩
      simp only [Newton.loop, hp lsFuel hl]
    · have hlt : (s'.iter : Int) < max_iter := by rw [hiter]; push_cast; omega
      obtain ⟨r, hr, hle, hmax⟩ := ih s' hs' (by rw [hiter]; push_cast; omega)
      refine ⟨r, fun fuel lsFuel hf hl => ?_, hle, hmax⟩
      obtain ⟨fuel, rfl⟩ : ∃ f, fuel = f + 1 := ⟨fuel - 1, by omega⟩
      simp only [Newton.loop, hp lsFuel hl, hlt, if_true]
      exact hr fuel lsFuel (by omega) hl

/-- The steepest-descent loop with `m + 1` iterations left before the counter reaches the
bound `M`: it returns a result, the same for every sufficient fuel. -/
theorem steepest_loop_total (sqrt : K → K) (tol : K) (max_iter M : Int) (n : Nat)
    (_hM1 : 1 ≤ M) (hM2 : max_iter ≤ M) (hM3 : M = max_iter ∨ M = 1) :
    ∀ (m : Nat) (s : DriverState K), (s.iter : Int) + (m + 1) = M →
      ∃ r : DriverResult K,
        (∀ fuel lsFuel, m + 1 ≤ fuel → 35 ≤ lsFuel →
          Steepest.loop sqrt lsFuel tol max_iter n fuel s = some r) ∧
        (r.state.iter : Int) ≤ M ∧
        (r.terminal = Terminal.MaxIterExceeded → (r.state.iter : Int) = M) := by
  intro m
  induction m with
  | zero =>
    intro s hit
    obtain ⟨s', hp, hiter⟩ := steepest_pass_total sqrt n s
    have hnot : ¬ (sqrt (sumSquares (Steepest.gradient s.x s.grad)) > tol ∧
        (s'.iter : Int) < max_iter) := by
      rw [hiter]; push_cast; intro hh; omega
    refine ⟨(DriverResult.mk s' (sqrt (sumSquares (Steepest.gradient s.x s.grad)))
        (if sqrt (sumSquares (Steepest.gradient s.x s.grad)) > tol then
          Terminal.MaxIterExceeded else Terminal.Converged)),
      fun fuel lsFuel hf hl => ?_, ?_, ?_⟩
    · obtain ⟨fuel, rfl⟩ : ∃ f, fuel = f + 1 := ⟨fuel - 1, by omega⟩
      simp only [Steepest.loop, hp lsFuel hl, hnot, if_false]
    · simp only [hiter]; push_cast; omega
    · intro _; simp only [hiter]; push_cast; omega
  | succ m ih =>
    intro s hit
    obtain ⟨s', hp, hiter⟩ := steepest_pass_total sqrt n s
    have hlt : (s'.iter : Int) < max_iter := by rw [hiter]; push_cast; omega
    by_cases hnorm : sqrt (sumSquares (Steepest.gradient s.x s.grad)) > tol
    · obtain ⟨r, hr, hle, hmax⟩ := ih s' (by rw [hiter]; push_cast; omega)
      refine ⟨r, fun fuel lsFuel hf hl => ?_, hle, hmax⟩
      obtain ⟨fuel, rfl⟩ : ∃ f, fuel = f + 1 := ⟨fuel - 1, by omega⟩
      simp only [Steepest.loop, hp lsFuel hl, hnorm, hlt, and_self, if_true]
      exact hr fuel lsFuel (by omega) hl
    · refine ⟨(DriverResult.mk s' (sqrt (sumSquares (Steepest.gradient s.x s.grad)))
        (if sqrt (sumSquares (Steepest.gradient s.x s.grad)) > tol then
          Terminal.MaxIterExceeded else Terminal.Converged)),
        fun fuel lsFuel hf hl => ?_, ?_, ?_⟩
      · obtain ⟨fuel, rfl⟩ : ∃ f, fuel = f + 1 := ⟨fuel - 1, by omega⟩
        simp only [Steepest.loop, hp lsFuel hl, hnorm, false_and, if_false]
      · simp only [hiter]; push_cast; omega
      · intro h; simp [hnorm] at h

theorem max_one_cases (max_iter : Int) :
    1 ≤ max max_iter 1 ∧ max_iter ≤ max max_iter 1 ∧
      (max max_iter 1 = max_iter ∨ max max_iter 1 = 1) := by
  refine ⟨le_max_right _ _, le_max_left _ _, ?_⟩
  rcases le_total max_iter 1 with h | h
  · exact Or.inr (max_eq_right h)
  · exact Or.inl (max_eq_left h)

theorem eval_newton_gradient_origin :
    Newton.gradient ([0, 0] : List K) [0, 0] = Except.ok [-2, 0] := by
  rw [newton_gradient_eq ([0, 0] : List K) [0, 0] (by simp), eval_gradient_origin]

theorem eval_hessian_origin : Newton.hessian ([0, 0] : List K) = [[2, 0], [0, 200]] := by
  norm_num [Newton.hessian, evens, setEnt, List.range, List.range.loop, List.replicate]

theorem eval_augment_origin :
    Newton.augment ([[2, 0], [0, 200]] : List (List ℝ)) [2, 0] 2 = [[2, 0, 2], [0, 200, 0]] := by
  simp [Newton.augment, upto, setEnt, ent, List.range']

theorem eval_pivot0_origin :
    Newton.findPivot ([[2, 0, 2], [0, 200, 0]] : List (List ℝ)) 2 0 = 0 := by
  norm_num [Newton.findPivot, upto, ent, List.range']

theorem eval_pivot1_origin :
    Newton.findPivot ([[2, 0, 2], [0, 200, 0]] : List (List ℝ)) 2 1 = 1 := by
  norm_num [Newton.findPivot, upto, ent, List.range']

theorem eval_below0_origin :
    Newton.eliminateBelow ([[2, 0, 2], [0, 200, 0]] : List (List ℝ)) 2 0 =
      [[2, 0, 2], [0, 200, 0]] := by
  simp only [Newton.eliminateBelow, Newton.eliminateRow, upto, setEnt, ent, List.range',
    List.foldl, List.getD_cons_zero, List.getD_cons_succ, List.set_cons_zero, List.set_cons_succ,
    Nat.reduceAdd, Nat.reduceSub, List.getD_eq_getElem?_getD, List.getElem?_cons_zero,
    List.getElem?_cons_succ, Option.getD_some]
  norm_num

theorem eval_below1_origin :
    Newton.eliminateBelow ([[2, 0, 2], [0, 200, 0]] : List (List ℝ)) 2 1 =
      [[2, 0, 2], [0, 200, 0]] := by
  simp only [Newton.eliminateBelow, upto, List.range', List.foldl, Nat.reduceAdd, Nat.reduceSub]

theorem eval_step0_origin :
    Newton.eliminationStep ([[2, 0, 2], [0, 200, 0]] : List (List ℝ)) 2 0 =
      Except.ok [[2, 0, 2], [0, 200, 0]] := by
  have hswap : Newton.swapRows ([[2, 0, 2], [0, 200, 0]] : List (List ℝ)) 0 0 =
      [[2, 0, 2], [0, 200, 0]] := by simp [Newton.swapRows]
  unfold Newton.eliminationStep
  simp only [eval_pivot0_origin, hswap, eval_below0_origin]
  norm_num [ent, abs_lt]

theorem eval_step1_origin :
    Newton.eliminationStep ([[2, 0, 2], [0, 200, 0]] : List (List ℝ)) 2 1 =
      Except.ok [[2, 0, 2], [0, 200, 0]] := by
  have hswap : Newton.swapRows ([[2, 0, 2], [0, 200, 0]] : List (List ℝ)) 1 1 =
      [[2, 0, 2], [0, 200, 0]] := by simp [Newton.swapRows]
  unfold Newton.eliminationStep
  simp only [eval_pivot1_origin, hswap, eval_below1_origin]
  norm_num [ent, abs_lt]

theorem eval_forward_origin :
    Newton.forwardElimination ([[2, 0, 2], [0, 200, 0]] : List (List ℝ)) 2 =
      Except.ok [[2, 0, 2], [0, 200, 0]] := by
  simp only [Newton.forwardElimination, upto, List.range', List.foldlM, eval_step0_origin, bind,
    Except.bind, Nat.zero_add, eval_step1_origin, pure, Except.pure]

theorem eval_back_origin :
    Newton.backSubstitute ([[2, 0, 2], [0, 200, 0]] : List (List ℝ)) 2 [0, 0] = [1, 0] := by
  norm_num [Newton.backSubstitute, resize, upto, setEnt, ent, List.range', List.replicate]

theorem eval_solve_origin :
    Newton.gaussian_elimination ([[2, 0], [0, 200]] : List (List ℝ)) [2, 0] [0, 0] =
      Except.ok [1, 0] := by
  rw [gaussian_elimination_eq (by norm_num) (isMat_two 2 0 0 200) [2, 0] [0, 0] rfl,
    eval_augment_origin, eval_forward_origin]
  simp only [eval_back_origin]

theorem eval_newton_search_origin :
    Newton.armijo_line_search 10 ([0, 0] : List K) [-2, 0] [1, 0] (1 / 100) 1 (1 / 2) =
      some (Except.ok (1 / 4)) := by
  norm_num [Newton.armijo_line_search, Newton.armijoLoop, Newton.rosenbrock, trialPoint,
    gradDotDir, upto, evens, List.range, List.range.loop, List.range']

theorem eval_updatePoint_newton_origin :
    updatePoint ([0, 0] : List K) [1, 0] (1 / 4) 2 = [1 / 4, 0] := by
  norm_num [updatePoint, upto, List.range']

/-- The run of `newton_method` from `(0, 0)` when `tol ≤ 2` and `max_iter ≤ 1`: one pass. -/
theorem eval_newton_origin (tol : ℝ) (max_iter : Int) (htol : ¬ (2 : ℝ) < tol)
    (hmax : ¬ (1 : Int) < max_iter) :
    Newton.newton_method Real.sqrt 10 1 ([0, 0] : List ℝ) tol max_iter =
      some (Except.ok
        { state := { x := [1 / 4, 0], grad := [-2, 0], direction := [1, 0], iter := 1 },
          norm_grad := 2,
          terminal := Terminal.MaxIterExceeded }) := by
  simp only [Newton.newton_method, Newton.loop, Newton.pass, List.length_cons, List.length_nil,
    List.replicate, eval_newton_gradient_origin, eval_sumSquares_origin, sqrt_four,
    eval_hessian_origin, htol, if_false]
  norm_num [eval_assignNeg_origin, eval_solve_origin, eval_newton_search_origin,
    eval_updatePoint_newton_origin, hmax]

/-- The run of `steepest_gradient_descent` from `(0, 0)` when the loop condition fails after
the first pass (`tol ≥ 2` or `max_iter ≤ 1`): one pass. -/
theorem eval_steepest_origin (tol : ℝ) (max_iter : Int)
    (hexit : ¬ ((2 : ℝ) > tol ∧ (1 : Int) < max_iter)) :
    Steepest.steepest_gradient_descent Real.sqrt 10 1 ([0, 0] : List ℝ) tol max_iter =
      some
        (DriverResult.mk
          ({ x := [1 / 4, 0], grad := [-2, 0], direction := [2, 0], iter := 1 } : DriverState ℝ) 2
          (if (2 : ℝ) > tol then Terminal.MaxIterExceeded else Terminal.Converged)) := by
  have hpass : Steepest.pass Real.sqrt 10 2
      ({ x := [0, 0], grad := [0, 0], direction := [0, 0], iter := 0 } : DriverState ℝ) =
      some ({ x := [1 / 4, 0], grad := [-2, 0], direction := [2, 0], iter := 1 }, 2) := by
    simp only [Steepest.pass, eval_gradient_origin, eval_sumSquares_origin, sqrt_four]
    norm_num [eval_assignNeg_origin, eval_search_origin, eval_updatePoint_origin]
  simp only [Steepest.steepest_gradient_descent, Steepest.loop, List.length_cons,
    List.length_nil, List.replicate, Nat.zero_add, Nat.reduceAdd, hpass]
  rw [if_neg (by simpa using hexit)]

theorem eval_newton_gradient_quarter :
    Newton.gradient ([1 / 4, 0] : List K) [-2, 0] = Except.ok [19 / 4, -25 / 2] := by
  norm_num [Newton.gradient, evens, resize, List.range, List.range.loop]

theorem eval_sumSquares_quarter : sumSquares ([19 / 4, -25 / 2] : List K) = 2861 / 16 := by
  norm_num [sumSquares]

theorem sqrt_quarter_gt_three : (3 : ℝ) < Real.sqrt (2861 / 16) := by
  rw [Real.lt_sqrt (by norm_num)]
  norm_num

theorem eval_rosenbrock_quarter :
    Newton.rosenbrock ([1 / 4, 0] : List K) = Except.ok (61 / 64) := by
  norm_num [Newton.rosenbrock, evens, List.range, List.range.loop]

/-- In exact arithmetic, for `g·d < 0`, `alpha_init > 0` and `0 < rho < 1`, the line
search of both files returns `alpha_init·rho^k` for the least `k` at which the Armijo condition
holds or (`k ≥ 1` and `alpha_init·rho^k < 1e-10`). -/
theorem exact_armijo_least_backtrack [Archimedean K] (x g d : List K) (c alpha_init rho : K)
    (hx : x.length % 2 = 0) (_hg : g.length = x.length) (hd : d.length = x.length)
    (hgd : dotSpec g d < 0) (_hc : 0 < c) (ha : 0 < alpha_init) (hr0 : 0 < rho) (hr1 : rho < 1) :
    ∃ k : Nat,
      (ArmijoSpec x g d c (alpha_init * rho ^ k) ∨ (1 ≤ k ∧ alpha_init * rho ^ k < 1e-10)) ∧
      (∀ j, j < k →
        ¬ (ArmijoSpec x g d c (alpha_init * rho ^ j) ∨ (1 ≤ j ∧ alpha_init * rho ^ j < 1e-10))) ∧
      (∀ fuel, k < fuel →
        Newton.armijo_line_search fuel x g d c alpha_init rho =
          some (Except.ok (alpha_init * rho ^ k)) ∧
        Steepest.armijo_line_search fuel x g d c alpha_init rho =
          some (alpha_init * rho ^ k)) ∧
      ((1e-10 : K) ≤ alpha_init * rho ^ k → ArmijoSpec x g d c (alpha_init * rho ^ k)) := by
  obtain ⟨k, h1, h2, h3⟩ := steepest_search_least x g d c alpha_init rho ha hr0 hr1
  have hiff : ∀ j, Stops x d c rho (Steepest.rosenbrock x) (gradDotDir g d) alpha_init j ↔
      (ArmijoSpec x g d c (alpha_init * rho ^ j) ∨ (1 ≤ j ∧ alpha_init * rho ^ j < 1e-10)) :=
    fun j => by unfold Stops; rw [armijo_iff_spec x g d c _ hx hd]
  have hgd2 : gradDotDir g d < 0 := by rw [gradDotDir_eq_sum]; exact hgd
  refine ⟨k, (hiff k).1 h1, fun j hj hs => h2 j hj ((hiff j).2 hs), fun fuel hf => ?_, fun hge => ?_⟩
  · rw [newton_search_descent x g d c alpha_init rho fuel hx hgd2, h3 fuel hf]
    exact ⟨rfl, rfl⟩
  · rcases (hiff k).1 h1 with h | ⟨_, h⟩
    · exact h
    · exact absurd h (not_lt.mpr hge)

/-- In exact arithmetic, for `alpha_init > 0` and `0 < rho < 1`, the line search of both
files returns a strictly positive value. -/
theorem exact_armijo_result_pos [Archimedean K] (x g d : List K) (c alpha_init rho : K)
    (hx : x.length % 2 = 0) (_hg : g.length = x.length) (_hd : d.length = x.length)
    (ha : 0 < alpha_init) (hr0 : 0 < rho) (hr1 : rho < 1) :
    ∃ a b : K, 0 < a ∧ 0 < b ∧ ∃ fuel0 : Nat, ∀ fuel, fuel0 ≤ fuel →
      Newton.armijo_line_search fuel x g d c alpha_init rho = some (Except.ok a) ∧
      Steepest.armijo_line_search fuel x g d c alpha_init rho = some b := by
  obtain ⟨k, _, _, h3⟩ := steepest_search_least x g d c alpha_init rho ha hr0 hr1
  have hpos : 0 < alpha_init * rho ^ k := mul_pos ha (pow_pos hr0 k)
  by_cases hgd : gradDotDir g d < 0
  · refine ⟨alpha_init * rho ^ k, alpha_init * rho ^ k, hpos, hpos, k + 1, fun fuel hf => ?_⟩
    rw [newton_search_descent x g d c alpha_init rho fuel hx hgd, h3 fuel (by omega)]
    exact ⟨rfl, rfl⟩
  · refine ⟨1e-6, alpha_init * rho ^ k, by norm_num, hpos, k + 1, fun fuel hf => ?_⟩
    exact ⟨newton_search_guard x g d c alpha_init rho fuel hx (not_lt.mp hgd), h3 fuel (by omega)⟩

/-- In exact arithmetic, for `g·d ≥ 0` the line search of the Newton file returns `1e-6`
with any fuel, and the line search of the steepest-descent file runs its loop. -/
theorem exact_armijo_guard [Archimedean K] (x g d : List K) (c alpha_init rho : K)
    (hx : x.length % 2 = 0) (hd : d.length = x.length) (hgd : 0 ≤ dotSpec g d) :
    (∀ fuel, Newton.armijo_line_search fuel x g d c alpha_init rho = some (Except.ok 1e-6)) ∧
    (0 < alpha_init → 0 < rho → rho < 1 →
      ∃ k : Nat,
        (ArmijoSpec x g d c (alpha_init * rho ^ k) ∨ (1 ≤ k ∧ alpha_init * rho ^ k < 1e-10)) ∧
        (∀ j, j < k →
          ¬ (ArmijoSpec x g d c (alpha_init * rho ^ j) ∨
            (1 ≤ j ∧ alpha_init * rho ^ j < 1e-10))) ∧
        ∀ fuel, k < fuel →
          Steepest.armijo_line_search fuel x g d c alpha_init rho =
            some (alpha_init * rho ^ k)) := by
  have hgd2 : 0 ≤ gradDotDir g d := by rw [gradDotDir_eq_sum]; exact hgd
  refine ⟨fun fuel => newton_search_guard x g d c alpha_init rho fuel hx hgd2,
    fun ha hr0 hr1 => ?_⟩
  obtain ⟨k, h1, h2, h3⟩ := steepest_search_least x g d c alpha_init rho ha hr0 hr1
  have hiff : ∀ j, Stops x d c rho (Steepest.rosenbrock x) (gradDotDir g d) alpha_init j ↔
      (ArmijoSpec x g d c (alpha_init * rho ^ j) ∨ (1 ≤ j ∧ alpha_init * rho ^ j < 1e-10)) :=
    fun j => by unfold Stops; rw [armijo_iff_spec x g d c _ hx hd]
  exact ⟨k, (hiff k).1 h1, fun j hj hs => h2 j hj ((hiff j).2 hs), h3⟩

/-- In exact arithmetic, for `g·d < 0`, a value `alpha ≥ 1e-10` returned by the line search
with the default config gives a strictly smaller objective at `x + alpha·d`. -/
theorem exact_accepted_step_decreases (x g d : List K) (alpha : K) (fuel : Nat)
    (hx : x.length % 2 = 0) (_hg : g.length = x.length) (hd : d.length = x.length)
    (hgd : dotSpec g d < 0) (hfloor : 1e-10 ≤ alpha)
    (hret : Newton.armijo_line_search fuel x g d 0.01 1.0 0.5 = some (Except.ok alpha) ∨
      Steepest.armijo_line_search fuel x g d 0.01 1.0 0.5 = some alpha) :
    updatePoint x d alpha x.length = axpySpec x d alpha ∧
    Newton.rosenbrock (updatePoint x d alpha x.length) =
      Except.ok (Steepest.rosenbrock (updatePoint x d alpha x.length)) ∧
    Steepest.rosenbrock (updatePoint x d alpha x.length) < Steepest.rosenbrock x ∧
    ((∃ i, i < g.length ∧ g.getD i 0 ≠ 0) → dotSpec g (negSpec g) < 0) := by
  have hgd2 : gradDotDir g d < 0 := by rw [gradDotDir_eq_sum]; exact hgd
  have hS : Steepest.armijo_line_search fuel x g d 0.01 1.0 0.5 = some alpha := by
    rcases hret with h | h
    · rw [newton_search_descent x g d _ _ _ fuel hx hgd2] at h
      cases hs : Steepest.armijo_line_search fuel x g d 0.01 1.0 0.5 with
      | none => rw [hs] at h; simp at h
      | some r =>
        rw [hs] at h
        simp only [Option.map_some', Option.some.injEq, Except.ok.injEq] at h
        rw [h]
    · exact h
  have harm : ArmijoSpec x g d 0.01 alpha := by
    rcases steepest_search_some x g d _ _ _ alpha fuel hS with h | h
    · exact (armijo_iff_spec x g d _ alpha hx hd).1 h
    · exact absurd h (not_lt.mpr hfloor)
  have hal : 0 < alpha := lt_of_lt_of_le (by norm_num) hfloor
  have hup := updatePoint_eq x d alpha x.length rfl hd
  have hlen : (axpySpec x d alpha).length % 2 = 0 := by
    rw [← trialPoint_eq_axpySpec x d alpha hd, (trialPoint_spec x d alpha).1]; exact hx
  refine ⟨hup, ?_, ?_, dotSpec_negSpec_neg g⟩
  · rw [hup]; exact newton_rosenbrock_eq_steepest _ hlen
  · rw [hup, steepest_rosenbrock_eq_spec _ hlen, steepest_rosenbrock_eq_spec _ hx]
    exact armijoSpec_decrease x g d 0.01 alpha (by norm_num) hal hgd harm

/-- More fuel does not change a result of the Newton line-search loop in doubles. -/
theorem f64_newton_armijoLoop_mono (x direction : List Dbl) (c rho f_x grad_dot_dir : Dbl)
    (fuel : Nat) :
    ∀ (alpha : Dbl) (r : Except Err Dbl) (fuel' : Nat), fuel ≤ fuel' →
      F64.Newton.armijoLoop x direction c rho f_x grad_dot_dir fuel alpha = some r →
      F64.Newton.armijoLoop x direction c rho f_x grad_dot_dir fuel' alpha = some r := by
  induction fuel with
  | zero => intro alpha r fuel' _ h; simp [F64.Newton.armijoLoop] at h
  | succ n ih =>
    intro alpha r fuel' hle h
    obtain ⟨m, rfl⟩ : ∃ m, fuel' = m + 1 := ⟨fuel' - 1, by omega⟩
    unfold F64.Newton.armijoLoop at h ⊢
    cases hf : F64.Newton.rosenbrock (F64.trialPoint x direction alpha) with
    | error e => rw [hf] at h; exact h
    | ok f_x_new =>
      rw [hf] at h
      simp only at h ⊢
      by_cases h1 : f_x_new ≤ f_x + c * alpha * grad_dot_dir
      · rw [if_pos h1] at h ⊢; exact h
      · rw [if_neg h1] at h ⊢
        by_cases h2 : alpha * rho < 1e-10
        · rw [if_pos h2] at h ⊢; exact h
        · rw [if_neg h2] at h ⊢
          exact ih _ _ _ (by omega) h

/-- More line-search fuel does not change a result of `armijo_line_search` (Newton file) in
doubles. -/
theorem f64_newton_search_mono (x grad direction : List Dbl) (c alpha_init rho : Dbl)
    (fuel fuel' : Nat) (r : Except Err Dbl) (hle : fuel ≤ fuel')
    (h : F64.Newton.armijo_line_search fuel x grad direction c alpha_init rho = some r) :
    F64.Newton.armijo_line_search fuel' x grad direction c alpha_init rho = some r := by
  unfold F64.Newton.armijo_line_search at h ⊢
  cases hf : F64.Newton.rosenbrock x with
  | error e => rw [hf] at h; exact h
  | ok f_x =>
    rw [hf] at h
    simp only at h ⊢
    by_cases hg : F64.gradDotDir grad direction ≥ 0
    · rw [if_pos hg] at h ⊢; exact h
    · rw [if_neg hg] at h ⊢
      exact f64_newton_armijoLoop_mono _ _ _ _ _ _ _ _ _ _ hle h

/-- More line-search fuel does not change a result of a pass of the Newton loop in doubles. -/
theorem f64_newton_pass_mono (lsFuel lsFuel' : Nat) (tol : Dbl) (n : Nat) (s : DriverState Dbl)
    (r : Except Err (Pass Dbl)) (hle : lsFuel ≤ lsFuel')
    (h : F64.Newton.pass lsFuel tol n s = some r) :
    F64.Newton.pass lsFuel' tol n s = some r := by
  unfold F64.Newton.pass at h ⊢
  cases hg : F64.Newton.gradient s.x s.grad with
  | error e => rw [hg] at h; exact h
  | ok grad =>
    rw [hg] at h
    simp only at h ⊢
    by_cases ht : Dbl.sqrt (F64.sumSquares grad) < tol
    · rw [if_pos ht] at h ⊢; exact h
    · rw [if_neg ht] at h ⊢
      cases hsolve : F64.Newton.gaussian_elimination (F64.Newton.hessian s.x)
          (F64.assignNeg (List.replicate n 0) grad n) s.direction with
      | ok dir =>
        simp only [hsolve] at h ⊢
        cases hs : F64.Newton.armijo_line_search lsFuel s.x grad dir 0.01 1.0 0.5 with
        | none => rw [hs] at h; simp at h
        | some a =>
          rw [f64_newton_search_mono _ _ _ _ _ _ _ _ _ hle hs]
          rw [hs] at h
          exact h
      | error e =>
        simp only [hsolve] at h ⊢
        cases hs : F64.Newton.armijo_line_search lsFuel s.x grad
            (F64.assignNeg s.direction grad n) 0.01 1.0 0.5 with
        | none => rw [hs] at h; simp at h
        | some a =>
          rw [f64_newton_search_mono _ _ _ _ _ _ _ _ _ hle hs]
          rw [hs] at h
          exact h

/-- More fuel, of either kind, does not change a result of the Newton loop in doubles. -/
theorem f64_newton_loop_mono (lsFuel lsFuel' : Nat) (tol : Dbl) (max_iter : Int) (n : Nat)
    (hls : lsFuel ≤ lsFuel') (fuel : Nat) :
    ∀ (s : DriverState Dbl) (r : Except Err (DriverResult Dbl)) (fuel' : Nat), fuel ≤ fuel' →
      F64.Newton.loop lsFuel tol max_iter n fuel s = some r →
      F64.Newton.loop lsFuel' tol max_iter n fuel' s = some r := by
  induction fuel with
  | zero => intro s r fuel' _ h; simp [F64.Newton.loop] at h
  | succ k ih =>
    intro s r fuel' hle h
    obtain ⟨m, rfl⟩ : ∃ m, fuel' = m + 1 := ⟨fuel' - 1, by omega⟩
    unfold F64.Newton.loop at h ⊢
    cases hp : F64.Newton.pass lsFuel tol n s with
    | none => rw [hp] at h; simp at h
    | some pr =>
      rw [f64_newton_pass_mono _ _ _ _ _ _ hls hp]
      rw [hp] at h
      cases pr with
      | error e => exact h
      | ok p =>
        cases p with
        | stop s' ng => exact h
        | next s' ng =>
          simp only at h ⊢
          by_cases hi : (s'.iter : Int) < max_iter
          · rw [if_pos hi] at h ⊢; exact ih _ _ _ (by omega) h
          · rw [if_neg hi] at h ⊢; exact h

/-- The run of `newton_method` in doubles from `(-1.2, 1.0)` with `tol = 1e-6` and
`max_iter = 1000`, with fuel for 4 line-search trials and 22 passes: 21 iterations, then the
test `norm_grad < tol` succeeds. -/
theorem eval_f64_newton_run :
    F64.Newton.newton_method 4 22 [-1.2, 1.0] 1e-6 1000 =
      some (Except.ok
        { state :=
            { x := [Dbl.fin false 9007199254201161 (-53), Dbl.fin false 9007199253650226 (-53)],
              grad := [Dbl.fin false 7219706880018164 (-84),
                Dbl.fin true 4769131685478400 (-84)],
              direction := [Dbl.fin false 5243347108871867 (-72),
                Dbl.fin false 5880603913308144 (-71)],
              iter := 21 },
          norm_grad := Dbl.fin false 8652674989089539 (-84),
          terminal := Terminal.Converged }) := by
  decide!

/-- More fuel does not change a result of the steepest-descent line-search loop in doubles. -/
theorem f64_steepest_armijoLoop_mono (x direction : List Dbl) (c rho f_x grad_dot_dir : Dbl)
    (fuel : Nat) :
    ∀ (alpha r : Dbl) (fuel' : Nat), fuel ≤ fuel' →
      F64.Steepest.armijoLoop x direction c rho f_x grad_dot_dir fuel alpha = some r →
      F64.Steepest.armijoLoop x direction c rho f_x grad_dot_dir fuel' alpha = some r := by
  induction fuel with
  | zero => intro alpha r fuel' _ h; simp [F64.Steepest.armijoLoop] at h
  | succ n ih =>
    intro alpha r fuel' hle h
    obtain ⟨m, rfl⟩ : ∃ m, fuel' = m + 1 := ⟨fuel' - 1, by omega⟩
    unfold F64.Steepest.armijoLoop at h ⊢
    simp only at h ⊢
    by_cases h1 : F64.Steepest.rosenbrock (F64.trialPoint x direction alpha) ≤
        f_x + c * alpha * grad_dot_dir
    · rw [if_pos h1] at h ⊢; exact h
    · rw [if_neg h1] at h ⊢
      by_cases h2 : alpha * rho < 1e-10
      · rw [if_pos h2] at h ⊢; exact h
      · rw [if_neg h2] at h ⊢
        exact ih _ _ _ (by omega) h

/-- More fuel does not change a result of `armijo_line_search` (steepest-descent file) in
doubles. -/
theorem f64_steepest_search_mono (x grad direction : List Dbl) (c alpha_init rho : Dbl)
    (fuel fuel' : Nat) (r : Dbl) (hle : fuel ≤ fuel')
    (h : F64.Steepest.armijo_line_search fuel x grad direction c alpha_init rho = some r) :
    F64.Steepest.armijo_line_search fuel' x grad direction c alpha_init rho = some r :=
  f64_steepest_armijoLoop_mono _ _ _ _ _ _ _ _ _ _ hle h

/-- The underflow run of the Newton line search: one failed trial, then `alpha * rho`
rounds to zero. -/
theorem eval_f64_newton_underflow :
    F64.Newton.armijo_line_search 1 [0, 0] [-2, 0] [Dbl.twoPow 101, 0] 0.01 (Dbl.twoPow (-100))
      (Dbl.twoPow (-1000)) = some (Except.ok 0) := by
  decide!

/-- The underflow run of the steepest-descent line search. -/
theorem eval_f64_steepest_underflow :
    F64.Steepest.armijo_line_search 1 [0, 0] [-2, 0] [Dbl.twoPow 101, 0] 0.01
      (Dbl.twoPow (-100)) (Dbl.twoPow (-1000)) = some 0 := by
  decide!

/-- The Newton line search in doubles on `g = (3, 1)`, `d = (fl(1/3), -1)`: the computed dot
product is `0`, and the guard returns `1e-6`. -/
theorem eval_f64_newton_rounded_dot :
    F64.Newton.armijo_line_search 0 [0, 0] [3, 1] [1 / 3, -1] 0.01 1.0 0.5 =
      some (Except.ok 1e-6) := by
  decide!

/-- The values of the double literals in the statements below. -/
theorem eval_dbl_literals :
    (3 : Dbl) = Dbl.fin false 6755399441055744 (-51) ∧
    (1 : Dbl) = Dbl.fin false 4503599627370496 (-52) ∧
    (1 / 3 : Dbl) = Dbl.fin false 6004799503160661 (-54) ∧
    (-1 : Dbl) = Dbl.fin true 4503599627370496 (-52) ∧
    (1e-6 : Dbl) = Dbl.fin false 4722366482869645 (-72) ∧
    (53876069761024 : Dbl) = Dbl.fin false 6896136929411072 (-7) ∧
    (1099511627776 : Dbl) = Dbl.fin false 4503599627370496 (-12) := by
  decide!

theorem dbl_neg_neg (a : Dbl) : -(-a) = a := by
  cases a <;> simp [Neg.neg, Dbl.neg]

theorem dbl_pack_not (s : Bool) (q : Nat) (e : Int) :
    Dbl.pack (!s) q e = -(Dbl.pack s q e) := by
  unfold Dbl.pack
  split_ifs <;> rfl

/-- Rounding is symmetric in the sign. -/
theorem dbl_round_not (s : Bool) (M : Nat) (E : Int) :
    Dbl.round (!s) M E = -(Dbl.round s M E) := by
  unfold Dbl.round
  simp only
  split_ifs
  · rfl
  · exact dbl_pack_not _ _ _
  · exact dbl_pack_not _ _ _

theorem dbl_mul_neg_right (a b : Dbl) : a * (-b) = -(a * b) := by
  show Dbl.mul a (Dbl.neg b) = Dbl.neg (Dbl.mul a b)
  cases a with
  | nan => cases b <;> rfl
  | inf s =>
    cases b with
    | nan => rfl
    | inf t => cases s <;> cases t <;> rfl
    | fin t k f =>
      simp only [Dbl.mul, Dbl.neg]
      split_ifs
      · rfl
      · cases s <;> cases t <;> rfl
  | fin s m e =>
    cases b with
    | nan => rfl
    | inf t =>
      simp only [Dbl.mul, Dbl.neg]
      split_ifs
      · rfl
      · cases s <;> cases t <;> rfl
    | fin t k f =>
      simp only [Dbl.mul, Dbl.neg]
      have hx : xor s (!t) = !(xor s t) := by cases s <;> cases t <;> rfl
      rw [hx]
      exact dbl_round_not _ _ _

theorem dbl_mul_neg_left (a b : Dbl) : (-a) * b = -(a * b) := by
  show Dbl.mul (Dbl.neg a) b = Dbl.neg (Dbl.mul a b)
  cases a with
  | nan => cases b <;> rfl
  | inf s =>
    cases b with
    | nan => rfl
    | inf t => cases s <;> cases t <;> rfl
    | fin t k f =>
      simp only [Dbl.mul, Dbl.neg]
      split_ifs
      · rfl
      · cases s <;> cases t <;> rfl
  | fin s m e =>
    cases b with
    | nan => rfl
    | inf t =>
      simp only [Dbl.mul, Dbl.neg]
      split_ifs
      · rfl
      · cases s <;> cases t <;> rfl
    | fin t k f =>
      simp only [Dbl.mul, Dbl.neg]
      have hx : xor (!s) t = !(xor s t) := by cases s <;> cases t <;> rfl
      rw [hx]
      exact dbl_round_not _ _ _

theorem dbl_scaled_not (s : Bool) (m : Nat) (e e0 : Int) :
    Dbl.scaled (!s) m e e0 = -Dbl.scaled s m e e0 := by
  cases s <;> simp [Dbl.scaled]

/-- In doubles `a - b` and `b - a` agree up to the sign. -/
theorem dbl_sub_comm_sign (a b : Dbl) : a - b = b - a ∨ a - b = -(b - a) := by
  show Dbl.add a (Dbl.neg b) = Dbl.add b (Dbl.neg a) ∨
    Dbl.add a (Dbl.neg b) = Dbl.neg (Dbl.add b (Dbl.neg a))
  cases a with
  | nan => cases b <;> simp [Dbl.add, Dbl.neg]
  | inf s =>
    cases b with
    | nan => simp [Dbl.add, Dbl.neg]
    | inf t => cases s <;> cases t <;> simp [Dbl.add, Dbl.neg]
    | fin t k f => cases s <;> simp [Dbl.add, Dbl.neg]
  | fin s m e =>
    cases b with
    | nan => simp [Dbl.add, Dbl.neg]
    | inf t => cases t <;> simp [Dbl.add, Dbl.neg]
    | fin t k f =>
      simp only [Dbl.add, Dbl.neg]
      rw [min_comm f e, dbl_scaled_not, dbl_scaled_not]
      set u := Dbl.scaled s m e (min e f) with hu
      set w := Dbl.scaled t k f (min e f) with hw
      have hvw : w + -u = -(u + -w) := by ring
      rw [hvw]
      by_cases hz : u + -w = 0
      · rw [hz]
        simp only [neg_zero, if_true]
        cases s <;> cases t <;> simp
      · have hz' : ¬ (-(u + -w) = 0) := fun h0 => hz (by omega)
        rw [if_neg hz, if_neg hz']
        right
        have hs : decide (-(u + -w) < 0) = !decide (u + -w < 0) := by
          by_cases hlt : u + -w < 0
          · have hn : ¬ (-(u + -w) < 0) := by omega
            rw [decide_eq_true hlt, decide_eq_false hn]; rfl
          · have hn : -(u + -w) < 0 := by omega
            rw [decide_eq_false hlt, decide_eq_true hn]; rfl
        rw [hs, Int.natAbs_neg, dbl_round_not]
        exact (dbl_neg_neg _).symm

theorem dbl_sq_term (c u v : Dbl) (h : u = v ∨ u = -v) :
    c * u * u = c * v * v ∧ u * u = v * v := by
  rcases h with h | h
  · rw [h]; exact ⟨rfl, rfl⟩
  · rw [h]
    simp only [dbl_mul_neg_right, dbl_mul_neg_left, dbl_neg_neg]
    exact ⟨trivial, trivial⟩

/-- In doubles too, the two files compute the same objective on an even-length point. -/
theorem f64_newton_rosenbrock_eq_steepest (x : List Dbl) (h : x.length % 2 = 0) :
    F64.Newton.rosenbrock x = Except.ok (F64.Steepest.rosenbrock x) := by
  unfold F64.Newton.rosenbrock F64.Steepest.rosenbrock
  simp only [h, ne_eq, not_true_eq_false, if_false]
  congr 2
  funext sum i
  have h1 := dbl_sq_term 100.0 (x.getD (i + 1) 0 - x.getD i 0 * x.getD i 0)
    (x.getD i 0 * x.getD i 0 - x.getD (i + 1) 0) (dbl_sub_comm_sign _ _)
  have h2 := dbl_sq_term 100.0 (1.0 - x.getD i 0) (x.getD i 0 - 1.0) (dbl_sub_comm_sign _ _)
  rw [h1.1, h2.2]

theorem f64_foldl_set_length (l : List Nat) (f : List Dbl → Nat → Dbl) (v : List Dbl) :
    (l.foldl (fun v i => v.set i (f v i)) v).length = v.length := by
  induction l generalizing v with
  | nil => rfl
  | cons a l ih =>
    simp only [List.foldl_cons]
    rw [ih, List.length_set]

theorem f64_length_trialPoint (x d : List Dbl) (alpha : Dbl) :
    (F64.trialPoint x d alpha).length = x.length := by
  unfold F64.trialPoint
  rw [f64_foldl_set_length (upto 0 x.length) (fun _ i => x.getD i 0 + alpha * d.getD i 0)]
  exact List.length_replicate _ _

/-- On an even-length point the loop of the Newton file is the loop of the steepest-descent
file, in doubles too. -/
theorem f64_newton_armijoLoop_eq (x d : List Dbl) (h : x.length % 2 = 0)
    (c rho f_x gdd : Dbl) :
    ∀ (fuel : Nat) (alpha : Dbl),
      F64.Newton.armijoLoop x d c rho f_x gdd fuel alpha =
        (F64.Steepest.armijoLoop x d c rho f_x gdd fuel alpha).map Except.ok := by
  intro fuel
  induction fuel with
  | zero => intro alpha; rfl
  | succ fuel ih =>
    intro alpha
    have hlen : (F64.trialPoint x d alpha).length % 2 = 0 := by
      rw [f64_length_trialPoint]; exact h
    simp only [F64.Newton.armijoLoop, F64.Steepest.armijoLoop,
      f64_newton_rosenbrock_eq_steepest (F64.trialPoint x d alpha) hlen]
    split_ifs
    · rfl
    · rfl
    · exact ih _

/-- The backtracking loop in doubles, entered at trial `j` with `n` trials to go before the
first trial `k` at which the exit test holds, returns `alphaSeq k`. -/
theorem f64_armijoLoop_run (x d : List Dbl) (c rho f_x gdd a0 : Dbl) (k : Nat)
    (hk : F64.Stops x d c rho f_x gdd a0 k)
    (hmin : ∀ j, j < k → ¬ F64.Stops x d c rho f_x gdd a0 j) :
    ∀ (n j : Nat), j + n = k → (j = 0 ∨ ¬ F64.alphaSeq a0 rho j < 1e-10) → ∀ fuel, n < fuel →
      F64.Steepest.armijoLoop x d c rho f_x gdd fuel (F64.alphaSeq a0 rho j) =
        some (F64.alphaSeq a0 rho k) := by
  intro n
  induction n with
  | zero =>
    intro j hj htop fuel hfuel
    obtain ⟨fuel, rfl⟩ : ∃ f, fuel = f + 1 := ⟨fuel - 1, by omega⟩
    have e : j = k := by omega
    subst e
    have harm : F64.Armijo x d c f_x gdd (F64.alphaSeq a0 rho j) := by
      rcases hk with hk | ⟨h1, h2⟩
      · exact hk
      · rcases htop with h0 | h0
        · omega
        · exact absurd h2 h0
    unfold F64.Armijo at harm
    simp only [F64.Steepest.armijoLoop]
    rw [if_pos harm]
  | succ n ih =>
    intro j hj htop fuel hfuel
    obtain ⟨fuel, rfl⟩ : ∃ f, fuel = f + 1 := ⟨fuel - 1, by omega⟩
    have hns : ¬ F64.Stops x d c rho f_x gdd a0 j := hmin j (by omega)
    have harm : ¬ F64.Armijo x d c f_x gdd (F64.alphaSeq a0 rho j) := fun hh => hns (Or.inl hh)
    unfold F64.Armijo at harm
    simp only [F64.Steepest.armijoLoop]
    rw [if_neg harm]
    have epow : F64.alphaSeq a0 rho j * rho = F64.alphaSeq a0 rho (j + 1) := rfl
    rw [epow]
    by_cases hsmall : F64.alphaSeq a0 rho (j + 1) < 1e-10
    · rw [if_pos hsmall]
      have : k = j + 1 := by
        by_contra hne
        exact hmin (j + 1) (by omega) (Or.inr ⟨by omega, hsmall⟩)
      rw [this]
    · rw [if_neg hsmall]
      exact ih (j + 1) (by omega) (Or.inr hsmall) fuel (by omega)

/-- The line search of the steepest-descent file in doubles returns `alphaSeq k` for the first
trial `k` at which the exit test, as computed, holds. -/
theorem f64_steepest_search_least (x g d : List Dbl) (c alpha_init rho : Dbl) (k : Nat)
    (hk : F64.Stops x d c rho (F64.Steepest.rosenbrock x) (F64.gradDotDir g d) alpha_init k)
    (hmin : ∀ j, j < k →
      ¬ F64.Stops x d c rho (F64.Steepest.rosenbrock x) (F64.gradDotDir g d) alpha_init j)
    (fuel : Nat) (hfuel : k < fuel) :
    F64.Steepest.armijo_line_search fuel x g d c alpha_init rho =
      some (F64.alphaSeq alpha_init rho k) :=
  f64_armijoLoop_run x d c rho _ _ alpha_init k hk hmin k 0 (by omega) (Or.inl rfl) fuel hfuel

/-- The line search of the Newton file in doubles, on an even-length point: the guard value
when the computed dot product is not negative, the loop of the steepest-descent file
otherwise. -/
theorem f64_newton_search_eq (x g d : List Dbl) (c alpha_init rho : Dbl) (fuel : Nat)
    (hx : x.length % 2 = 0) :
    F64.Newton.armijo_line_search fuel x g d c alpha_init rho =
      if F64.gradDotDir g d ≥ 0 then some (Except.ok 1e-6)
      else (F64.Steepest.armijo_line_search fuel x g d c alpha_init rho).map Except.ok := by
  unfold F64.Newton.armijo_line_search F64.Steepest.armijo_line_search
  rw [f64_newton_rosenbrock_eq_steepest x hx]
  simp only
  split_ifs
  · rfl
  · exact f64_newton_armijoLoop_eq x d hx _ _ _ _ _ _

/-- A value returned by the loop of the steepest-descent file in doubles passed the Armijo
test as computed, or is below `1e-10`. -/
theorem f64_armijoLoop_some (x d : List Dbl) (c rho f_x gdd : Dbl) :
    ∀ (fuel : Nat) (alpha r : Dbl),
      F64.Steepest.armijoLoop x d c rho f_x gdd fuel alpha = some r →
      F64.Armijo x d c f_x gdd r ∨ r < 1e-10 := by
  intro fuel
  induction fuel with
  | zero => intro alpha r h; simp [F64.Steepest.armijoLoop] at h
  | succ n ih =>
    intro alpha r h
    unfold F64.Steepest.armijoLoop at h
    simp only at h
    by_cases h1 : F64.Steepest.rosenbrock (F64.trialPoint x d alpha) ≤ f_x + c * alpha * gdd
    · rw [if_pos h1] at h
      simp only [Option.some.injEq] at h
      subst h
      exact Or.inl h1
    · rw [if_neg h1] at h
      by_cases h2 : alpha * rho < 1e-10
      · rw [if_pos h2] at h
        simp only [Option.some.injEq] at h
        subst h
        exact Or.inr h2
      · rw [if_neg h2] at h
        exact ih _ _ h

/-- With the default `alpha_init = 1.0` and `rho = 0.5` the trial values are the powers
`2^-k`, computed without rounding error, and `2^-34` is the first below `1e-10`. -/
theorem f64_default_alphaSeq :
    ∀ k, k < 35 →
      F64.alphaSeq 1.0 0.5 k = Dbl.twoPow (-(k : Int)) ∧
      (0 : Dbl) < Dbl.twoPow (-(k : Int)) ∧
      (k < 34 → ¬ Dbl.twoPow (-(k : Int)) < 1e-10) ∧
      (k = 34 → Dbl.twoPow (-(k : Int)) < 1e-10) := by
  decide!

/-- With the default config the exit test holds at some first trial `k ≤ 34`, whatever the
Armijo test answers. -/
theorem f64_default_first_stop (x d : List Dbl) (c f_x gdd : Dbl) :
    ∃ k, k ≤ 34 ∧ F64.Stops x d c 0.5 f_x gdd 1.0 k ∧
      ∀ j, j < k → ¬ F64.Stops x d c 0.5 f_x gdd 1.0 j := by
  classical
  have h34 : F64.Stops x d c 0.5 f_x gdd 1.0 34 := by
    refine Or.inr ⟨by omega, ?_⟩
    have := f64_default_alphaSeq 34 (by omega)
    rw [this.1]
    exact this.2.2.2 rfl
  have hex : ∃ k, F64.Stops x d c 0.5 f_x gdd 1.0 k := ⟨34, h34⟩
  exact ⟨Nat.find hex, Nat.find_min' hex h34, Nat.find_spec hex, fun j hj => Nat.find_min hex hj⟩

theorem dbl_zero_eq : (0 : Dbl) = Dbl.fin false 0 (-1074) := rfl

theorem dbl_pack_sign (s : Bool) (q : Nat) (e : Int) :
    (∃ q' e', Dbl.pack s q e = Dbl.fin s q' e') ∨ Dbl.pack s q e = Dbl.inf s := by
  unfold Dbl.pack
  split_ifs
  · exact Or.inr rfl
  · exact Or.inl ⟨_, _, rfl⟩
  · exact Or.inr rfl
  · exact Or.inl ⟨_, _, rfl⟩

/-- Rounding keeps the sign: the result is a finite number or an infinity of the sign given. -/
theorem dbl_round_sign (s : Bool) (M : Nat) (E : Int) :
    (∃ q e, Dbl.round s M E = Dbl.fin s q e) ∨ Dbl.round s M E = Dbl.inf s := by
  unfold Dbl.round
  simp only
  split_ifs
  · exact Or.inl ⟨_, _, rfl⟩
  · exact dbl_pack_sign _ _ _
  · exact dbl_pack_sign _ _ _

theorem dbl_scaled_nonneg (m : Nat) (e e0 : Int) : 0 ≤ Dbl.scaled false m e e0 := by
  simp [Dbl.scaled]

theorem dbl_scaled_zero (s : Bool) (e e0 : Int) : Dbl.scaled s 0 e e0 = 0 := by
  cases s <;> simp [Dbl.scaled]

theorem dbl_nonneg_of_pos (a : Dbl) (h : (0 : Dbl) < a) : Dbl.NonNeg a := by
  rw [dbl_zero_eq] at h
  change Dbl.lt _ _ = true at h
  cases a with
  | nan => simp [Dbl.lt] at h
  | inf s => cases s <;> simp_all [Dbl.lt, Dbl.NonNeg]
  | fin s m e =>
    cases s with
    | false => rfl
    | true =>
      simp only [Dbl.lt, decide_eq_true_eq, dbl_scaled_zero] at h
      simp only [Dbl.scaled, if_true] at h
      omega

theorem dbl_zero_le_of_nonneg (a : Dbl) (h : Dbl.NonNeg a) : (0 : Dbl) ≤ a := by
  rw [dbl_zero_eq]
  change Dbl.le _ _ = true
  cases a with
  | nan => exact absurd h (by simp [Dbl.NonNeg])
  | inf s => simp only [Dbl.NonNeg] at h; subst h; rfl
  | fin s m e =>
    simp only [Dbl.NonNeg] at h; subst h
    simp only [Dbl.le, decide_eq_true_eq, dbl_scaled_zero]
    exact dbl_scaled_nonneg _ _ _

/-- The product of a non-negative double with a finite positive one is non-negative. -/
theorem dbl_mul_nonneg (a rho : Dbl) (ha : Dbl.NonNeg a) (hr0 : (0 : Dbl) < rho)
    (hr1 : rho < 1) : Dbl.NonNeg (a * rho) := by
  have hr := dbl_nonneg_of_pos rho hr0
  show Dbl.NonNeg (Dbl.mul a rho)
  cases rho with
  | nan => exact absurd hr (by simp [Dbl.NonNeg])
  | inf t =>
    simp only [Dbl.NonNeg] at hr; subst hr
    exfalso
    change Dbl.lt _ _ = true at hr1
    have e1 : (1 : Dbl) = Dbl.fin false 4503599627370496 (-52) := by decide!
    rw [e1] at hr1
    simp [Dbl.lt] at hr1
  | fin t k f =>
    simp only [Dbl.NonNeg] at hr; subst hr
    have hk : k ≠ 0 := by
      intro hk; subst hk
      rw [dbl_zero_eq] at hr0
      change Dbl.lt _ _ = true at hr0
      simp [Dbl.lt, Dbl.scaled] at hr0
    cases a with
    | nan => exact absurd ha (by simp [Dbl.NonNeg])
    | inf s =>
      simp only [Dbl.NonNeg] at ha; subst ha
      simp [Dbl.mul, hk, Dbl.NonNeg]
    | fin s m e =>
      simp only [Dbl.NonNeg] at ha; subst ha
      simp only [Dbl.mul, Bool.xor_false]
      rcases dbl_round_sign false (m * k) (e + f) with ⟨q, e', h⟩ | h <;> rw [h] <;> rfl

/-- Every value the loop of the steepest-descent file returns in doubles, started from a
non-negative `alpha` with `0 < rho < 1`, is non-negative. -/
theorem f64_armijoLoop_nonneg (x d : List Dbl) (c rho f_x gdd : Dbl)
    (hr0 : (0 : Dbl) < rho) (hr1 : rho < 1) :
    ∀ (fuel : Nat) (alpha r : Dbl), Dbl.NonNeg alpha →
      F64.Steepest.armijoLoop x d c rho f_x gdd fuel alpha = some r → Dbl.NonNeg r := by
  intro fuel
  induction fuel with
  | zero => intro alpha r _ h; simp [F64.Steepest.armijoLoop] at h
  | succ n ih =>
    intro alpha r ha h
    unfold F64.Steepest.armijoLoop at h
    simp only at h
    have hm := dbl_mul_nonneg alpha rho ha hr0 hr1
    by_cases h1 : F64.Steepest.rosenbrock (F64.trialPoint x d alpha) ≤ f_x + c * alpha * gdd
    · rw [if_pos h1] at h
      simp only [Option.some.injEq] at h
      subst h
      exact ha
    · rw [if_neg h1] at h
      by_cases h2 : alpha * rho < 1e-10
      · rw [if_pos h2] at h
        simp only [Option.some.injEq] at h
        subst h
        exact hm
      · rw [if_neg h2] at h
        exact ih _ _ hm h

theorem dbl_not_le_of_lt (a b : Dbl) (h : a < b) : ¬ b ≤ a := by
  change Dbl.lt a b = true at h
  change ¬ Dbl.le b a = true
  cases a with
  | nan => simp [Dbl.lt] at h
  | inf s =>
    cases b with
    | nan => simp [Dbl.lt] at h
    | inf t => cases s <;> cases t <;> simp_all [Dbl.lt, Dbl.le]
    | fin t k f => cases s <;> simp_all [Dbl.lt, Dbl.le]
  | fin s m e =>
    cases b with
    | nan => simp [Dbl.lt] at h
    | inf t => cases t <;> simp_all [Dbl.lt, Dbl.le]
    | fin t k f =>
      simp only [Dbl.lt, Dbl.le, decide_eq_true_eq] at h ⊢
      rw [min_comm f e]
      omega

theorem dbl_not_lt_of_le (a b : Dbl) (h : a ≤ b) : ¬ b < a :=
  fun h' => dbl_not_le_of_lt b a h' h

/-- The rational values of the doubles in the statements below. -/
theorem eval_toRat_literals :
    Dbl.toRat 3 = 3 ∧ Dbl.toRat 1 = 1 ∧ Dbl.toRat (-1) = -1 ∧
    Dbl.toRat (1 / 3) = 6004799503160661 / 18014398509481984 ∧
    Dbl.toRat 1e-6 = 4722366482869645 / 4722366482869645213696 ∧
    Dbl.toRat 1.0 = 1 ∧ Dbl.toRat 0.5 = 1 / 2 := by
  have h3 : (3 : Dbl) = Dbl.fin false 6755399441055744 (-51) := by decide!
  have h1 : (1 : Dbl) = Dbl.fin false 4503599627370496 (-52) := by decide!
  have hm1 : (-1 : Dbl) = Dbl.fin true 4503599627370496 (-52) := by decide!
  have ht : (1 / 3 : Dbl) = Dbl.fin false 6004799503160661 (-54) := by decide!
  have he : (1e-6 : Dbl) = Dbl.fin false 4722366482869645 (-72) := by decide!
  have h10 : (1.0 : Dbl) = Dbl.fin false 4503599627370496 (-52) := by decide!
  have h05 : (0.5 : Dbl) = Dbl.fin false 4503599627370496 (-53) := by decide!
  rw [hm1, ht, h3, h1, he, h10, h05]
  simp only [Dbl.toRat]
  norm_num

theorem eval_f64_search_origin_default :
    F64.Steepest.armijo_line_search 4 [0, 0] [-2, 0] [2, 0] 0.01 1.0 0.5 =
      some (Dbl.twoPow (-3)) := by
  decide!

theorem eval_f64_search_ascent :
    F64.Newton.armijo_line_search 35 [0, 0] [-2, 0] [-2, 0] 0.01 1.0 0.5 =
      some (Except.ok 1e-6) ∧
    F64.Steepest.armijo_line_search 35 [0, 0] [-2, 0] [-2, 0] 0.01 1.0 0.5 =
      some (Dbl.twoPow (-34)) := by
  decide!

theorem eval_f64_search_stationary :
    F64.gradDotDir [0, 0] [0, 0] ≥ 0 ∧
    F64.Armijo [1, 1] [0, 0] 0.01 (F64.Steepest.rosenbrock [1, 1]) (F64.gradDotDir [0, 0] [0, 0])
      1.0 ∧
    F64.Newton.armijo_line_search 0 [1, 1] [0, 0] [0, 0] 0.01 1.0 0.5 = some (Except.ok 1e-6) ∧
    F64.Steepest.armijo_line_search 1 [1, 1] [0, 0] [0, 0] 0.01 1.0 0.5 = some 1.0 ∧
    (1.0 : Dbl) ≠ 1e-6 := by
  unfold F64.Armijo
  decide!

theorem eval_f64_underflow_config :
    (0 : Dbl) < Dbl.twoPow (-100) ∧ (0 : Dbl) < Dbl.twoPow (-1000) ∧
    Dbl.twoPow (-1000) < 1 ∧ (0 : Dbl) < 0.01 ∧ (0 : Dbl) ≤ 0 ∧ ¬ (0 : Dbl) < 0 ∧
    (0 : Dbl) < 1e-6 := by
  decide!

theorem dbl_bitsAux_zero (fuel : Nat) : Dbl.bitsAux fuel 0 = 0 := by
  cases fuel <;> simp [Dbl.bitsAux]

theorem dbl_bitsAux_spec : ∀ (fuel n : Nat), 0 < n → n ≤ fuel →
    1 ≤ Dbl.bitsAux fuel n ∧ 2 ^ (Dbl.bitsAux fuel n - 1) ≤ n ∧ n < 2 ^ Dbl.bitsAux fuel n := by
  intro fuel
  induction fuel with
  | zero => intro n h0 h1; omega
  | succ fuel ih =>
    intro n h0 h1
    have hn : n ≠ 0 := by omega
    simp only [Dbl.bitsAux, hn, if_false]
    by_cases h2 : n / 2 = 0
    · rw [h2, dbl_bitsAux_zero]
      have : n = 1 := by omega
      subst this
      simp
    · obtain ⟨hb1, hb2, hb3⟩ := ih (n / 2) (by omega) (by omega)
      generalize Dbl.bitsAux fuel (n / 2) = b at hb1 hb2 hb3
      obtain ⟨c, rfl⟩ : ∃ c, b = c + 1 := ⟨b - 1, by omega⟩
      simp only [Nat.add_sub_cancel] at hb2 ⊢
      rw [pow_succ] at hb3 ⊢
      rw [pow_succ]
      refine ⟨by omega, by omega, by omega⟩

theorem dbl_bitsDesc_spec : ∀ (j n : Nat), 0 < n → n < 2 ^ 2 ^ j →
    2 ^ Dbl.bitsDesc j n ≤ n ∧ n < 2 ^ (Dbl.bitsDesc j n + 1) := by
  intro j
  induction j with
  | zero =>
    intro n h0 h1
    simp only [pow_zero, pow_one] at h1
    have : n = 1 := by omega
    subst this
    simp [Dbl.bitsDesc]
  | succ j ih =>
    intro n h0 h1
    have hP : 0 < 2 ^ 2 ^ j := Nat.pow_pos (by norm_num)
    have hsq : 2 ^ 2 ^ (j + 1) = 2 ^ 2 ^ j * 2 ^ 2 ^ j := by
      rw [pow_succ 2 j, Nat.mul_two, pow_add]
    rw [hsq] at h1
    unfold Dbl.bitsDesc
    by_cases hle : 2 ^ 2 ^ j ≤ n
    · rw [if_pos hle]
      have hm0 : 0 < n / 2 ^ 2 ^ j := Nat.div_pos hle hP
      have hm1 : n / 2 ^ 2 ^ j < 2 ^ 2 ^ j := Nat.div_lt_of_lt_mul h1
      obtain ⟨h2, h3⟩ := ih (n / 2 ^ 2 ^ j) hm0 hm1
      have hdm := Nat.div_add_mod n (2 ^ 2 ^ j)
      have hmod := Nat.mod_lt n hP
      generalize Dbl.bitsDesc j (n / 2 ^ 2 ^ j) = L at h2 h3
      generalize n / 2 ^ 2 ^ j = m at h2 h3 hdm hm0 hm1
      refine ⟨?_, ?_⟩
      · calc 2 ^ (2 ^ j + L) = 2 ^ 2 ^ j * 2 ^ L := pow_add 2 _ _
          _ ≤ 2 ^ 2 ^ j * m := Nat.mul_le_mul_left _ h2
          _ ≤ n := by omega
      · calc n < 2 ^ 2 ^ j * (m + 1) := by rw [Nat.mul_add, Nat.mul_one]; omega
          _ ≤ 2 ^ 2 ^ j * 2 ^ (L + 1) := Nat.mul_le_mul_left _ h3
          _ = 2 ^ (2 ^ j + L + 1) := by rw [Nat.add_assoc, pow_add 2 (2 ^ j) (L + 1)]
    · rw [if_neg hle]
      exact ih n h0 (by omega)

/-- The number of bits of a positive `n` is the `b ≥ 1` with `2^(b-1) ≤ n < 2^b`. -/
theorem dbl_bits_spec (n : Nat) (h : 0 < n) :
    1 ≤ Dbl.bits n ∧ 2 ^ (Dbl.bits n - 1) ≤ n ∧ n < 2 ^ Dbl.bits n := by
  unfold Dbl.bits
  rw [if_neg (by omega)]
  by_cases hlt : n < 2 ^ 2 ^ 12
  · rw [if_pos hlt]
    obtain ⟨h1, h2⟩ := dbl_bitsDesc_spec 12 n h hlt
    exact ⟨by omega, by simpa using h1, h2⟩
  · rw [if_neg hlt]
    exact dbl_bitsAux_spec n n h (le_refl n)

theorem dbl_roundShift_bounds (M sh : Nat) :
    M / 2 ^ sh ≤ Dbl.roundShift M sh ∧ Dbl.roundShift M sh ≤ M / 2 ^ sh + 1 ∧
    (Dbl.roundShift M sh = M / 2 ^ sh + 1 → 0 < M % 2 ^ sh) := by
  unfold Dbl.roundShift
  simp only
  have hhalf : 0 < 2 ^ (sh - 1) := Nat.pow_pos (by norm_num)
  split_ifs with h
  · refine ⟨by omega, by omega, fun _ => ?_⟩
    rcases h with h | ⟨h, _⟩ <;> omega
  · exact ⟨by omega, by omega, fun h' => by omega⟩

theorem dbl_round_biased (s : Bool) (M E' : Nat) (hM : 0 < M) :
    Dbl.round s M ((E' : Int) - 1074) =
      if Dbl.bits M ≤ 53 then
        Dbl.pack s (M * 2 ^ (E' - (E' + Dbl.bits M - 53)))
          (((E' + Dbl.bits M - 53 : Nat) : Int) - 1074)
      else
        Dbl.pack s (Dbl.roundShift M (Dbl.bits M - 53))
          (((E' + (Dbl.bits M - 53) : Nat) : Int) - 1074) := by
  unfold Dbl.round
  rw [if_neg (by omega)]
  simp only
  generalize Dbl.bits M = b
  by_cases hb : b ≤ 53
  · rw [if_pos hb]
    have he : max ((E' : Int) - 1074 + (b : Int) - 53) (-1074) =
        ((E' + b - 53 : Nat) : Int) - 1074 := by omega
    rw [he, if_pos (by omega)]
    have hk : ((E' : Int) - 1074 - (((E' + b - 53 : Nat) : Int) - 1074)).toNat =
        E' - (E' + b - 53) := by omega
    rw [hk]
  · rw [if_neg hb]
    have he : max ((E' : Int) - 1074 + (b : Int) - 53) (-1074) =
        ((E' + (b - 53) : Nat) : Int) - 1074 := by omega
    rw [he, if_neg (by omega)]
    have hk : ((((E' + (b - 53) : Nat) : Int) - 1074) - ((E' : Int) - 1074)).toNat = b - 53 := by
      omega
    rw [hk]

theorem dbl_pack_biased (s : Bool) (q e : Nat) :
    Dbl.pack s q ((e : Int) - 1074) =
      if q = 2 ^ 53 then
        (if 2045 ≤ e then Dbl.inf s else Dbl.fin s (2 ^ 52) (((e + 1 : Nat) : Int) - 1074))
      else if 2045 < e then Dbl.inf s else Dbl.fin s q ((e : Int) - 1074) := by
  unfold Dbl.pack
  by_cases hq : q = 2 ^ 53
  · rw [if_pos hq, if_pos hq]
    by_cases he : 2045 ≤ e
    · rw [if_pos he, if_pos (by omega)]
    · rw [if_neg he, if_neg (by omega)]
      congr 1
      omega
  · rw [if_neg hq, if_neg hq]
    by_cases he : 2045 < e
    · rw [if_pos he, if_pos (by omega)]
    · rw [if_neg he, if_neg (by omega)]

/-- The rounding step on the grid of `2^-1074`: the result `q · 2^e` of rounding
`M · 2^E'` is on the far side of no double `k · 2^f` (in the form the operations produce)
from `M · 2^E'`. -/
theorem dbl_round_sandwich (M E' : Nat) (hM : 0 < M) :
    ∃ q e : Nat,
      (∀ s, Dbl.round s M ((E' : Int) - 1074) = Dbl.pack s q ((e : Int) - 1074)) ∧
      q ≤ 2 ^ 53 ∧ (2 ^ 52 ≤ q ∨ e = 0) ∧
      ∀ k f : Nat, k < 2 ^ 53 → (2 ^ 52 ≤ k ∨ f = 0) →
        (M * 2 ^ E' ≤ k * 2 ^ f → q * 2 ^ e ≤ k * 2 ^ f) ∧
        (k * 2 ^ f ≤ M * 2 ^ E' → k * 2 ^ f ≤ q * 2 ^ e) := by
  obtain ⟨hb1, hb2, hb3⟩ := dbl_bits_spec M hM
  have hround := fun s => dbl_round_biased s M E' hM
  generalize Dbl.bits M = b at hb1 hb2 hb3 hround
  by_cases hb : b ≤ 53
  · -- the number fits: no rounding
    refine ⟨M * 2 ^ (E' - (E' + b - 53)), E' + b - 53, fun s => ?_, ?_, ?_, ?_⟩
    · rw [hround s, if_pos hb]
    · have h1 : b + (E' - (E' + b - 53)) ≤ 53 := by omega
      calc M * 2 ^ (E' - (E' + b - 53)) ≤ 2 ^ b * 2 ^ (E' - (E' + b - 53)) :=
            Nat.mul_le_mul_right _ hb3.le
        _ = 2 ^ (b + (E' - (E' + b - 53))) := (pow_add 2 _ _).symm
        _ ≤ 2 ^ 53 := Nat.pow_le_pow_right (by norm_num) h1
    · by_cases h53 : 53 ≤ E' + b
      · left
        have h1 : (b - 1) + (E' - (E' + b - 53)) = 52 := by omega
        calc 2 ^ 52 = 2 ^ ((b - 1) + (E' - (E' + b - 53))) := by rw [h1]
          _ = 2 ^ (b - 1) * 2 ^ (E' - (E' + b - 53)) := pow_add 2 _ _
          _ ≤ M * 2 ^ (E' - (E' + b - 53)) := Nat.mul_le_mul_right _ hb2
      · right; omega
    · intro k f _ _
      have h1 : M * 2 ^ (E' - (E' + b - 53)) * 2 ^ (E' + b - 53) = M * 2 ^ E' := by
        rw [Nat.mul_assoc, ← pow_add]
        congr 2
        omega
      rw [h1]
      exact ⟨fun h => h, fun h => h⟩
  · -- rounding to 53 bits
    obtain ⟨sh, rfl⟩ : ∃ sh, b = 53 + sh := ⟨b - 53, by omega⟩
    have hsh : 1 ≤ sh := by omega
    have hsub : 53 + sh - 53 = sh := by omega
    obtain ⟨hq1, hq2, hq3⟩ := dbl_roundShift_bounds M sh
    have hS : 0 < 2 ^ sh := Nat.pow_pos (by norm_num)
    have hP : 0 < 2 ^ E' := Nat.pow_pos (by norm_num)
    have hlo : 2 ^ 52 ≤ M / 2 ^ sh := by
      rw [Nat.le_div_iff_mul_le hS, ← pow_add]
      have : 53 + sh - 1 = 52 + sh := by omega
      rw [this] at hb2
      exact hb2
    have hhi : M / 2 ^ sh < 2 ^ 53 := by
      rw [Nat.div_lt_iff_lt_mul hS, ← pow_add]
      exact hb3
    have hdm : 2 ^ sh * (M / 2 ^ sh) + M % 2 ^ sh = M := Nat.div_add_mod M (2 ^ sh)
    refine ⟨Dbl.roundShift M sh, E' + sh, fun s => ?_, by omega, Or.inl (by omega), ?_⟩
    · rw [hround s, if_neg hb, hsub]
    · intro k f hk hkf
      generalize Dbl.roundShift M sh = q at hq1 hq2 hq3
      generalize hQ : M / 2 ^ sh = Q at hq1 hq2 hq3 hlo hhi hdm
      have hgrid : 2 ^ (E' + sh) = 2 ^ sh * 2 ^ E' := by rw [pow_add, Nat.mul_comm]
      by_cases hf : E' + sh ≤ f
      · -- the double lies on the grid of the result
        obtain ⟨j, rfl⟩ : ∃ j, f = (E' + sh) + j := ⟨f - (E' + sh), by omega⟩
        have hY : k * 2 ^ (E' + sh + j) = (k * 2 ^ j) * 2 ^ sh * 2 ^ E' := by
          rw [pow_add, pow_add]; ring
        rw [hY, hgrid]
        generalize k * 2 ^ j = K
        refine ⟨fun h => ?_, fun h => ?_⟩
        · have h1 : M ≤ K * 2 ^ sh := by
            have := Nat.le_of_mul_le_mul_right h hP
            exact this
          have h2 : q ≤ K := by
            by_contra hcon
            have hqK : K < q := by omega
            have hQK : Q ≤ K := by
              rw [← hQ]
              exact Nat.div_le_of_le_mul (by rw [Nat.mul_comm]; exact h1)
            have hq' : q = Q + 1 := by omega
            have hr := hq3 hq'
            have hKQ : K = Q := by omega
            rw [hKQ, Nat.mul_comm] at h1
            omega
          calc q * (2 ^ sh * 2 ^ E') ≤ K * (2 ^ sh * 2 ^ E') := Nat.mul_le_mul_right _ h2
            _ = K * 2 ^ sh * 2 ^ E' := by ring
        · have h1 : K * 2 ^ sh ≤ M := Nat.le_of_mul_le_mul_right h hP
          have h2 : K ≤ Q := by
            rw [← hQ, Nat.le_div_iff_mul_le hS]
            exact h1
          calc K * 2 ^ sh * 2 ^ E' = K * (2 ^ sh * 2 ^ E') := by ring
            _ ≤ q * (2 ^ sh * 2 ^ E') := Nat.mul_le_mul_right _ (by omega)
      · -- the double lies below the binade of the result
        have h1 : k * 2 ^ f < 2 ^ 52 * 2 ^ (E' + sh) := by
          have hfe : f + 1 ≤ E' + sh := by omega
          calc k * 2 ^ f < 2 ^ 53 * 2 ^ f :=
                Nat.mul_lt_mul_of_pos_right hk (Nat.pow_pos (by norm_num))
            _ = 2 ^ 52 * 2 ^ (f + 1) := by rw [pow_succ]; ring
            _ ≤ 2 ^ 52 * 2 ^ (E' + sh) :=
                Nat.mul_le_mul_left _ (Nat.pow_le_pow_right (by norm_num) hfe)
        have h2 : 2 ^ 52 * 2 ^ (E' + sh) ≤ Q * 2 ^ (E' + sh) := Nat.mul_le_mul_right _ hlo
        have h3 : Q * 2 ^ (E' + sh) ≤ q * 2 ^ (E' + sh) := Nat.mul_le_mul_right _ hq1
        have h4 : Q * 2 ^ (E' + sh) ≤ M * 2 ^ E' := by
          rw [hgrid, ← Nat.mul_assoc]
          apply Nat.mul_le_mul_right
          rw [Nat.mul_comm]
          omega
        exact ⟨fun h => by omega, fun _ => by omega⟩

theorem dbl_expOk_of_canon (a : Dbl) (h : Dbl.Canon a) : Dbl.ExpOk a := by
  cases a with
  | nan => trivial
  | inf s => trivial
  | fin s m e => exact h.2.1

theorem dbl_expOk_pack (s : Bool) (q : Nat) (e : Int) (he : -1074 ≤ e) :
    Dbl.ExpOk (Dbl.pack s q e) := by
  unfold Dbl.pack
  split_ifs
  · trivial
  · show -1074 ≤ e + 1; omega
  · trivial
  · exact he

/-- Rounding never produces an exponent below `-1074`. -/
theorem dbl_expOk_round (s : Bool) (M : Nat) (E : Int) : Dbl.ExpOk (Dbl.round s M E) := by
  unfold Dbl.round
  simp only
  split_ifs
  · show (-1074 : Int) ≤ -1074; omega
  · exact dbl_expOk_pack _ _ _ (le_max_right _ _)
  · exact dbl_expOk_pack _ _ _ (le_max_right _ _)

theorem dbl_expOk_mul (a b : Dbl) : Dbl.ExpOk (a * b) := by
  show Dbl.ExpOk (Dbl.mul a b)
  cases a with
  | nan => cases b <;> trivial
  | inf s =>
    cases b with
    | nan => trivial
    | inf t => trivial
    | fin t k f => simp only [Dbl.mul]; split_ifs <;> trivial
  | fin s m e =>
    cases b with
    | nan => trivial
    | inf t => simp only [Dbl.mul]; split_ifs <;> trivial
    | fin t k f => exact dbl_expOk_round _ _ _

theorem dbl_canon_pack (s : Bool) (q e : Nat) (hq : q ≤ 2 ^ 53) (hn : 2 ^ 52 ≤ q ∨ e = 0) :
    Dbl.Canon (Dbl.pack s q ((e : Int) - 1074)) := by
  rw [dbl_pack_biased]
  split_ifs with h1 h2 h3
  · trivial
  · exact ⟨by norm_num, by omega, by omega, Or.inl (le_refl _)⟩
  · trivial
  · refine ⟨by omega, by omega, by omega, ?_⟩
    rcases hn with hn | hn
    · exact Or.inl hn
    · right; omega

/-- Rounding a multiple of `2^-1074` produces a double in the standard form. -/
theorem dbl_canon_round (s : Bool) (M : Nat) (E : Int) (hE : -1074 ≤ E) :
    Dbl.Canon (Dbl.round s M E) := by
  by_cases hM : M = 0
  · subst hM
    unfold Dbl.round
    rw [if_pos rfl]
    exact ⟨by norm_num, le_refl _, by norm_num, Or.inr rfl⟩
  · obtain ⟨E', rfl⟩ : ∃ E' : Nat, E = (E' : Int) - 1074 := ⟨(E + 1074).toNat, by omega⟩
    obtain ⟨q, e, hr, hq, hn, _⟩ := dbl_round_sandwich M E' (by omega)
    rw [hr s]
    exact dbl_canon_pack s q e hq hn

theorem dbl_zero_canon (s : Bool) : Dbl.Canon (Dbl.fin s 0 (-1074)) :=
  ⟨by norm_num, le_refl _, by norm_num, Or.inr rfl⟩

/-- The sum of two multiples of `2^-1074` is a double in the standard form. -/
theorem dbl_canon_add (a b : Dbl) (ha : Dbl.ExpOk a) (hb : Dbl.ExpOk b) :
    Dbl.Canon (a + b) := by
  show Dbl.Canon (Dbl.add a b)
  cases a with
  | nan => cases b <;> trivial
  | inf s =>
    cases b with
    | nan => trivial
    | inf t => simp only [Dbl.add]; split_ifs <;> trivial
    | fin t k f => trivial
  | fin s m e =>
    cases b with
    | nan => trivial
    | inf t => trivial
    | fin t k f =>
      simp only [Dbl.add]
      split_ifs
      · exact dbl_zero_canon _
      · exact dbl_canon_round _ _ _ (le_min ha hb)

theorem dbl_canon_sub (a b : Dbl) (ha : Dbl.ExpOk a) (hb : Dbl.ExpOk b) :
    Dbl.Canon (a - b) := by
  show Dbl.Canon (Dbl.add a (Dbl.neg b))
  exact dbl_canon_add a (Dbl.neg b) ha (by cases b <;> exact hb)

theorem dbl_scaled_biased (s : Bool) (m e : Nat) :
    Dbl.scaled s m ((e : Int) - 1074) (-1074) =
      if s then -((m * 2 ^ e : Nat) : Int) else ((m * 2 ^ e : Nat) : Int) := by
  unfold Dbl.scaled
  have h : ((e : Int) - 1074 - (-1074)).toNat = e := by omega
  rw [h]

theorem dbl_scaled_rebase (s : Bool) (m e g : Nat) (hg : g ≤ e) :
    Dbl.scaled s m ((e : Int) - 1074) (-1074) =
      Dbl.scaled s m ((e : Int) - 1074) ((g : Int) - 1074) * ((2 ^ g : Nat) : Int) := by
  rw [dbl_scaled_biased]
  unfold Dbl.scaled
  have h : ((e : Int) - 1074 - ((g : Int) - 1074)).toNat = e - g := by omega
  rw [h]
  have hp : m * 2 ^ e = m * 2 ^ (e - g) * 2 ^ g := by
    rw [Nat.mul_assoc, ← pow_add]
    congr 2
    omega
  rw [hp]
  cases s <;> simp

/-- On multiples of `2^-1074` the comparison `<=` of two finite doubles is the comparison of
their integer numbers of units. -/
theorem dbl_le_fin_iff (s t : Bool) (m k e f : Nat) :
    Dbl.fin s m ((e : Int) - 1074) ≤ Dbl.fin t k ((f : Int) - 1074) ↔
      Dbl.scaled s m ((e : Int) - 1074) (-1074) ≤ Dbl.scaled t k ((f : Int) - 1074) (-1074) := by
  show Dbl.le _ _ = true ↔ _
  simp only [Dbl.le, decide_eq_true_eq]
  have hmin : min ((e : Int) - 1074) ((f : Int) - 1074) = ((min e f : Nat) : Int) - 1074 := by
    omega
  rw [hmin, dbl_scaled_rebase s m e (min e f) (min_le_left _ _),
    dbl_scaled_rebase t k f (min e f) (min_le_right _ _)]
  have hpos : (0 : Int) < ((2 ^ min e f : Nat) : Int) := by positivity
  exact (mul_le_mul_right hpos).symm

/-- The comparison `<=` is transitive on multiples of `2^-1074`. -/
theorem dbl_le_trans (a b c : Dbl) (ha : Dbl.ExpOk a) (hb : Dbl.ExpOk b) (hc : Dbl.ExpOk c)
    (hab : a ≤ b) (hbc : b ≤ c) : a ≤ c := by
  cases a with
  | nan => exact absurd hab (by show ¬ Dbl.le _ _ = true; simp [Dbl.le])
  | inf s =>
    cases b with
    | nan => exact absurd hab (by show ¬ Dbl.le _ _ = true; simp [Dbl.le])
    | inf t =>
      cases c with
      | nan => exact absurd hbc (by show ¬ Dbl.le _ _ = true; simp [Dbl.le])
      | inf u =>
        change Dbl.le _ _ = true at hab hbc ⊢
        cases s <;> cases t <;> cases u <;> simp_all [Dbl.le]
      | fin u n g =>
        change Dbl.le _ _ = true at hab hbc ⊢
        cases s <;> cases t <;> simp_all [Dbl.le]
    | fin t k f =>
      cases c with
      | nan => exact absurd hbc (by show ¬ Dbl.le _ _ = true; simp [Dbl.le])
      | inf u =>
        change Dbl.le _ _ = true at hab hbc ⊢
        cases s <;> cases u <;> simp_all [Dbl.le]
      | fin u n g =>
        change Dbl.le _ _ = true at hab hbc ⊢
        cases s <;> simp_all [Dbl.le]
  | fin s m e =>
    cases b with
    | nan => exact absurd hab (by show ¬ Dbl.le _ _ = true; simp [Dbl.le])
    | inf t =>
      cases c with
      | nan => exact absurd hbc (by show ¬ Dbl.le _ _ = true; simp [Dbl.le])
      | inf u =>
        change Dbl.le _ _ = true at hab hbc ⊢
        cases t <;> cases u <;> simp_all [Dbl.le]
      | fin u n g =>
        change Dbl.le _ _ = true at hab hbc ⊢
        cases t <;> simp_all [Dbl.le]
    | fin t k f =>
      cases c with
      | nan => exact absurd hbc (by show ¬ Dbl.le _ _ = true; simp [Dbl.le])
      | inf u =>
        change Dbl.le _ _ = true at hab hbc ⊢
        cases u <;> simp_all [Dbl.le]
      | fin u n g =>
        obtain ⟨e', rfl⟩ : ∃ e' : Nat, e = (e' : Int) - 1074 := ⟨(e + 1074).toNat, by
          have : -1074 ≤ e := ha
          omega⟩
        obtain ⟨f', rfl⟩ : ∃ f' : Nat, f = (f' : Int) - 1074 := ⟨(f + 1074).toNat, by
          have : -1074 ≤ f := hb
          omega⟩
        obtain ⟨g', rfl⟩ : ∃ g' : Nat, g = (g' : Int) - 1074 := ⟨(g + 1074).toNat, by
          have : -1074 ≤ g := hc
          omega⟩
        rw [dbl_le_fin_iff] at hab hbc ⊢
        exact le_trans hab hbc

theorem dbl_pack_value (s : Bool) (q e : Nat) (hn : 2 ^ 52 ≤ q ∨ e = 0) :
    (Dbl.pack s q ((e : Int) - 1074) = Dbl.inf s ∧
      ∀ k f : Nat, k < 2 ^ 53 → f ≤ 2045 → k * 2 ^ f < q * 2 ^ e) ∨
    ∃ q2 e2 : Nat, Dbl.pack s q ((e : Int) - 1074) = Dbl.fin s q2 ((e2 : Int) - 1074) ∧
      q2 * 2 ^ e2 = q * 2 ^ e := by
  rw [dbl_pack_biased]
  by_cases h1 : q = 2 ^ 53
  · rw [if_pos h1]
    by_cases h2 : 2045 ≤ e
    · rw [if_pos h2]
      left
      refine ⟨rfl, fun k f hk hf => ?_⟩
      rw [h1]
      calc k * 2 ^ f < 2 ^ 53 * 2 ^ f :=
            Nat.mul_lt_mul_of_pos_right hk (Nat.pow_pos (by norm_num))
        _ ≤ 2 ^ 53 * 2 ^ e :=
            Nat.mul_le_mul_left _ (Nat.pow_le_pow_right (by norm_num) (by omega))
    · rw [if_neg h2]
      right
      refine ⟨2 ^ 52, e + 1, rfl, ?_⟩
      rw [h1, pow_succ 2 e, pow_succ 2 52]
      ring
  · rw [if_neg h1]
    by_cases h2 : 2045 < e
    · rw [if_pos h2]
      left
      refine ⟨rfl, fun k f hk hf => ?_⟩
      have hq52 : 2 ^ 52 ≤ q := by
        rcases hn with hn | hn
        · exact hn
        · omega
      calc k * 2 ^ f < 2 ^ 53 * 2 ^ f :=
            Nat.mul_lt_mul_of_pos_right hk (Nat.pow_pos (by norm_num))
        _ = 2 ^ 52 * 2 ^ (f + 1) := by rw [pow_succ 2 52, pow_succ 2 f]; ring
        _ ≤ q * 2 ^ (f + 1) := Nat.mul_le_mul_right _ hq52
        _ ≤ q * 2 ^ e := Nat.mul_le_mul_left _ (Nat.pow_le_pow_right (by norm_num) (by omega))
    · rw [if_neg h2]
      right
      exact ⟨q, e, rfl, rfl⟩

/-- Adding a double with the sign bit set does not increase a double: `f + t` is `nan` or
`f + t <= f`. -/
theorem dbl_add_neg_le (f t : Dbl) (hf : Dbl.Canon f) (ht : Dbl.ExpOk t)
    (hs : Dbl.NonNeg (-t)) : f + t = Dbl.nan ∨ f + t ≤ f := by
  show Dbl.add f t = Dbl.nan ∨ Dbl.le (Dbl.add f t) f = true
  cases t with
  | nan => exact absurd hs (by simp [Neg.neg, Dbl.neg, Dbl.NonNeg])
  | inf ts =>
    have hts : ts = true := by
      cases ts
      · exact absurd hs (by simp [Neg.neg, Dbl.neg, Dbl.NonNeg])
      · rfl
    subst hts
    cases f with
    | nan => left; rfl
    | inf fs => cases fs <;> simp [Dbl.add, Dbl.le]
    | fin fs fm fe => right; rfl
  | fin ts tm te =>
    have hts : ts = true := by
      cases ts
      · exact absurd hs (by simp [Neg.neg, Dbl.neg, Dbl.NonNeg])
      · rfl
    subst hts
    cases f with
    | nan => left; rfl
    | inf fs => right; cases fs <;> rfl
    | fin fs fm fe =>
      right
      obtain ⟨hfm, hfe1, hfe2, hfn⟩ := hf
      obtain ⟨fe', rfl⟩ : ∃ fe' : Nat, fe = (fe' : Int) - 1074 := ⟨(fe + 1074).toNat, by omega⟩
      obtain ⟨te', rfl⟩ : ∃ te' : Nat, te = (te' : Int) - 1074 := ⟨(te + 1074).toNat, by
        have : -1074 ≤ te := ht
        omega⟩
      have hfe' : fe' ≤ 2045 := by omega
      have hfn' : 2 ^ 52 ≤ fm ∨ fe' = 0 := by
        rcases hfn with h | h
        · exact Or.inl h
        · right; omega
      have hmin : min ((fe' : Int) - 1074) ((te' : Int) - 1074) =
          ((min fe' te' : Nat) : Int) - 1074 := by omega
      simp only [Dbl.add, hmin]
      have hF := dbl_scaled_rebase fs fm fe' (min fe' te') (min_le_left _ _)
      have hFb := dbl_scaled_biased fs fm fe'
      have hT : Dbl.scaled true tm ((te' : Int) - 1074) (((min fe' te' : Nat) : Int) - 1074) ≤ 0 := by
        simp [Dbl.scaled]
      generalize Dbl.scaled true tm ((te' : Int) - 1074) (((min fe' te' : Nat) : Int) - 1074) = T
        at hT
      generalize Dbl.scaled fs fm ((fe' : Int) - 1074) (((min fe' te' : Nat) : Int) - 1074) = F
        at hF
      generalize min fe' te' = g at hF
      have hP : (0 : Int) < ((2 ^ g : Nat) : Int) := by positivity
      by_cases hv : F + T = 0
      · rw [if_pos hv]
        have h0 : Dbl.fin (fs && true) 0 (-1074) = Dbl.fin (fs && true) 0 (((0 : Nat) : Int) - 1074) := by
          simp
        rw [h0]
        show Dbl.fin (fs && true) 0 (((0 : Nat) : Int) - 1074) ≤ Dbl.fin fs fm ((fe' : Int) - 1074)
        rw [dbl_le_fin_iff, hF]
        have hFnn : 0 ≤ F := by omega
        have : Dbl.scaled (fs && true) 0 (((0 : Nat) : Int) - 1074) (-1074) = 0 :=
          dbl_scaled_zero _ _ _
        rw [this]
        exact mul_nonneg hFnn hP.le
      · rw [if_neg hv]
        obtain ⟨q, e, hr, hq, hn, hsand⟩ :=
          dbl_round_sandwich (F + T).natAbs g (by omega)
        rw [hr]
        obtain ⟨hA, hB⟩ := hsand fm fe' hfm hfn'
        rcases dbl_pack_value (decide (F + T < 0)) q e hn with ⟨hinf, hbig⟩ | ⟨q2, e2, hfin, hval⟩
        · -- overflow: only possible for a negative sum
          rw [hinf]
          by_cases hneg : F + T < 0
          · rw [decide_eq_true hneg]; rfl
          · exfalso
            have hpos : 0 < F + T := by omega
            have hFpos : 0 < F := by omega
            have hfs : fs = false := by
              cases fs
              · rfl
              · rw [hFb] at hF
                simp only [if_true] at hF
                have : (0 : Int) ≤ ((fm * 2 ^ fe' : Nat) : Int) := Int.natCast_nonneg _
                have : 0 < F * ((2 ^ g : Nat) : Int) := mul_pos hFpos hP
                omega
            subst hfs
            rw [hFb] at hF
            simp only [Bool.false_eq_true, if_false] at hF
            have hU : ((F + T).natAbs * 2 ^ g : Nat) ≤ fm * 2 ^ fe' := by
              have h1 : (((F + T).natAbs * 2 ^ g : Nat) : Int) = (F + T) * ((2 ^ g : Nat) : Int) := by
                rw [Nat.cast_mul, Int.natCast_natAbs, abs_of_pos hpos]
              have h2 : (F + T) * ((2 ^ g : Nat) : Int) ≤ F * ((2 ^ g : Nat) : Int) :=
                mul_le_mul_of_nonneg_right (by omega) hP.le
              have h3 : (((F + T).natAbs * 2 ^ g : Nat) : Int) ≤ ((fm * 2 ^ fe' : Nat) : Int) := by
                rw [h1, hF]; exact h2
              exact_mod_cast h3
            have := hA hU
            have := hbig fm fe' hfm hfe'
            omega
        · rw [hfin]
          show Dbl.fin _ q2 ((e2 : Int) - 1074) ≤ Dbl.fin fs fm ((fe' : Int) - 1074)
          rw [dbl_le_fin_iff, dbl_scaled_biased, dbl_scaled_biased, hval]
          by_cases hneg : F + T < 0
          · rw [decide_eq_true hneg, if_pos rfl]
            cases fs with
            | false =>
              simp only [Bool.false_eq_true, if_false]
              have h1 : (0 : Int) ≤ ((q * 2 ^ e : Nat) : Int) := Int.natCast_nonneg _
              have h2 : (0 : Int) ≤ ((fm * 2 ^ fe' : Nat) : Int) := Int.natCast_nonneg _
              omega
            | true =>
              simp only [if_true]
              rw [hFb] at hF
              simp only [if_true] at hF
              have hU : fm * 2 ^ fe' ≤ (F + T).natAbs * 2 ^ g := by
                have h1 : (((F + T).natAbs * 2 ^ g : Nat) : Int) =
                    -(F + T) * ((2 ^ g : Nat) : Int) := by
                  rw [Nat.cast_mul, Int.natCast_natAbs, abs_of_neg hneg]
                have h2 : -F * ((2 ^ g : Nat) : Int) ≤ -(F + T) * ((2 ^ g : Nat) : Int) :=
                  mul_le_mul_of_nonneg_right (by omega) hP.le
                have h3 : ((fm * 2 ^ fe' : Nat) : Int) ≤ (((F + T).natAbs * 2 ^ g : Nat) : Int) := by
                  rw [h1]
                  have : ((fm * 2 ^ fe' : Nat) : Int) = -F * ((2 ^ g : Nat) : Int) := by
                    rw [neg_mul, ← hF, neg_neg]
                  rw [this]; exact h2
                exact_mod_cast h3
              have := hB hU
              have h4 : ((fm * 2 ^ fe' : Nat) : Int) ≤ ((q * 2 ^ e : Nat) : Int) := by
                exact_mod_cast this
              omega
          · have hpos : 0 < F + T := by omega
            have hFpos : 0 < F := by omega
            rw [decide_eq_false hneg]
            simp only [Bool.false_eq_true, if_false]
            have hfs : fs = false := by
              cases fs
              · rfl
              · rw [hFb] at hF
                simp only [if_true] at hF
                have : (0 : Int) ≤ ((fm * 2 ^ fe' : Nat) : Int) := Int.natCast_nonneg _
                have : 0 < F * ((2 ^ g : Nat) : Int) := mul_pos hFpos hP
                omega
            subst hfs
            simp only [Bool.false_eq_true, if_false]
            rw [hFb] at hF
            simp only [Bool.false_eq_true, if_false] at hF
            have hU : ((F + T).natAbs * 2 ^ g : Nat) ≤ fm * 2 ^ fe' := by
              have h1 : (((F + T).natAbs * 2 ^ g : Nat) : Int) = (F + T) * ((2 ^ g : Nat) : Int) := by
                rw [Nat.cast_mul, Int.natCast_natAbs, abs_of_pos hpos]
              have h2 : (F + T) * ((2 ^ g : Nat) : Int) ≤ F * ((2 ^ g : Nat) : Int) :=
                mul_le_mul_of_nonneg_right (by omega) hP.le
              have h3 : (((F + T).natAbs * 2 ^ g : Nat) : Int) ≤ ((fm * 2 ^ fe' : Nat) : Int) := by
                rw [h1, hF]; exact h2
              exact_mod_cast h3
            exact_mod_cast hA hU

theorem dbl_zero_lit_eq : (0.0 : Dbl) = Dbl.fin false 0 (-1074) := by decide!

/-- The objective computed in doubles is a double in the standard form. -/
theorem f64_canon_rosenbrock (x : List Dbl) : Dbl.Canon (F64.Steepest.rosenbrock x) := by
  unfold F64.Steepest.rosenbrock
  simp only
  generalize evens x.length = l
  have h0 : Dbl.Canon (0.0 : Dbl) := by rw [dbl_zero_lit_eq]; exact dbl_zero_canon false
  generalize (0.0 : Dbl) = init at h0
  induction l generalizing init with
  | nil => exact h0
  | cons i l ih =>
    simp only [List.foldl_cons]
    apply ih
    exact dbl_canon_add _ _ (dbl_expOk_of_canon _ h0)
      (dbl_expOk_of_canon _ (dbl_canon_add _ _ (dbl_expOk_mul _ _) (dbl_expOk_mul _ _)))

/-- The product of two non-negative doubles is `nan` (for `0 · ∞`) or non-negative. -/
theorem dbl_mul_nonneg_or_nan (a b : Dbl) (ha : Dbl.NonNeg a) (hb : Dbl.NonNeg b) :
    a * b = Dbl.nan ∨ Dbl.NonNeg (a * b) := by
  show Dbl.mul a b = Dbl.nan ∨ Dbl.NonNeg (Dbl.mul a b)
  cases a with
  | nan => exact absurd ha (by simp [Dbl.NonNeg])
  | inf s =>
    simp only [Dbl.NonNeg] at ha; subst ha
    cases b with
    | nan => exact absurd hb (by simp [Dbl.NonNeg])
    | inf t => simp only [Dbl.NonNeg] at hb; subst hb; right; rfl
    | fin t k f =>
      simp only [Dbl.NonNeg] at hb; subst hb
      simp only [Dbl.mul]
      split_ifs
      · left; rfl
      · right; rfl
  | fin s m e =>
    simp only [Dbl.NonNeg] at ha; subst ha
    cases b with
    | nan => exact absurd hb (by simp [Dbl.NonNeg])
    | inf t =>
      simp only [Dbl.NonNeg] at hb; subst hb
      simp only [Dbl.mul]
      split_ifs
      · left; rfl
      · right; rfl
    | fin t k f =>
      simp only [Dbl.NonNeg] at hb; subst hb
      right
      simp only [Dbl.mul, Bool.xor_false]
      rcases dbl_round_sign false (m * k) (e + f) with ⟨q, e', h⟩ | h <;> rw [h] <;> rfl

/-- The product of a non-negative double with a negative one is `nan` or has the sign bit
set. -/
theorem dbl_mul_neg_sign (p gd : Dbl) (hp : Dbl.NonNeg p) (hgd : gd < 0) :
    p * gd = Dbl.nan ∨ Dbl.NonNeg (-(p * gd)) := by
  have hg : Dbl.NonNeg (-gd) := by
    rw [dbl_zero_eq] at hgd
    change Dbl.lt _ _ = true at hgd
    cases gd with
    | nan => simp [Dbl.lt] at hgd
    | inf s => cases s <;> simp_all [Dbl.lt, Dbl.NonNeg, Neg.neg, Dbl.neg]
    | fin s m e =>
      cases s with
      | true => rfl
      | false =>
        simp only [Dbl.lt, decide_eq_true_eq, dbl_scaled_zero] at hgd
        have := dbl_scaled_nonneg m e (min e (-1074))
        omega
  rcases dbl_mul_nonneg_or_nan p (-gd) hp hg with h | h
  · left
    rw [dbl_mul_neg_right] at h
    have := congrArg (fun z => -z) h
    simp only [dbl_neg_neg] at this
    rw [this]; rfl
  · right
    rw [dbl_mul_neg_right] at h
    exact h

theorem f64_length_updatePoint (x d : List Dbl) (alpha : Dbl) (n : Nat) :
    (F64.updatePoint x d alpha n).length = x.length := by
  unfold F64.updatePoint
  exact f64_foldl_set_length (upto 0 n) (fun x i => x.getD i 0 + alpha * d.getD i 0) x

/-- The point the drivers move to is the trial point of the returned `alpha`. -/
theorem f64_updatePoint_eq_trialPoint (x d : List Dbl) (alpha : Dbl) :
    F64.updatePoint x d alpha x.length = F64.trialPoint x d alpha := by
  have key1 := foldl_upto_inv
    (fun k (w : List Dbl) => w.length = x.length ∧
      (∀ i, i < k → w.getD i 0 = x.getD i 0 + alpha * d.getD i 0) ∧
      (∀ i, k ≤ i → w.getD i 0 = x.getD i 0))
    (fun w i => w.set i (w.getD i 0 + alpha * d.getD i 0)) x 0 x.length (Nat.zero_le _)
    ⟨rfl, fun i hi => absurd hi (by omega), fun i _ => rfl⟩
    (by
      intro k _ hk w ⟨wlen, wlo, whi⟩
      refine ⟨by rw [List.length_set]; exact wlen, fun i hi => ?_, fun i hi => ?_⟩
      · by_cases e : k = i
        · subst e
          rw [getD_set_self _ (by omega), whi k (le_refl k)]
        · rw [getD_set_ne _ e]
          exact wlo i (by omega)
      · rw [getD_set_ne _ (by omega)]
        exact whi i (by omega))
  have key2 := foldl_upto_inv
    (fun k (y : List Dbl) => y.length = x.length ∧
      ∀ i, i < k → y.getD i 0 = x.getD i 0 + alpha * d.getD i 0)
    (fun x_new i => x_new.set i (x.getD i 0 + alpha * d.getD i 0))
    (List.replicate x.length 0) 0 x.length (Nat.zero_le _)
    ⟨by simp, fun i hi => absurd hi (by omega)⟩
    (by
      intro k _ hk t ⟨hlen, hent⟩
      refine ⟨by simp [hlen], fun i hi => ?_⟩
      by_cases e : k = i
      · subst e
        rw [getD_set_self _ (by omega)]
      · rw [getD_set_ne _ e]
        exact hent i (by omega))
  obtain ⟨l1, v1, _⟩ := key1
  obtain ⟨l2, v2⟩ := key2
  unfold F64.updatePoint F64.trialPoint
  apply List.ext_getElem (by rw [l1, l2])
  intro i h1 h2
  have e1 := v1 i (by rw [l1] at h1; exact h1)
  have e2 := v2 i (by rw [l1] at h1; exact h1)
  rw [List.getD_eq_getElem _ _ h1] at e1
  rw [List.getD_eq_getElem _ _ h2] at e2
  rw [e1, e2]

/-- In doubles, a value `alpha ≥ 1e-10` returned by the loop of the steepest-descent file,
started from `alpha_init = 1.0` with `c = 0.01`, `rho = 0.5` and a negative computed dot
product, leads to a trial point whose computed objective is not above `f_x`. -/
theorem f64_accepted_le (x d : List Dbl) (gdd alpha : Dbl) (fuel : Nat)
    (hgd : gdd < 0) (hfloor : (1e-10 : Dbl) ≤ alpha)
    (hret : F64.Steepest.armijoLoop x d 0.01 0.5 (F64.Steepest.rosenbrock x) gdd fuel 1.0 =
      some alpha) :
    F64.Steepest.rosenbrock (F64.trialPoint x d alpha) ≤ F64.Steepest.rosenbrock x := by
  have h1 : (0 : Dbl) < 1.0 ∧ (0 : Dbl) < 0.5 ∧ (0.5 : Dbl) < 1 ∧ (0 : Dbl) < 0.01 := by decide!
  have halpha : Dbl.NonNeg alpha :=
    f64_armijoLoop_nonneg x d 0.01 0.5 _ gdd h1.2.1 h1.2.2.1 fuel 1.0 alpha
      (dbl_nonneg_of_pos _ h1.1) hret
  have harm : F64.Armijo x d 0.01 (F64.Steepest.rosenbrock x) gdd alpha := by
    rcases f64_armijoLoop_some x d 0.01 0.5 _ gdd fuel 1.0 alpha hret with h | h
    · exact h
    · exact absurd h (dbl_not_lt_of_le _ _ hfloor)
  unfold F64.Armijo at harm
  have hnan : ∀ a : Dbl, ¬ a ≤ Dbl.nan := by
    intro a h
    change Dbl.le a Dbl.nan = true at h
    cases a <;> simp [Dbl.le] at h
  have hnan_add : ∀ a : Dbl, a + Dbl.nan = Dbl.nan := by
    intro a; show Dbl.add a Dbl.nan = Dbl.nan; cases a <;> rfl
  have hnan_mul : ∀ a : Dbl, Dbl.nan * a = Dbl.nan := by
    intro a; show Dbl.mul Dbl.nan a = Dbl.nan; cases a <;> rfl
  have ht : (0.01 : Dbl) * alpha * gdd = Dbl.nan ∨ Dbl.NonNeg (-((0.01 : Dbl) * alpha * gdd)) := by
    rcases dbl_mul_nonneg_or_nan 0.01 alpha (dbl_nonneg_of_pos _ h1.2.2.2) halpha with h | h
    · left; rw [h, hnan_mul]
    · exact dbl_mul_neg_sign _ _ h hgd
  rcases ht with ht | ht
  · rw [ht, hnan_add] at harm
    exact absurd harm (hnan _)
  · rcases dbl_add_neg_le (F64.Steepest.rosenbrock x) ((0.01 : Dbl) * alpha * gdd)
        (f64_canon_rosenbrock x) (dbl_expOk_mul _ _) ht with h | h
    · rw [h] at harm
      exact absurd harm (hnan _)
    · exact dbl_le_trans _ _ _ (dbl_expOk_of_canon _ (f64_canon_rosenbrock _))
        (dbl_expOk_of_canon _ (dbl_canon_add _ _ (dbl_expOk_of_canon _ (f64_canon_rosenbrock x))
          (dbl_expOk_mul _ _)))
        (dbl_expOk_of_canon _ (f64_canon_rosenbrock x)) harm h

/-- The pass of the steepest-descent driver in doubles at `(1e4, 100000000.00499825)`: the
gradient, the direction, the 34 trials of the line search, and the objective before and
after the move. -/
theorem eval_f64_flat_step :
    ([1e4, 100000000.00499825] : List Dbl) =
      [Dbl.fin false 5497558138880000 (-39), Dbl.fin false 6710886400335427 (-26)] ∧
    F64.Steepest.gradient [1e4, 100000000.00499825] [0, 0] =
      [Dbl.fin false 5621412110794752 (-50), Dbl.fin false 9004049969971200 (-53)] ∧
    F64.assignNeg [0, 0]
        [Dbl.fin false 5621412110794752 (-50), Dbl.fin false 9004049969971200 (-53)] 2 =
      [Dbl.fin true 5621412110794752 (-50), Dbl.fin true 9004049969971200 (-53)] ∧
    F64.gradDotDir [Dbl.fin false 5621412110794752 (-50), Dbl.fin false 9004049969971200 (-53)]
      [Dbl.fin true 5621412110794752 (-50), Dbl.fin true 9004049969971200 (-53)] < 0 ∧
    F64.Steepest.armijo_line_search 34 [1e4, 100000000.00499825]
      [Dbl.fin false 5621412110794752 (-50), Dbl.fin false 9004049969971200 (-53)]
      [Dbl.fin true 5621412110794752 (-50), Dbl.fin true 9004049969971200 (-53)]
      0.01 1.0 0.5 = some (Dbl.twoPow (-33)) ∧
    F64.Newton.armijo_line_search 34 [1e4, 100000000.00499825]
      [Dbl.fin false 5621412110794752 (-50), Dbl.fin false 9004049969971200 (-53)]
      [Dbl.fin true 5621412110794752 (-50), Dbl.fin true 9004049969971200 (-53)]
      0.01 1.0 0.5 = some (Except.ok (Dbl.twoPow (-33))) ∧
    (1e-10 : Dbl) ≤ Dbl.twoPow (-33) ∧
    F64.updatePoint [1e4, 100000000.00499825]
      [Dbl.fin true 5621412110794752 (-50), Dbl.fin true 9004049969971200 (-53)]
      (Dbl.twoPow (-33)) 2 =
      [Dbl.fin false 5497558138879680 (-39), Dbl.fin false 6710886400335427 (-26)] ∧
    F64.Steepest.rosenbrock
      [Dbl.fin false 5497558138879680 (-39), Dbl.fin false 6710886400335427 (-26)] =
      Dbl.fin false 6709544289996519 (-26) ∧
    F64.Steepest.rosenbrock [1e4, 100000000.00499825] = Dbl.fin false 6709544289996519 (-26) ∧
    F64.Newton.rosenbrock
      [Dbl.fin false 5497558138879680 (-39), Dbl.fin false 6710886400335427 (-26)] =
      Except.ok (Dbl.fin false 6709544289996519 (-26)) ∧
    F64.Newton.rosenbrock [1e4, 100000000.00499825] =
      Except.ok (Dbl.fin false 6709544289996519 (-26)) ∧
    ¬ (Dbl.fin false 6709544289996519 (-26) < Dbl.fin false 6709544289996519 (-26)) ∧
    F64.Steepest.pass 34 2
        { x := [1e4, 100000000.00499825], grad := [0, 0], direction := [0, 0], iter := 0 } =
      some
        ({ x := [Dbl.fin false 5497558138879680 (-39), Dbl.fin false 6710886400335427 (-26)],
           grad := [Dbl.fin false 5621412110794752 (-50), Dbl.fin false 9004049969971200 (-53)],
           direction :=
             [Dbl.fin true 5621412110794752 (-50), Dbl.fin true 9004049969971200 (-53)],
           iter := 1 },
          Dbl.fin false 5732978146629339 (-50)) := by
  decide!

theorem eval_f64_origin_step :
    F64.gradDotDir [-2, 0] [2, 0] < 0 ∧ (1e-10 : Dbl) ≤ Dbl.twoPow (-3) ∧
    F64.updatePoint [0, 0] [2, 0] (Dbl.twoPow (-3)) 2 = [Dbl.twoPow (-2), 0] ∧
    F64.Steepest.rosenbrock [Dbl.twoPow (-2), 0] = Dbl.fin false 8584986789675008 (-53) ∧
    F64.Steepest.rosenbrock [0, 0] = 1 := by
  decide!

end Lemmas

section Claims

variable {K : Type} [LinearOrderedField K]

/-- C1: for `n ≥ 1`, an `n`-by-`n` matrix `A` and a length-`n` vector `b`, a vector `x`
returned by `gaussian_elimination` has length `n` and satisfies `A·x = b` exactly. -/
theorem gaussian_elimination_solves (A : List (List K)) (b x0 x : List K) (n : Nat)
    (hn : 1 ≤ n) (hA : IsMat A n n) (hb : b.length = n)
    (h : Newton.gaussian_elimination A b x0 = Except.ok x) :
    x.length = n ∧
    ∀ i, i < n → ∑ j in Finset.range n, ent A i j * x.getD j 0 = b.getD i 0 := by
  obtain ⟨U, hinv, rfl⟩ := gaussian_elimination_ok hn hA hb h
  refine ⟨(backSubstitute_spec U n x0 hinv.2.2.2).1, ?_⟩
  exact (sat_augment_iff A b n _).1 ((hinv.2.1 _).1 (sat_backSubstitute hinv x0))

/-- C1 (witness): the system `x₀ + 3x₁ = 3`, `2x₀ + x₁ = 5`, on which the solver exchanges
the two rows and returns `(12/5, 1/5)`. -/
theorem gaussian_elimination_solves_witness :
    Newton.gaussian_elimination ([[1, 3], [2, 1]] : List (List ℚ)) [3, 5] [] =
      Except.ok [12 / 5, 1 / 5] ∧
    (([12 / 5, 1 / 5] : List ℚ).length = 2 ∧
      ∀ i, i < 2 → ∑ j in Finset.range 2,
        ent ([[1, 3], [2, 1]] : List (List ℚ)) i j * ([12 / 5, 1 / 5] : List ℚ).getD j 0 =
          ([3, 5] : List ℚ).getD i 0) :=
  ⟨eval_gaussian_swap,
    gaussian_elimination_solves [[1, 3], [2, 1]] [3, 5] [] [12 / 5, 1 / 5] 2 (by decide)
      (isMat_two 1 3 2 1) rfl eval_gaussian_swap⟩

/-- C2: for every even-length point, `rosenbrock` of the Newton file and `rosenbrock` of the
steepest-descent file both return the sum over the pairs `k` of
`100·(x[2k]² − x[2k+1])² + (x[2k] − 1)²`, and so return the same value. -/
theorem rosenbrock_both_eq_spec (x : List K) (h : x.length % 2 = 0) :
    Newton.rosenbrock x = Except.ok (rosenbrockSpec x) ∧
    Steepest.rosenbrock x = rosenbrockSpec x ∧
    Newton.rosenbrock x = Except.ok (Steepest.rosenbrock x) :=
  ⟨newton_rosenbrock_eq_spec x h, steepest_rosenbrock_eq_spec x h,
    newton_rosenbrock_eq_steepest x h⟩

/-- C2 (witness): the statement at the point `(1/4, 0)`. -/
theorem rosenbrock_both_eq_spec_witness :
    ([1 / 4, 0] : List ℚ).length % 2 = 0 ∧
    (Newton.rosenbrock ([1 / 4, 0] : List ℚ) = Except.ok (rosenbrockSpec [1 / 4, 0]) ∧
      Steepest.rosenbrock ([1 / 4, 0] : List ℚ) = rosenbrockSpec [1 / 4, 0] ∧
      Newton.rosenbrock ([1 / 4, 0] : List ℚ) = Except.ok (Steepest.rosenbrock [1 / 4, 0])) :=
  ⟨by decide, rosenbrock_both_eq_spec _ (by decide)⟩

/-- C3: for every even-length point `x` (over the reals), `gradient` of both files returns one
and the same vector `g` of length `n`; component `i` of `g` is the partial derivative of
`rosenbrock` with respect to coordinate `i` at `x`; and for each pair, with
`t = x[2k]² − x[2k+1]`, component `2k` is `400·t·x[2k] + 2·(x[2k] − 1)` and component
`2k+1` is `−200·t`. -/
theorem gradient_is_partial_derivative (x g0 : List ℝ) (h : x.length % 2 = 0) :
    ∃ g : List ℝ,
      Newton.gradient x g0 = Except.ok g ∧ Steepest.gradient x g0 = g ∧
      g.length = x.length ∧
      (∀ i, i < x.length →
        (∀ t, Newton.rosenbrock (x.set i t) = Except.ok (Steepest.rosenbrock (x.set i t))) ∧
        HasDerivAt (fun t => Steepest.rosenbrock (x.set i t)) (g.getD i 0) (x.getD i 0)) ∧
      (∀ k, 2 * k + 1 < x.length →
        g.getD (2 * k) 0 =
          400 * (x.getD (2 * k) 0 ^ 2 - x.getD (2 * k + 1) 0) * x.getD (2 * k) 0 +
            2 * (x.getD (2 * k) 0 - 1) ∧
        g.getD (2 * k + 1) 0 = -200 * (x.getD (2 * k) 0 ^ 2 - x.getD (2 * k + 1) 0)) := by
  obtain ⟨hlen, hent⟩ := steepest_gradient_spec x g0 h
  refine ⟨Steepest.gradient x g0, newton_gradient_eq x g0 h, rfl, hlen, fun i hi => ?_,
    fun k hk => ?_⟩
  · have hset : ∀ t, (x.set i t).length % 2 = 0 := fun t => by simpa using h
    refine ⟨fun t => newton_rosenbrock_eq_steepest _ (hset t), ?_⟩
    rw [hent i hi]
    have e : (fun t => Steepest.rosenbrock (x.set i t)) = fun t => rosenbrockSpec (x.set i t) :=
      funext fun t => steepest_rosenbrock_eq_spec _ (hset t)
    rw [e]
    exact hasDerivAt_rosenbrockSpec x h i hi
  · rw [hent _ (by omega), hent _ hk]
    have a : (2 * k) % 2 = 0 := by omega
    have b : ¬ (2 * k + 1) % 2 = 0 := by omega
    simp only [gradSpec, a, b, if_true, if_false, Nat.add_sub_cancel, and_self]

/-- C3 (witness): the statement at the starting point `(-1.2, 1.0)` of both programs. -/
theorem gradient_is_partial_derivative_witness :
    ([-6 / 5, 1] : List ℝ).length % 2 = 0 ∧
    ∃ g : List ℝ,
      Newton.gradient [-6 / 5, 1] [] = Except.ok g ∧ Steepest.gradient [-6 / 5, 1] [] = g ∧
      g.length = ([-6 / 5, 1] : List ℝ).length ∧
      (∀ i, i < ([-6 / 5, 1] : List ℝ).length →
        (∀ t, Newton.rosenbrock (([-6 / 5, 1] : List ℝ).set i t) =
          Except.ok (Steepest.rosenbrock (([-6 / 5, 1] : List ℝ).set i t))) ∧
        HasDerivAt (fun t => Steepest.rosenbrock (([-6 / 5, 1] : List ℝ).set i t)) (g.getD i 0)
          (([-6 / 5, 1] : List ℝ).getD i 0)) ∧
      (∀ k, 2 * k + 1 < ([-6 / 5, 1] : List ℝ).length →
        g.getD (2 * k) 0 =
          400 * (([-6 / 5, 1] : List ℝ).getD (2 * k) 0 ^ 2 -
            ([-6 / 5, 1] : List ℝ).getD (2 * k + 1) 0) * ([-6 / 5, 1] : List ℝ).getD (2 * k) 0 +
            2 * (([-6 / 5, 1] : List ℝ).getD (2 * k) 0 - 1) ∧
        g.getD (2 * k + 1) 0 =
          -200 * (([-6 / 5, 1] : List ℝ).getD (2 * k) 0 ^ 2 -
            ([-6 / 5, 1] : List ℝ).getD (2 * k + 1) 0)) :=
  ⟨by simp, gradient_is_partial_derivative _ _ (by simp)⟩

/-- C4: for every even-length point `x` (over the reals), `hessian(x)` is an `n`-by-`n` matrix
whose `(i, j)` entry is the derivative with respect to coordinate `j` of the partial
derivative of `rosenbrock` with respect to coordinate `i`, and likewise of component `i` of
`gradient`; it is symmetric; inside the pair `(2k, 2k+1)` its entries are
`1200·x[2k]² − 400·x[2k+1] + 2`, `−400·x[2k]` (twice) and `200`; and every entry whose row and
column lie in different pairs is zero. -/
theorem hessian_is_second_derivative (x g0 : List ℝ) (h : x.length % 2 = 0) :
    IsMat (Newton.hessian x) x.length x.length ∧
    (∀ i j, i < x.length → j < x.length →
      HasDerivAt
        (fun t => deriv (fun u => Steepest.rosenbrock ((x.set j t).set i u))
          ((x.set j t).getD i 0))
        (ent (Newton.hessian x) i j) (x.getD j 0)) ∧
    (∀ i j, i < x.length → j < x.length →
      ∃ G : ℝ → List ℝ, (∀ t, Newton.gradient (x.set j t) g0 = Except.ok (G t)) ∧
        HasDerivAt (fun t => (G t).getD i 0) (ent (Newton.hessian x) i j) (x.getD j 0)) ∧
    (∀ i j, i < x.length → j < x.length →
      ent (Newton.hessian x) i j = ent (Newton.hessian x) j i) ∧
    (∀ k, 2 * k + 1 < x.length →
      ent (Newton.hessian x) (2 * k) (2 * k) =
        1200 * x.getD (2 * k) 0 ^ 2 - 400 * x.getD (2 * k + 1) 0 + 2 ∧
      ent (Newton.hessian x) (2 * k) (2 * k + 1) = -400 * x.getD (2 * k) 0 ∧
      ent (Newton.hessian x) (2 * k + 1) (2 * k) = -400 * x.getD (2 * k) 0 ∧
      ent (Newton.hessian x) (2 * k + 1) (2 * k + 1) = 200) ∧
    (∀ i j, i < x.length → j < x.length → i / 2 ≠ j / 2 → ent (Newton.hessian x) i j = 0) := by
  obtain ⟨hmat, hent⟩ := hessian_spec x h
  refine ⟨hmat, fun i j hi hj => ?_, fun i j hi hj => ?_, fun i j hi hj => ?_, fun k hk => ?_,
    fun i j hi hj hne => ?_⟩
  · have e : (fun t => deriv (fun u => Steepest.rosenbrock ((x.set j t).set i u))
        ((x.set j t).getD i 0)) = fun t => gradSpec (x.set j t) i :=
      funext fun t => partial_deriv_rosenbrock (x.set j t) (by simpa using h) i (by simpa using hi)
    rw [e, hent i j hi hj]
    exact hasDerivAt_gradSpec x i j hj
  · have hset : ∀ t, (x.set j t).length % 2 = 0 := fun t => by simpa using h
    refine ⟨fun t => Steepest.gradient (x.set j t) g0,
      fun t => newton_gradient_eq _ _ (hset t), ?_⟩
    have e : (fun t => (Steepest.gradient (x.set j t) g0).getD i 0) =
        fun t => gradSpec (x.set j t) i :=
      funext fun t => (steepest_gradient_spec _ g0 (hset t)).2 i (by simpa using hi)
    rw [e, hent i j hi hj]
    exact hasDerivAt_gradSpec x i j hj
  · rw [hent i j hi hj, hent j i hj hi, hessSpec_symm]
  · have hk0 : 2 * k < x.length := by omega
    rw [hent _ _ hk0 hk0, hent _ _ hk0 hk, hent _ _ hk hk0, hent _ _ hk hk, hessSpec_00,
      hessSpec_01, hessSpec_10, hessSpec_11]
    exact ⟨rfl, rfl, rfl, rfl⟩
  · rw [hent i j hi hj, hessSpec_off x hne]

/-- C4 (witness): the statement at the starting point `(-1.2, 1.0)`. -/
theorem hessian_is_second_derivative_witness :
    ([-6 / 5, 1] : List ℝ).length % 2 = 0 ∧
    ent (Newton.hessian ([-6 / 5, 1] : List ℝ)) 0 1 = ent (Newton.hessian [-6 / 5, 1]) 1 0 :=
  ⟨by simp,
    (hessian_is_second_derivative [-6 / 5, 1] [] (by simp)).2.2.2.1 0 1 (by simp) (by simp)⟩

/-- C5 (amended): in double arithmetic, on an even-length point `x`, let `alphaSeq k` be
`alpha_init` multiplied `k` times by `rho`, each product rounded.  If `k` is the first trial
at which the exit test holds as the code computes it (the Armijo test on the rounded values
`f(x + alpha·d)`, `f(x)` and `c·alpha·grad_dot_dir`, or `k ≥ 1` and `alphaSeq k < 1e-10`),
then with any fuel above `k` the line search of the steepest-descent file returns
`alphaSeq k`, and so does the line search of the Newton file when the computed dot product
is negative; a returned `alphaSeq k ≥ 1e-10` passed the computed Armijo test.  With the
default `alpha_init = 1.0`, `rho = 0.5` such a `k` exists, `k ≤ 34` and `alphaSeq k = 2^-k`. -/
theorem armijo_returns_first_computed_stop (x g d : List Dbl) (c alpha_init rho : Dbl)
    (hx : x.length % 2 = 0) :
    (∀ k : Nat,
      F64.Stops x d c rho (F64.Steepest.rosenbrock x) (F64.gradDotDir g d) alpha_init k →
      (∀ j, j < k →
        ¬ F64.Stops x d c rho (F64.Steepest.rosenbrock x) (F64.gradDotDir g d) alpha_init j) →
      (∀ fuel, k < fuel →
        F64.Steepest.armijo_line_search fuel x g d c alpha_init rho =
          some (F64.alphaSeq alpha_init rho k) ∧
        (F64.gradDotDir g d < 0 →
          F64.Newton.armijo_line_search fuel x g d c alpha_init rho =
            some (Except.ok (F64.alphaSeq alpha_init rho k)))) ∧
      ((1e-10 : Dbl) ≤ F64.alphaSeq alpha_init rho k →
        F64.Armijo x d c (F64.Steepest.rosenbrock x) (F64.gradDotDir g d)
          (F64.alphaSeq alpha_init rho k))) ∧
    (alpha_init = 1.0 → rho = 0.5 →
      ∃ k : Nat, k ≤ 34 ∧
        F64.Stops x d c rho (F64.Steepest.rosenbrock x) (F64.gradDotDir g d) alpha_init k ∧
        (∀ j, j < k →
          ¬ F64.Stops x d c rho (F64.Steepest.rosenbrock x) (F64.gradDotDir g d) alpha_init j) ∧
        F64.alphaSeq alpha_init rho k = Dbl.twoPow (-(k : Int))) := by
  refine ⟨fun k hk hmin => ⟨fun fuel hf => ?_, fun hge => ?_⟩, fun ha hr => ?_⟩
  · have hs := f64_steepest_search_least x g d c alpha_init rho k hk hmin fuel hf
    refine ⟨hs, fun hgd => ?_⟩
    rw [f64_newton_search_eq x g d c alpha_init rho fuel hx,
      if_neg (dbl_not_le_of_lt _ _ hgd), hs]
    rfl
  · rcases hk with h | ⟨_, h⟩
    · exact h
    · exact absurd h (dbl_not_lt_of_le _ _ hge)
  · subst ha; subst hr
    obtain ⟨k, hk34, hk, hmin⟩ :=
      f64_default_first_stop x d c (F64.Steepest.rosenbrock x) (F64.gradDotDir g d)
    exact ⟨k, hk34, hk, hmin, (f64_default_alphaSeq k (by omega)).1⟩

/-- C5 (counterexample): at `x = (0, 0)` with `g = (3, 1)` and `d = (fl(1/3), -1)`, where
`fl(1/3)` is the double nearest to `1/3`, the exact dot product is `-2^-54 < 0` and the
default config satisfies `c > 0`, `alpha_init > 0`, `0 < rho < 1`; the product `3·fl(1/3)`
rounds to `1`, the computed dot product is `0`, and the line search of the Newton file
returns `1e-6`, which is not `alpha_init·rho^k` for any `k`. -/
theorem newton_search_rounded_dot :
    ([0, 0] : List Dbl).length % 2 = 0 ∧
    ((0 : Dbl) < 0.01 ∧ (0 : Dbl) < 1.0 ∧ (0 : Dbl) < 0.5 ∧ (0.5 : Dbl) < 1) ∧
    dotSpec (([3, 1] : List Dbl).map Dbl.toRat) (([1 / 3, -1] : List Dbl).map Dbl.toRat) < 0 ∧
    (∀ fuel, F64.Newton.armijo_line_search fuel [0, 0] [3, 1] [1 / 3, -1] 0.01 1.0 0.5 =
      some (Except.ok 1e-6)) ∧
    (∀ k : Nat, Dbl.toRat 1e-6 ≠ Dbl.toRat 1.0 * Dbl.toRat 0.5 ^ k) := by
  obtain ⟨h3, h1, hm1, ht, he, h10, h05⟩ := eval_toRat_literals
  refine ⟨rfl, by decide!, ?_, fun fuel => ?_, fun k => ?_⟩
  · simp only [dotSpec, List.map, List.length, Finset.sum_range_succ, Finset.sum_range_zero,
      List.getD_cons_zero, List.getD_cons_succ, h3, h1, hm1, ht]
    norm_num
  · exact f64_newton_search_mono _ _ _ _ _ _ 0 fuel _ (Nat.zero_le _)
      eval_f64_newton_rounded_dot
  · rw [he, h10, h05, one_mul]
    intro h
    rcases Nat.lt_or_ge k 20 with hk | hk
    · have h19 : ((1 : ℚ) / 2) ^ 19 ≤ (1 / 2) ^ k :=
        pow_le_pow_of_le_one (by norm_num) (by norm_num) (by omega)
      rw [← h] at h19
      norm_num at h19
    · have h20 : ((1 : ℚ) / 2) ^ k ≤ (1 / 2) ^ 20 :=
        pow_le_pow_of_le_one (by norm_num) (by norm_num) hk
      rw [← h] at h20
      norm_num at h20

/-- C5 (witness): the amended statement at `x = (0, 0)`, `g = (-2, 0)`, `d = -g` with the
default config, where the search returns `2^-3`. -/
theorem armijo_returns_first_computed_stop_witness :
    ([0, 0] : List Dbl).length % 2 = 0 ∧
    (∃ k : Nat, k ≤ 34 ∧
      F64.Stops [0, 0] [2, 0] 0.01 0.5 (F64.Steepest.rosenbrock [0, 0])
        (F64.gradDotDir [-2, 0] [2, 0]) 1.0 k ∧
      (∀ j, j < k →
        ¬ F64.Stops [0, 0] [2, 0] 0.01 0.5 (F64.Steepest.rosenbrock [0, 0])
          (F64.gradDotDir [-2, 0] [2, 0]) 1.0 j) ∧
      F64.alphaSeq 1.0 0.5 k = Dbl.twoPow (-(k : Int))) ∧
    F64.Steepest.armijo_line_search 4 [0, 0] [-2, 0] [2, 0] 0.01 1.0 0.5 =
      some (Dbl.twoPow (-3)) :=
  ⟨rfl,
    (armijo_returns_first_computed_stop [0, 0] [-2, 0] [2, 0] 0.01 1.0 0.5 rfl).2 rfl rfl,
    eval_f64_search_origin_default⟩

/-- C6 (amended): in double arithmetic, on an even-length point and for any gradient and
direction (descent direction or not), the line search of both files with
`alpha_init = 1.0` and `rho = 0.5` (the defaults, the only values the drivers use) and any
`c` returns, for every fuel of at least 35 trials, a strictly positive value: `2^-k` for some
`k ≤ 34`, or the guard value `1e-6` in the Newton file.  For every other config with
`alpha_init > 0` and `0 < rho < 1` a returned value is never negative and never `nan`: it is
`≥ 0`. -/
theorem armijo_result_nonneg (x g d : List Dbl) (hx : x.length % 2 = 0) :
    (∀ c : Dbl, ∃ a b : Dbl, (0 : Dbl) < a ∧ (0 : Dbl) < b ∧
      (a = 1e-6 ∨ ∃ k : Nat, k ≤ 34 ∧ a = Dbl.twoPow (-(k : Int))) ∧
      (∃ k : Nat, k ≤ 34 ∧ b = Dbl.twoPow (-(k : Int))) ∧
      ∀ fuel, 35 ≤ fuel →
        F64.Newton.armijo_line_search fuel x g d c 1.0 0.5 = some (Except.ok a) ∧
        F64.Steepest.armijo_line_search fuel x g d c 1.0 0.5 = some b) ∧
    (∀ (c alpha_init rho r : Dbl) (fuel : Nat),
      (0 : Dbl) < alpha_init → (0 : Dbl) < rho → rho < 1 →
      (F64.Newton.armijo_line_search fuel x g d c alpha_init rho = some (Except.ok r) ∨
        F64.Steepest.armijo_line_search fuel x g d c alpha_init rho = some r) →
      (0 : Dbl) ≤ r) := by
  refine ⟨fun c => ?_, fun c alpha_init rho r fuel ha hr0 hr1 hret => ?_⟩
  · obtain ⟨k, hk34, hk, hmin⟩ :=
      f64_default_first_stop x d c (F64.Steepest.rosenbrock x) (F64.gradDotDir g d)
    have hseq := f64_default_alphaSeq k (by omega)
    have hS : ∀ fuel, 35 ≤ fuel →
        F64.Steepest.armijo_line_search fuel x g d c 1.0 0.5 =
          some (Dbl.twoPow (-(k : Int))) := by
      intro fuel hf
      rw [f64_steepest_search_least x g d c 1.0 0.5 k hk hmin fuel (by omega), hseq.1]
    by_cases hgd : F64.gradDotDir g d ≥ 0
    · refine ⟨1e-6, Dbl.twoPow (-(k : Int)), eval_f64_underflow_config.2.2.2.2.2.2, hseq.2.1,
        Or.inl rfl, ⟨k, hk34, rfl⟩, fun fuel hf => ⟨?_, hS fuel hf⟩⟩
      rw [f64_newton_search_eq x g d c 1.0 0.5 fuel hx, if_pos hgd]
    · refine ⟨Dbl.twoPow (-(k : Int)), Dbl.twoPow (-(k : Int)), hseq.2.1, hseq.2.1,
        Or.inr ⟨k, hk34, rfl⟩, ⟨k, hk34, rfl⟩, fun fuel hf => ⟨?_, hS fuel hf⟩⟩
      rw [f64_newton_search_eq x g d c 1.0 0.5 fuel hx, if_neg hgd, hS fuel hf]
      rfl
  · have hS : ∀ r', F64.Steepest.armijo_line_search fuel x g d c alpha_init rho = some r' →
        (0 : Dbl) ≤ r' := fun r' h =>
      dbl_zero_le_of_nonneg r'
        (f64_armijoLoop_nonneg x d c rho _ _ hr0 hr1 fuel alpha_init r'
          (dbl_nonneg_of_pos alpha_init ha) h)
    rcases hret with h | h
    · rw [f64_newton_search_eq x g d c alpha_init rho fuel hx] at h
      by_cases hgd : F64.gradDotDir g d ≥ 0
      · rw [if_pos hgd] at h
        simp only [Option.some.injEq, Except.ok.injEq] at h
        rw [← h]
        exact dbl_zero_le_of_nonneg _ (dbl_nonneg_of_pos _ eval_f64_underflow_config.2.2.2.2.2.2)
      · rw [if_neg hgd] at h
        cases hs : F64.Steepest.armijo_line_search fuel x g d c alpha_init rho with
        | none => rw [hs] at h; simp at h
        | some r' =>
          rw [hs] at h
          simp only [Option.map_some', Option.some.injEq, Except.ok.injEq] at h
          rw [← h]
          exact hS r' hs
    · exact hS r h

/-- C6 (counterexample): at `x = (0, 0)`, `g = (-2, 0)`, `d = (2^101, 0)` with `c = 0.01`,
`alpha_init = 2^-100` and `rho = 2^-1000` (so `alpha_init > 0` and `0 < rho < 1`), the first
trial, at the point `(2, 0)`, fails the Armijo test, the product `alpha * rho = 2^-1100` is
below the smallest positive double and rounds to `0`, and the line search of both files
returns `0`, which is not strictly positive. -/
theorem armijo_underflow_returns_zero :
    ([0, 0] : List Dbl).length % 2 = 0 ∧
    (0 : Dbl) < Dbl.twoPow (-100) ∧ (0 : Dbl) < Dbl.twoPow (-1000) ∧ Dbl.twoPow (-1000) < 1 ∧
    (∀ fuel, 1 ≤ fuel →
      F64.Newton.armijo_line_search fuel [0, 0] [-2, 0] [Dbl.twoPow 101, 0] 0.01
        (Dbl.twoPow (-100)) (Dbl.twoPow (-1000)) = some (Except.ok 0) ∧
      F64.Steepest.armijo_line_search fuel [0, 0] [-2, 0] [Dbl.twoPow 101, 0] 0.01
        (Dbl.twoPow (-100)) (Dbl.twoPow (-1000)) = some 0) ∧
    (0 : Dbl) ≤ 0 ∧ ¬ (0 : Dbl) < 0 :=
  ⟨rfl, eval_f64_underflow_config.1, eval_f64_underflow_config.2.1,
    eval_f64_underflow_config.2.2.1,
    fun fuel hf =>
      ⟨f64_newton_search_mono _ _ _ _ _ _ 1 fuel _ hf eval_f64_newton_underflow,
        f64_steepest_search_mono _ _ _ _ _ _ 1 fuel _ hf eval_f64_steepest_underflow⟩,
    eval_f64_underflow_config.2.2.2.2.1, eval_f64_underflow_config.2.2.2.2.2.1⟩

/-- C6 (witness): the amended statement at `x = (0, 0)`, `g = (-2, 0)` and the ascent
direction `d = g`, where the Newton file returns `1e-6` and the steepest-descent file
`2^-34`. -/
theorem armijo_result_nonneg_witness :
    ([0, 0] : List Dbl).length % 2 = 0 ∧
    (∃ a b : Dbl, (0 : Dbl) < a ∧ (0 : Dbl) < b ∧
      (a = 1e-6 ∨ ∃ k : Nat, k ≤ 34 ∧ a = Dbl.twoPow (-(k : Int))) ∧
      (∃ k : Nat, k ≤ 34 ∧ b = Dbl.twoPow (-(k : Int))) ∧
      ∀ fuel, 35 ≤ fuel →
        F64.Newton.armijo_line_search fuel [0, 0] [-2, 0] [-2, 0] 0.01 1.0 0.5 =
          some (Except.ok a) ∧
        F64.Steepest.armijo_line_search fuel [0, 0] [-2, 0] [-2, 0] 0.01 1.0 0.5 = some b) ∧
    F64.Newton.armijo_line_search 35 [0, 0] [-2, 0] [-2, 0] 0.01 1.0 0.5 =
      some (Except.ok 1e-6) ∧
    F64.Steepest.armijo_line_search 35 [0, 0] [-2, 0] [-2, 0] 0.01 1.0 0.5 =
      some (Dbl.twoPow (-34)) :=
  ⟨rfl, (armijo_result_nonneg [0, 0] [-2, 0] [-2, 0] rfl).1 0.01,
    eval_f64_search_ascent.1, eval_f64_search_ascent.2⟩

/-- C8: in a pass of the Newton loop at an even-length point `x` with gradient `g` whose norm
is not below `tol`, if `gaussian_elimination` on `hessian(x)` and `−g` fails (with any
exception), the pass does not fail: the line search for `(x, g, −g)` returns some `alpha > 0`,
the direction used is `−g`, and the point becomes `x + alpha·(−g)`. -/
theorem newton_pass_fallback [Archimedean K] (sqrt : K → K) (tol : K) (n : Nat)
    (s : DriverState K) (g : List K) (e : Err)
    (hx : s.x.length % 2 = 0) (hn : s.x.length = n) (hdir : s.direction.length = n)
    (hg : Newton.gradient s.x s.grad = Except.ok g)
    (hnorm : ¬ sqrt (sumSquares g) < tol)
    (hfail : Newton.gaussian_elimination (Newton.hessian s.x) (negSpec g) s.direction =
      Except.error e) :
    ∃ alpha : K, 0 < alpha ∧ ∃ L : Nat, ∀ lsFuel, L ≤ lsFuel →
      Newton.armijo_line_search lsFuel s.x g (negSpec g) 0.01 1.0 0.5 =
        some (Except.ok alpha) ∧
      Newton.pass sqrt lsFuel tol n s =
        some (Except.ok (Pass.next
          { x := axpySpec s.x (negSpec g) alpha, grad := g, direction := negSpec g,
            iter := s.iter + 1 }
          (sqrt (sumSquares g)))) := by
  have hgl : g.length = n := by
    rw [newton_gradient_eq s.x s.grad hx] at hg
    simp only [Except.ok.injEq] at hg
    rw [← hg, (steepest_gradient_spec s.x s.grad hx).1, hn]
  obtain ⟨alpha, hpos, L, hL⟩ := newton_search_total s.x g (negSpec g) (0.01 : K) 1.0 0.5 hx
    (by norm_num) (by norm_num) (by norm_num)
  refine ⟨alpha, hpos, L, fun lsFuel hf => ⟨hL lsFuel hf, ?_⟩⟩
  unfold Newton.pass
  simp only [hg, hnorm, if_false]
  rw [assignNeg_eq (List.replicate n 0) g n (by simp) hgl, hfail]
  simp only [assignNeg_eq s.direction g n hdir hgl, hL lsFuel hf]
  rw [updatePoint_eq s.x (negSpec g) alpha n hn (by rw [length_negSpec, hgl])]

/-- C8 (witness): the statement at `x = (0, 0.005)`, where the Hessian is singular and
`gaussian_elimination` throws `SingularMatrix`, with `tol = 1e-6`. -/
theorem newton_pass_fallback_witness :
    ∃ alpha : ℝ, 0 < alpha ∧ ∃ L : Nat, ∀ lsFuel, L ≤ lsFuel →
      Newton.armijo_line_search lsFuel ([0, 1 / 200] : List ℝ) [-2, 1] (negSpec [-2, 1])
        0.01 1.0 0.5 = some (Except.ok alpha) ∧
      Newton.pass Real.sqrt lsFuel 1e-6 2
          { x := [0, 1 / 200], grad := [0, 0], direction := [0, 0], iter := 0 } =
        some (Except.ok (Pass.next
          { x := axpySpec [0, 1 / 200] (negSpec [-2, 1]) alpha, grad := [-2, 1],
            direction := negSpec [-2, 1], iter := 0 + 1 }
          (Real.sqrt (sumSquares [-2, 1])))) :=
  newton_pass_fallback Real.sqrt 1e-6 2
    { x := [0, 1 / 200], grad := [0, 0], direction := [0, 0], iter := 0 } [-2, 1]
    Err.SingularMatrix (by decide) rfl rfl eval_gradient_singular
    (by rw [eval_sumSquares_singular]; exact sqrt_five_not_small) eval_solve_singular

/-- C10: on the matrix with rows `(1, 0)` and `(0, 1, 7)`, which is not square (its second
row has length `3`, not `2`), and `b = (1, 1)`, `gaussian_elimination` does not fail with
`DimensionMismatch`: it goes through the elimination and returns `(1, 1)`. -/
theorem gaussian_elimination_accepts_ragged :
    (([[1, 0], [0, 1, 7]] : List (List ℚ)).getD 1 []).length ≠
      ([[1, 0], [0, 1, 7]] : List (List ℚ)).length ∧
    Newton.gaussian_elimination ([[1, 0], [0, 1, 7]] : List (List ℚ)) [1, 1] [] =
      Except.ok [1, 1] :=
  ⟨by decide, eval_gaussian_ragged⟩

/-- C11: on the length-3 point `(1, 2, 3)`, `rosenbrock` and `gradient` of the Newton file
fail with `InvalidDimension`, but `hessian` has no guard: its loop reaches `i = 2`, where
`x[i + 1]` and row and column `i + 1` of the matrix lie past the end, and it returns a matrix
(the bottom-right entry is computed from the read past the end, `0` in the embedding). -/
theorem hessian_odd_no_guard :
    Newton.rosenbrock ([1, 2, 3] : List ℚ) = Except.error Err.InvalidDimension ∧
    Newton.gradient ([1, 2, 3] : List ℚ) [] = Except.error Err.InvalidDimension ∧
    (2 ∈ evens ([1, 2, 3] : List ℚ).length ∧ ¬ 2 + 1 < ([1, 2, 3] : List ℚ).length) ∧
    Newton.hessian ([1, 2, 3] : List ℚ) =
      [[402, -400, 0], [-400, 200, 0], [0, 0, 10802]] :=
  ⟨newton_rosenbrock_odd _ (by decide), newton_gradient_odd _ _ (by decide),
    ⟨by decide, by decide⟩, eval_hessian_three⟩

/-- C12: from the length-3 point `(0, 0, 0)`, `newton_method` fails with `InvalidDimension`
in its first pass, before any update, but `steepest_gradient_descent`, whose `gradient` and
`rosenbrock` have no guard, throws nothing: it makes a pass (reading `x[3]` past the end, `0`
in the embedding) and returns with the point changed to `(1/4, 0, 1/4)`. -/
theorem steepest_odd_no_guard :
    Newton.newton_method Real.sqrt 5 1 ([0, 0, 0] : List ℝ) 3 1 =
      some (Except.error Err.InvalidDimension) ∧
    ∃ r : DriverResult ℝ,
      Steepest.steepest_gradient_descent Real.sqrt 5 1 ([0, 0, 0] : List ℝ) 3 1 = some r ∧
      r.state.iter = 1 ∧ r.state.x = [1 / 4, 0, 1 / 4] :=
  ⟨newton_method_odd Real.sqrt 5 0 _ 3 1 (by decide), _, eval_steepest_three, rfl, rfl⟩

/-- C13 (amended): in the Newton file in double arithmetic, on an even-length point, when
`grad_dot_dir` — the dot product as the code accumulates it, each product and each sum
rounded — is `≥ 0`, `armijo_line_search` returns exactly `1e-6` for every config and every
fuel, fuel `0` included, so the backtracking loop, where the trial points are evaluated, is
not entered.  The line search of the steepest-descent file has no such guard: it evaluates
the trial point of `alpha_init` whatever the sign, and returns `alpha_init` when the Armijo
test as computed holds there. -/
theorem armijo_guard_on_computed_dot (x g d : List Dbl) (c alpha_init rho : Dbl)
    (hx : x.length % 2 = 0) (hgd : F64.gradDotDir g d ≥ 0) :
    (∀ fuel, F64.Newton.armijo_line_search fuel x g d c alpha_init rho =
      some (Except.ok 1e-6)) ∧
    (F64.Armijo x d c (F64.Steepest.rosenbrock x) (F64.gradDotDir g d) alpha_init →
      ∀ fuel, 1 ≤ fuel →
        F64.Steepest.armijo_line_search fuel x g d c alpha_init rho = some alpha_init) := by
  refine ⟨fun fuel => ?_, fun harm fuel hf => ?_⟩
  · rw [f64_newton_search_eq x g d c alpha_init rho fuel hx, if_pos hgd]
  · exact f64_steepest_search_least x g d c alpha_init rho 0 (Or.inl harm)
      (fun j hj => absurd hj (by omega)) fuel (by omega)

/-- C13 (counterexample): at the stationary point `x = (1, 1)` with `g = d = (0, 0)`, so that
`g·d = 0`, the line search of the steepest-descent file returns `alpha_init = 1`, not `1e-6`. -/
theorem steepest_search_no_guard :
    0 ≤ dotSpec ([0, 0] : List ℚ) [0, 0] ∧
    Steepest.armijo_line_search 1 ([1, 1] : List ℚ) [0, 0] [0, 0] (1 / 100) 1 (1 / 2) =
      some 1 ∧
    (1 : ℚ) ≠ 1e-6 :=
  ⟨by norm_num [dotSpec, Finset.sum_range_succ], eval_search_stationary, by norm_num⟩

/-- C13 (witness): the amended statement at `x = (1, 1)`, `g = d = (0, 0)`, where the
computed dot product is `0`: the Newton file returns `1e-6`, the steepest-descent file
`alpha_init = 1.0`. -/
theorem armijo_guard_on_computed_dot_witness :
    ([1, 1] : List Dbl).length % 2 = 0 ∧ F64.gradDotDir [0, 0] [0, 0] ≥ 0 ∧
    ((∀ fuel, F64.Newton.armijo_line_search fuel [1, 1] [0, 0] [0, 0] 0.01 1.0 0.5 =
        some (Except.ok 1e-6)) ∧
      (F64.Armijo [1, 1] [0, 0] 0.01 (F64.Steepest.rosenbrock [1, 1])
          (F64.gradDotDir [0, 0] [0, 0]) 1.0 →
        ∀ fuel, 1 ≤ fuel →
          F64.Steepest.armijo_line_search fuel [1, 1] [0, 0] [0, 0] 0.01 1.0 0.5 =
            some 1.0)) ∧
    F64.Steepest.armijo_line_search 1 [1, 1] [0, 0] [0, 0] 0.01 1.0 0.5 = some 1.0 ∧
    (1.0 : Dbl) ≠ 1e-6 :=
  ⟨rfl, eval_f64_search_stationary.1,
    armijo_guard_on_computed_dot [1, 1] [0, 0] [0, 0] 0.01 1.0 0.5 rfl
      eval_f64_search_stationary.1,
    eval_f64_search_stationary.2.2.2.1, eval_f64_search_stationary.2.2.2.2⟩

/-- C15 (amended): for every even-length initial point, every `tol` and every `max_iter`,
`newton_method` and `steepest_gradient_descent` return a result (the same for every
sufficient fuel) whose iteration count is at most `max(max_iter, 1)`, and a result in the
`MaxIterExceeded` state has exactly that count; so the count is at most `max_iter` when
`max_iter ≥ 1`, and at most `1` when `max_iter = 0`. -/
theorem drivers_terminate_within_budget (sqrt : K → K) (x : List K) (tol : K) (max_iter : Int)
    (hx : x.length % 2 = 0) :
    (∃ r : DriverResult K,
      (∀ fuel lsFuel, (max max_iter 1).toNat ≤ fuel → 35 ≤ lsFuel →
        Newton.newton_method sqrt lsFuel fuel x tol max_iter = some (Except.ok r)) ∧
      (r.state.iter : Int) ≤ max max_iter 1 ∧
      (r.terminal = Terminal.MaxIterExceeded → (r.state.iter : Int) = max max_iter 1)) ∧
    (∃ r : DriverResult K,
      (∀ fuel lsFuel, (max max_iter 1).toNat ≤ fuel → 35 ≤ lsFuel →
        Steepest.steepest_gradient_descent sqrt lsFuel fuel x tol max_iter = some r) ∧
      (r.state.iter : Int) ≤ max max_iter 1 ∧
      (r.terminal = Terminal.MaxIterExceeded → (r.state.iter : Int) = max max_iter 1)) := by
  obtain ⟨hM1, hM2, hM3⟩ := max_one_cases max_iter
  have hm : ((0 : Nat) : Int) + (((max max_iter 1).toNat - 1 : Nat) + 1) = max max_iter 1 := by
    have := Int.toNat_of_nonneg (show (0 : Int) ≤ max max_iter 1 by omega)
    omega
  have hfuel : ∀ fuel, (max max_iter 1).toNat ≤ fuel → (max max_iter 1).toNat - 1 + 1 ≤ fuel := by
    intro fuel hf; omega
  constructor
  · obtain ⟨r, hr, hle, hmax⟩ := newton_loop_total sqrt tol max_iter (max max_iter 1) x.length
      hM1 hM2 hM3 ((max max_iter 1).toNat - 1)
      { x := x, grad := List.replicate x.length 0, direction := List.replicate x.length 0,
        iter := 0 }
      ⟨rfl, hx, by simp⟩ hm
    exact ⟨r, fun fuel lsFuel hf hl => hr fuel lsFuel (hfuel fuel hf) hl, hle, hmax⟩
  · obtain ⟨r, hr, hle, hmax⟩ := steepest_loop_total sqrt tol max_iter (max max_iter 1) x.length
      hM1 hM2 hM3 ((max max_iter 1).toNat - 1)
      { x := x, grad := List.replicate x.length 0, direction := List.replicate x.length 0,
        iter := 0 } hm
    exact ⟨r, fun fuel lsFuel hf hl => hr fuel lsFuel (hfuel fuel hf) hl, hle, hmax⟩

/-- C15 (counterexample): with `max_iter = 0`, from `(0, 0)` with `tol = 1`, both drivers
make one pass and report an iteration count of `1`, which is not at most `max_iter`. -/
theorem budget_zero_still_iterates :
    (∃ r : DriverResult ℝ,
      Newton.newton_method Real.sqrt 10 1 ([0, 0] : List ℝ) 1 0 = some (Except.ok r) ∧
      ¬ ((r.state.iter : Int) ≤ 0)) ∧
    (∃ r : DriverResult ℝ,
      Steepest.steepest_gradient_descent Real.sqrt 10 1 ([0, 0] : List ℝ) 1 0 = some r ∧
      ¬ ((r.state.iter : Int) ≤ 0)) :=
  ⟨⟨_, eval_newton_origin 1 0 (by norm_num) (by decide), by decide⟩,
    ⟨_, eval_steepest_origin 1 0 (fun h => absurd h.2 (by decide)), by decide⟩⟩

/-- C15 (witness): the amended statement at the starting point `(-1.2, 1.0)` with the
defaults `tol = 1e-6`, `max_iter = 1000` of `newton_method`. -/
theorem drivers_terminate_within_budget_witness :
    (∃ r : DriverResult ℝ,
      (∀ fuel lsFuel, (max (1000 : Int) 1).toNat ≤ fuel → 35 ≤ lsFuel →
        Newton.newton_method Real.sqrt lsFuel fuel ([-6 / 5, 1] : List ℝ) 1e-6 1000 =
          some (Except.ok r)) ∧
      (r.state.iter : Int) ≤ max 1000 1 ∧
      (r.terminal = Terminal.MaxIterExceeded → (r.state.iter : Int) = max 1000 1)) ∧
    (∃ r : DriverResult ℝ,
      (∀ fuel lsFuel, (max (1000 : Int) 1).toNat ≤ fuel → 35 ≤ lsFuel →
        Steepest.steepest_gradient_descent Real.sqrt lsFuel fuel ([-6 / 5, 1] : List ℝ) 1e-6
          1000 = some r) ∧
      (r.state.iter : Int) ≤ max 1000 1 ∧
      (r.terminal = Terminal.MaxIterExceeded → (r.state.iter : Int) = max 1000 1)) :=
  drivers_terminate_within_budget Real.sqrt [-6 / 5, 1] 1e-6 1000 (by simp)

/-- C16: from `(0, 0)` with `tol = 1e-6` and `max_iter = 1`, `newton_method` ends in the
`MaxIterExceeded` state and reports the point `(1/4, 0)`, the objective value `61/64` there,
and the gradient norm `2`; but the gradient at `(1/4, 0)` is `(19/4, -25/2)`, whose norm is
not `2`: the norm reported is the one computed before the last update. -/
theorem newton_reports_stale_norm :
    ∃ r : DriverResult ℝ,
      Newton.newton_method Real.sqrt 10 1 ([0, 0] : List ℝ) 1e-6 1 = some (Except.ok r) ∧
      r.terminal = Terminal.MaxIterExceeded ∧
      Newton.final_report r = Except.ok (1, [1 / 4, 0], 61 / 64, 2) ∧
      Newton.gradient r.state.x r.state.grad = Except.ok [19 / 4, -25 / 2] ∧
      Real.sqrt (sumSquares ([19 / 4, -25 / 2] : List ℝ)) ≠ 2 := by
  refine ⟨_, eval_newton_origin 1e-6 1 (by norm_num) (by decide), rfl, ?_,
    eval_newton_gradient_quarter, ?_⟩
  · simp only [Newton.final_report, eval_rosenbrock_quarter]
  · rw [eval_sumSquares_quarter]
    have := sqrt_quarter_gt_three
    linarith

/-- C18: in double arithmetic, `newton_method` started from `(-1.2, 1.0)` with `tol = 1e-6`
and `max_iter = 1000` returns (for every fuel of at least 4 line-search trials and 22 passes)
in the `Converged` state after 21 iterations, fewer than 1000; the final gradient norm is
below `tol`, each coordinate of the final point differs from `1.0` by less than `1e-6`, and
the objective at the final point is below `1e-10`. -/
theorem newton_end_to_end :
    ∃ r : DriverResult Dbl,
      (∀ lsFuel fuel, 4 ≤ lsFuel → 22 ≤ fuel →
        F64.Newton.newton_method lsFuel fuel [-1.2, 1.0] 1e-6 1000 = some (Except.ok r)) ∧
      r.terminal = Terminal.Converged ∧
      r.state.iter = 21 ∧ (r.state.iter : Int) < 1000 ∧
      r.norm_grad < 1e-6 ∧
      r.state.x = [Dbl.fin false 9007199254201161 (-53), Dbl.fin false 9007199253650226 (-53)] ∧
      (∀ i, i < 2 → Dbl.abs (r.state.x.getD i 0 - 1.0) < 1e-6) ∧
      ∃ f_x, F64.Newton.rosenbrock r.state.x = Except.ok f_x ∧ f_x < 1e-10 := by
  refine ⟨
    { state :=
        { x := [Dbl.fin false 9007199254201161 (-53), Dbl.fin false 9007199253650226 (-53)],
          grad := [Dbl.fin false 7219706880018164 (-84), Dbl.fin true 4769131685478400 (-84)],
          direction := [Dbl.fin false 5243347108871867 (-72),
            Dbl.fin false 5880603913308144 (-71)],
          iter := 21 },
      norm_grad := Dbl.fin false 8652674989089539 (-84),
      terminal := Terminal.Converged },
    fun lsFuel fuel hls hf => ?_, rfl, rfl, by decide, by decide!, rfl, ?_, ?_⟩
  · exact f64_newton_loop_mono 4 lsFuel _ _ _ hls 22 _ _ fuel hf eval_f64_newton_run
  · intro i hi
    interval_cases i <;> decide!
  · exact ⟨Dbl.fin false 4976597240397824 (-120), by decide!, by decide!⟩

/-- C19 (amended): in double arithmetic, at an even-length point `x` with a gradient `g` and
a direction `d` whose dot product as the code accumulates it is negative, a value
`alpha ≥ 1e-10` returned by the line search of either file with the default config moves the
driver to the trial point of `alpha`, where the objective as computed is not above the
objective computed at `x`: `rosenbrock(x + alpha·d) <= rosenbrock(x)` on the rounded values.
The inequality need not be strict. -/
theorem accepted_step_not_increasing (x g d : List Dbl) (alpha : Dbl) (fuel : Nat)
    (hx : x.length % 2 = 0) (hgd : F64.gradDotDir g d < 0) (hfloor : (1e-10 : Dbl) ≤ alpha)
    (hret : F64.Newton.armijo_line_search fuel x g d 0.01 1.0 0.5 = some (Except.ok alpha) ∨
      F64.Steepest.armijo_line_search fuel x g d 0.01 1.0 0.5 = some alpha) :
    F64.updatePoint x d alpha x.length = F64.trialPoint x d alpha ∧
    F64.Newton.rosenbrock (F64.updatePoint x d alpha x.length) =
      Except.ok (F64.Steepest.rosenbrock (F64.updatePoint x d alpha x.length)) ∧
    F64.Steepest.rosenbrock (F64.updatePoint x d alpha x.length) ≤ F64.Steepest.rosenbrock x := by
  have hS : F64.Steepest.armijo_line_search fuel x g d 0.01 1.0 0.5 = some alpha := by
    rcases hret with h | h
    · rw [f64_newton_search_eq x g d _ _ _ fuel hx, if_neg (dbl_not_le_of_lt _ _ hgd)] at h
      cases hs : F64.Steepest.armijo_line_search fuel x g d 0.01 1.0 0.5 with
      | none => rw [hs] at h; simp at h
      | some r =>
        rw [hs] at h
        simp only [Option.map_some', Option.some.injEq, Except.ok.injEq] at h
        rw [h]
    · exact h
  have hup := f64_updatePoint_eq_trialPoint x d alpha
  refine ⟨hup, ?_, ?_⟩
  · apply f64_newton_rosenbrock_eq_steepest
    rw [f64_length_updatePoint]; exact hx
  · rw [hup]
    exact f64_accepted_le x d (F64.gradDotDir g d) alpha fuel hgd hfloor hS

/-- C19 (counterexample): a pass of the steepest-descent driver in doubles at
`x = (1e4, 100000000.00499825)`.  The gradient is about `(4.99, 1.00)`, the direction is its
negative, the dot product is negative (as computed, and exactly), and the line search of
either file returns `alpha = 2^-33 ≥ 1e-10` at its 34th trial.  The driver moves to
`(9999.999999999418, 100000000.00499825)`, a different point, where `rosenbrock` of either
file returns the same double as at `x`, so the objective did not strictly decrease; in exact
arithmetic the objective at the new point is even larger than at `x`. -/
theorem steepest_step_keeps_objective :
    ∃ g d x' : List Dbl,
      (∃ norm_grad : Dbl,
        F64.Steepest.pass 34 2
            { x := [1e4, 100000000.00499825], grad := [0, 0], direction := [0, 0],
              iter := 0 } =
          some ({ x := x', grad := g, direction := d, iter := 1 }, norm_grad)) ∧
      F64.Steepest.gradient [1e4, 100000000.00499825] [0, 0] = g ∧
      F64.assignNeg [0, 0] g 2 = d ∧
      F64.gradDotDir g d < 0 ∧
      dotSpec (g.map Dbl.toRat) (d.map Dbl.toRat) < 0 ∧
      (∀ fuel, 34 ≤ fuel →
        F64.Steepest.armijo_line_search fuel [1e4, 100000000.00499825] g d 0.01 1.0 0.5 =
          some (Dbl.twoPow (-33)) ∧
        F64.Newton.armijo_line_search fuel [1e4, 100000000.00499825] g d 0.01 1.0 0.5 =
          some (Except.ok (Dbl.twoPow (-33)))) ∧
      (1e-10 : Dbl) ≤ Dbl.twoPow (-33) ∧
      F64.updatePoint [1e4, 100000000.00499825] d (Dbl.twoPow (-33)) 2 = x' ∧
      x' ≠ [1e4, 100000000.00499825] ∧
      F64.Steepest.rosenbrock x' = F64.Steepest.rosenbrock [1e4, 100000000.00499825] ∧
      F64.Newton.rosenbrock x' = F64.Newton.rosenbrock [1e4, 100000000.00499825] ∧
      ¬ (F64.Steepest.rosenbrock x' < F64.Steepest.rosenbrock [1e4, 100000000.00499825]) ∧
      rosenbrockSpec (([1e4, 100000000.00499825] : List Dbl).map Dbl.toRat) <
        rosenbrockSpec (x'.map Dbl.toRat) := by
  obtain ⟨hx, hg, hd, hgd, hs, hn, hfl, hup, hf1, hf0, hn1, hn0, hlt, hpass⟩ :=
    eval_f64_flat_step
  refine ⟨[Dbl.fin false 5621412110794752 (-50), Dbl.fin false 9004049969971200 (-53)],
    [Dbl.fin true 5621412110794752 (-50), Dbl.fin true 9004049969971200 (-53)],
    [Dbl.fin false 5497558138879680 (-39), Dbl.fin false 6710886400335427 (-26)],
    ⟨_, hpass⟩, hg, hd, hgd, ?_, fun fuel hf => ⟨?_, ?_⟩, hfl, hup, ?_, ?_, ?_, ?_, ?_⟩
  · simp only [dotSpec, List.map, List.length, Finset.sum_range_succ, Finset.sum_range_zero,
      List.getD_cons_zero, List.getD_cons_succ, Dbl.toRat]
    norm_num
  · exact f64_steepest_search_mono _ _ _ _ _ _ 34 fuel _ hf hs
  · exact f64_newton_search_mono _ _ _ _ _ _ 34 fuel _ hf hn
  · rw [hx]; decide
  · rw [hf1, hf0]
  · rw [hn1, hn0]
  · rw [hf1, hf0]; exact hlt
  · rw [hx]
    simp only [rosenbrockSpec, List.map, List.length, Finset.sum_range_succ,
      Finset.sum_range_zero, List.getD_cons_zero, List.getD_cons_succ, Dbl.toRat]
    norm_num

/-- C19 (witness): the amended statement at `x = (0, 0)`, `g = (-2, 0)`, `d = -g`, where the
line search returns `alpha = 2^-3` and the computed objective drops from `1` to `61/64`. -/
theorem accepted_step_not_increasing_witness :
    ([0, 0] : List Dbl).length % 2 = 0 ∧ F64.gradDotDir [-2, 0] [2, 0] < 0 ∧
    (1e-10 : Dbl) ≤ Dbl.twoPow (-3) ∧
    F64.Steepest.armijo_line_search 4 [0, 0] [-2, 0] [2, 0] 0.01 1.0 0.5 =
      some (Dbl.twoPow (-3)) ∧
    F64.Steepest.rosenbrock (F64.updatePoint [0, 0] [2, 0] (Dbl.twoPow (-3)) 2) ≤
      F64.Steepest.rosenbrock [0, 0] ∧
    F64.Steepest.rosenbrock (F64.updatePoint [0, 0] [2, 0] (Dbl.twoPow (-3)) 2) =
      Dbl.fin false 8584986789675008 (-53) ∧
    F64.Steepest.rosenbrock [0, 0] = 1 :=
  ⟨rfl, eval_f64_origin_step.1, eval_f64_origin_step.2.1, eval_f64_search_origin_default,
    (accepted_step_not_increasing [0, 0] [-2, 0] [2, 0] (Dbl.twoPow (-3)) 4 rfl
      eval_f64_origin_step.1 eval_f64_origin_step.2.1
      (Or.inr eval_f64_search_origin_default)).2.2,
    by rw [eval_f64_origin_step.2.2.1]; exact eval_f64_origin_step.2.2.2.1,
    eval_f64_origin_step.2.2.2.2⟩

/-- C20: for every even-length point `x`, `gradient(x)` (of either file) is the zero vector if
and only if every coordinate of `x` equals `1`; at that point `rosenbrock` returns `0`; and
`rosenbrock` is `≥ 0` at every point of the same length, so `0` is its minimum. -/
theorem stationary_iff_all_ones (x g0 : List K) (h : x.length % 2 = 0) :
    (Newton.gradient x g0 = Except.ok (List.replicate x.length 0) ↔
      ∀ i, i < x.length → x.getD i 0 = 1) ∧
    (Steepest.gradient x g0 = List.replicate x.length 0 ↔
      ∀ i, i < x.length → x.getD i 0 = 1) ∧
    ((∀ i, i < x.length → x.getD i 0 = 1) →
      Newton.rosenbrock x = Except.ok 0 ∧ Steepest.rosenbrock x = 0) ∧
    (∀ y : List K, y.length = x.length →
      ∃ v : K, Newton.rosenbrock y = Except.ok v ∧ Steepest.rosenbrock y = v ∧ 0 ≤ v) := by
  obtain ⟨hlen, hent⟩ := steepest_gradient_spec x g0 h
  have hS : Steepest.gradient x g0 = List.replicate x.length 0 ↔
      ∀ i, i < x.length → x.getD i 0 = 1 := by
    rw [eq_replicate_zero_iff _ _ hlen, ← gradSpec_zero_iff x h]
    constructor
    · intro hg j hj; rw [← hent j hj]; exact hg j hj
    · intro hg j hj; rw [hent j hj]; exact hg j hj
  refine ⟨?_, hS, fun hx => ?_, fun y hy => ?_⟩
  · rw [newton_gradient_eq x g0 h, ← hS]
    constructor
    · intro hh; exact Except.ok.inj hh
    · intro hh; rw [hh]
  · rw [newton_rosenbrock_eq_spec x h, steepest_rosenbrock_eq_spec x h, rosenbrockSpec_ones x hx]
    exact ⟨rfl, rfl⟩
  · have hy2 : y.length % 2 = 0 := by rw [hy]; exact h
    exact ⟨rosenbrockSpec y, newton_rosenbrock_eq_spec y hy2, steepest_rosenbrock_eq_spec y hy2,
      rosenbrockSpec_nonneg y⟩

/-- C20 (witness): the statement at the point `(1, 1)`. -/
theorem stationary_iff_all_ones_witness :
    (Newton.gradient ([1, 1] : List ℚ) [] = Except.ok (List.replicate ([1, 1] : List ℚ).length 0) ↔
      ∀ i, i < ([1, 1] : List ℚ).length → ([1, 1] : List ℚ).getD i 0 = 1) ∧
    (Steepest.gradient ([1, 1] : List ℚ) [] = List.replicate ([1, 1] : List ℚ).length 0 ↔
      ∀ i, i < ([1, 1] : List ℚ).length → ([1, 1] : List ℚ).getD i 0 = 1) ∧
    ((∀ i, i < ([1, 1] : List ℚ).length → ([1, 1] : List ℚ).getD i 0 = 1) →
      Newton.rosenbrock ([1, 1] : List ℚ) = Except.ok 0 ∧
        Steepest.rosenbrock ([1, 1] : List ℚ) = 0) ∧
    (∀ y : List ℚ, y.length = ([1, 1] : List ℚ).length →
      ∃ v : ℚ, Newton.rosenbrock y = Except.ok v ∧ Steepest.rosenbrock y = v ∧ 0 ≤ v) :=
  stationary_iff_all_ones [1, 1] [] (by decide)

end Claims

end NumOpt
